import Mathlib

/-!
Dual-contouring traversal of an octree (`kernel/src/render/dc.cpp`) and the quadratic
error function exercised by `libfive/test/qef.cpp`.

Namespace `DC`: a shallow embedding of `DC::Worker` (`cell`, `face`, `edge`, `quad`, `Q`,
`R`) and of `DC::Render`, with the properties of the mesh they build. Namespace `Kernel`:
`QEF<N>` in exact rational arithmetic, with the properties of its solves.

* A pointer `const Octree*` is a tree node together with its address `addr`; the
  address is the key of `Worker::verts`.
* `unsigned` is 32 bits wide: the conversion of `mesh.verts.size()` to the mapped
  type of `verts` is a reduction modulo `2 ^ 32`.
* The worker is threaded through the calls explicitly, in the order of the source.
-/

namespace DC

/-! ## Data model -/

/-- Vertex position stored in a leaf. The traversal copies it and never computes with it. -/
structure Vec3 where
  x : Int
  y : Int
  z : Int
deriving DecidableEq, Repr

/-- Modelled from the spec: the enumeration `Octree::Axis` (declared in `octree.hpp`,
which is not part of the sources at hand), with `AXIS_X=1, AXIS_Y=2, AXIS_Z=4`. -/
inductive Axis
  | AXIS_X
  | AXIS_Y
  | AXIS_Z
deriving DecidableEq, Repr

/-- Modelled from the spec: the numeric value of an axis, a one-bit mask over the child
and corner indices (bit 0 = X, bit 1 = Y, bit 2 = Z). -/
def Axis.bit : Axis → Fin 8
  | .AXIS_X => 1
  | .AXIS_Y => 2
  | .AXIS_Z => 4

/-- Modelled from the spec: the node tags `Octree::LEAF` and `Octree::BRANCH`. -/
inductive NodeType
  | LEAF
  | BRANCH
deriving DecidableEq, Repr

/-- Modelled from the spec: an octree node is a tagged variant, `Branch` with eight
children indexed by a 3-bit mask, or `Leaf` with eight corner signs and a vertex
(`octree.hpp` is not part of the sources at hand). `addr` is the address of the node, the
identity under which `Worker::verts` files it. -/
inductive Octree
  | LEAF (addr : Nat) (corners : Fin 8 → Bool) (vert : Vec3)
  | BRANCH (addr : Nat) (children : Fin 8 → Octree)

namespace Octree

/-- Modelled from the spec: `Octree::getType`. -/
def getType : Octree → NodeType
  | LEAF _ _ _ => .LEAF
  | BRANCH _ _ => .BRANCH

/-- The address of a node (the value of the pointer to it). -/
def addr : Octree → Nat
  | LEAF a _ _ => a
  | BRANCH a _ => a

/-- Modelled from the spec: `Octree::child(i)`; a leaf answers with itself. -/
def child : Octree → Fin 8 → Octree
  | LEAF a cs v, _ => LEAF a cs v
  | BRANCH _ ch, i => ch i

/-- Modelled from the spec: `Octree::corner(i)`, the sign recorded at corner `i` of a leaf.
A branch has no corner signs; `edge` reads corners only behind four `LEAF` tests. -/
def corner : Octree → Fin 8 → Bool
  | LEAF _ cs _, i => cs i
  | BRANCH _ _, _ => false

/-- Modelled from the spec: `Octree::getVertex`, the vertex solved for a leaf. -/
def getVertex : Octree → Vec3
  | LEAF _ _ v => v
  | BRANCH _ _ => ⟨0, 0, 0⟩

/-- Height of a tree: 0 for a leaf, one more than the tallest child for a branch. -/
def height : Octree → Nat
  | LEAF _ _ _ => 0
  | BRANCH _ ch => 1 + Finset.univ.sup (fun i => height (ch i))

/-- The leaves of a tree, children in ascending index order. -/
def leaves : Octree → List Octree
  | LEAF a cs v => [LEAF a cs v]
  | BRANCH _ ch => (List.finRange 8).flatMap (fun i => leaves (ch i))

/-- A leaf crosses the surface when its eight corner signs are not all equal. -/
def crossing (o : Octree) : Bool :=
  decide (∃ i j : Fin 8, o.corner i ≠ o.corner j)

end Octree

/-- The type `Mesh` (declared in a header that is not part of the sources at hand):
the vertex list `verts` and the triangle list `tris`, both grown by `push_back`. -/
structure Mesh where
  verts : List Vec3
  tris : List (Nat × Nat × Nat)
deriving DecidableEq, Repr

/-- The state of `struct Worker`: `verts` is the `std::map<const Octree*, unsigned>`, kept
as an association list from addresses to indices, and `mesh` the mesh under
construction. -/
structure Worker where
  verts : List (Nat × Nat)
  mesh : Mesh
deriving DecidableEq, Repr

/-- The freshly constructed worker of `DC::Render` (`Worker w;`). -/
def Worker.empty : Worker := ⟨[], ⟨[], []⟩⟩

/-- Number of values of `unsigned`. -/
def UNSIGNED_SIZE : Nat := 2 ^ 32

/-! ## The worker's functions -/

/-- `Worker::Q`. -/
def Q (a : Axis) : Axis :=
  if a = .AXIS_X then .AXIS_Y else
  if a = .AXIS_Y then .AXIS_Z
  else .AXIS_X

/-- `Worker::R`. -/
def R (a : Axis) : Axis :=
  if a = .AXIS_X then .AXIS_Z else
  if a = .AXIS_Y then .AXIS_X
  else .AXIS_Y

/-- The lambda `index` of `Worker::quad`: when `o` has no entry in `verts`, it is entered
under the current size of `mesh.verts` (converted to `unsigned`) and its vertex is
pushed; the result is `verts[o]` and the updated worker. -/
def index (o : Octree) (w : Worker) : Nat × Worker :=
  let w1 : Worker :=
    match w.verts.lookup o.addr with
    | none =>
        { verts := (o.addr, w.mesh.verts.length % UNSIGNED_SIZE) :: w.verts,
          mesh := { w.mesh with verts := w.mesh.verts ++ [o.getVertex] } }
    | some _ => w
  ((w1.verts.lookup o.addr).getD 0, w1)

/-- `Worker::quad`. -/
def quad (a b c d : Octree) (w : Worker) : Worker :=
  let (ia, w) := index a w
  let (ib, w) := index b w
  let (ic, w) := index c w
  let (id, w) := index d w
  { w with mesh := { w.mesh with tris := w.mesh.tris ++ [(ia, ib, ic), (ic, ib, id)] } }

theorem Octree.height_child_le (o : Octree) (i : Fin 8) : (o.child i).height ≤ o.height := by
  cases o with
  | LEAF a cs v => simp [Octree.child]
  | BRANCH a ch =>
    simp only [Octree.child, Octree.height]
    have := Finset.le_sup (f := fun i => Octree.height (ch i)) (Finset.mem_univ i)
    simp only at this
    omega

theorem Octree.height_child_lt (o : Octree) (i : Fin 8) (h : o.getType = .BRANCH) :
    (o.child i).height < o.height := by
  cases o with
  | LEAF a cs v => simp [Octree.getType] at h
  | BRANCH a ch =>
    simp only [Octree.child, Octree.height]
    have := Finset.le_sup (f := fun i => Octree.height (ch i)) (Finset.mem_univ i)
    simp only at this
    omega

/-- `Worker::edge`. -/
def edge (a b c d : Octree) (axis : Axis) (w : Worker) : Worker :=
  let q := (Q axis).bit
  let r := (R axis).bit
  if a.getType = .LEAF ∧ b.getType = .LEAF ∧
     c.getType = .LEAF ∧ d.getType = .LEAF ∧
     (a.corner (q ||| r) ≠ a.corner (q ||| r ||| axis.bit) ∨
      b.corner r ≠ b.corner (r ||| axis.bit) ∨
      c.corner q ≠ c.corner (q ||| axis.bit) ∨
      d.corner 0 ≠ d.corner axis.bit) then
    if d.corner 0 then
      quad a b c d w
    else
      quad a c b d w
  else if h : a.getType = .BRANCH ∨ b.getType = .BRANCH ∨
               c.getType = .BRANCH ∨ d.getType = .BRANCH then
    let w := edge (a.child (q ||| r)) (b.child r) (c.child q) (d.child 0) axis w
    edge (a.child (q ||| r ||| axis.bit)) (b.child (r ||| axis.bit))
         (c.child (q ||| axis.bit)) (d.child axis.bit) axis w
  else w
termination_by a.height + b.height + c.height + d.height
decreasing_by
  all_goals simp_wf
  all_goals
    have ha1 := Octree.height_child_le a ((Q axis).bit ||| (R axis).bit)
    have ha2 := Octree.height_child_le a ((Q axis).bit ||| (R axis).bit ||| axis.bit)
    have hb1 := Octree.height_child_le b (R axis).bit
    have hb2 := Octree.height_child_le b ((R axis).bit ||| axis.bit)
    have hc1 := Octree.height_child_le c (Q axis).bit
    have hc2 := Octree.height_child_le c ((Q axis).bit ||| axis.bit)
    have hd1 := Octree.height_child_le d 0
    have hd2 := Octree.height_child_le d axis.bit
    rcases h with h | h | h | h
    · have ha3 := Octree.height_child_lt a ((Q axis).bit ||| (R axis).bit) h
      have ha4 := Octree.height_child_lt a ((Q axis).bit ||| (R axis).bit ||| axis.bit) h
      omega
    · have hb3 := Octree.height_child_lt b (R axis).bit h
      have hb4 := Octree.height_child_lt b ((R axis).bit ||| axis.bit) h
      omega
    · have hc3 := Octree.height_child_lt c (Q axis).bit h
      have hc4 := Octree.height_child_lt c ((Q axis).bit ||| axis.bit) h
      omega
    · have hd3 := Octree.height_child_lt d 0 h
      have hd4 := Octree.height_child_lt d axis.bit h
      omega

/-- `Worker::face`. -/
def face (a b : Octree) (axis : Axis) (w : Worker) : Worker :=
  if h : a.getType = .BRANCH ∨ b.getType = .BRANCH then
    let q := (Q axis).bit
    let r := (R axis).bit
    let w := face (a.child axis.bit) (b.child 0) axis w
    let w := face (a.child (q ||| axis.bit)) (b.child q) axis w
    let w := face (a.child (r ||| axis.bit)) (b.child r) axis w
    let w := face (a.child (q ||| r ||| axis.bit)) (b.child (q ||| r)) axis w
    let w := edge (a.child axis.bit) (a.child (r ||| axis.bit)) (b.child 0) (b.child r)
                  (Q axis) w
    let w := edge (a.child (q ||| axis.bit)) (a.child (q ||| r ||| axis.bit))
                  (b.child q) (b.child (q ||| r)) (Q axis) w
    let w := edge (a.child axis.bit) (b.child 0) (a.child (axis.bit ||| q)) (b.child q)
                  (R axis) w
    edge (a.child (r ||| axis.bit)) (b.child r) (a.child (r ||| axis.bit ||| q))
         (b.child (r ||| q)) (R axis) w
  else w
termination_by a.height + b.height
decreasing_by
  all_goals simp_wf
  all_goals
    have ha1 := Octree.height_child_le a axis.bit
    have ha2 := Octree.height_child_le a ((Q axis).bit ||| axis.bit)
    have ha3 := Octree.height_child_le a ((R axis).bit ||| axis.bit)
    have ha4 := Octree.height_child_le a ((Q axis).bit ||| (R axis).bit ||| axis.bit)
    have hb1 := Octree.height_child_le b 0
    have hb2 := Octree.height_child_le b (Q axis).bit
    have hb3 := Octree.height_child_le b (R axis).bit
    have hb4 := Octree.height_child_le b ((Q axis).bit ||| (R axis).bit)
    rcases h with h | h
    · have ha5 := Octree.height_child_lt a axis.bit h
      have ha6 := Octree.height_child_lt a ((Q axis).bit ||| axis.bit) h
      have ha7 := Octree.height_child_lt a ((R axis).bit ||| axis.bit) h
      have ha8 := Octree.height_child_lt a ((Q axis).bit ||| (R axis).bit ||| axis.bit) h
      omega
    · have hb5 := Octree.height_child_lt b 0 h
      have hb6 := Octree.height_child_lt b (Q axis).bit h
      have hb7 := Octree.height_child_lt b (R axis).bit h
      have hb8 := Octree.height_child_lt b ((Q axis).bit ||| (R axis).bit) h
      omega

/-- `Worker::cell`. -/
def cell : Octree → Worker → Worker
  | .LEAF _ _ _, w => w
  | .BRANCH a ch, w =>
    let c := Octree.BRANCH a ch
    let X := Axis.AXIS_X.bit
    let Y := Axis.AXIS_Y.bit
    let Z := Axis.AXIS_Z.bit
    -- Recurse, calling the cell procedure for every child
    let w := (List.finRange 8).foldl (fun w i => cell (ch i) w) w
    -- Then call the face procedure on every pair of cells
    let w := face (c.child 0) (c.child X) .AXIS_X w
    let w := face (c.child Y) (c.child (Y ||| X)) .AXIS_X w
    let w := face (c.child Z) (c.child (Z ||| X)) .AXIS_X w
    let w := face (c.child (Y ||| Z)) (c.child (Y ||| Z ||| X)) .AXIS_X w
    let w := face (c.child 0) (c.child Y) .AXIS_Y w
    let w := face (c.child X) (c.child (X ||| Y)) .AXIS_Y w
    let w := face (c.child Z) (c.child (Z ||| Y)) .AXIS_Y w
    let w := face (c.child (X ||| Z)) (c.child (X ||| Z ||| Y)) .AXIS_Y w
    let w := face (c.child 0) (c.child Z) .AXIS_Z w
    let w := face (c.child X) (c.child (X ||| Z)) .AXIS_Z w
    let w := face (c.child Y) (c.child (Y ||| Z)) .AXIS_Z w
    let w := face (c.child (X ||| Y)) (c.child (X ||| Y ||| Z)) .AXIS_Z w
    -- Finally, call the edge function 6 times
    let w := edge (c.child 0) (c.child X) (c.child Y) (c.child (X ||| Y)) .AXIS_Z w
    let w := edge (c.child Z) (c.child (X ||| Z)) (c.child (Y ||| Z))
                  (c.child (X ||| Y ||| Z)) .AXIS_Z w
    let w := edge (c.child 0) (c.child Y) (c.child Z) (c.child (Y ||| Z)) .AXIS_X w
    let w := edge (c.child X) (c.child (Y ||| X)) (c.child (Z ||| X))
                  (c.child (Y ||| Z ||| X)) .AXIS_X w
    let w := edge (c.child 0) (c.child Z) (c.child X) (c.child (Z ||| X)) .AXIS_Y w
    edge (c.child Y) (c.child (Z ||| Y)) (c.child (X ||| Y))
         (c.child (Z ||| X ||| Y)) .AXIS_Y w

/-- `DC::Render`, from the octree on: a fresh worker runs `cell` on the root and its mesh
is returned. -/
def Render (o : Octree) : Mesh :=
  (cell o Worker.empty).mesh

/-! ## The sequence of quad calls

The control flow of `cell`, `face` and `edge` never looks at the worker, so each of them
is a fixed sequence of `quad` calls. The functions below list that sequence; they recurse
on an explicit depth bound, which makes them reducible by evaluation. -/

/-- The four arguments of one call of `Worker::quad`, in the order passed. -/
structure QuadCall where
  a : Octree
  b : Octree
  c : Octree
  d : Octree

/-- Run the quad calls of a list, first to last. -/
def runQuads (qs : List QuadCall) (w : Worker) : Worker :=
  qs.foldl (fun w q => quad q.a q.b q.c q.d w) w

/-- The quad calls made by `edge a b c d axis`, with recursion depth at most `n`. -/
def edgeQuads : Nat → Octree → Octree → Octree → Octree → Axis → List QuadCall
  | n, a, b, c, d, axis =>
    let q := (Q axis).bit
    let r := (R axis).bit
    if a.getType = .LEAF ∧ b.getType = .LEAF ∧
       c.getType = .LEAF ∧ d.getType = .LEAF ∧
       (a.corner (q ||| r) ≠ a.corner (q ||| r ||| axis.bit) ∨
        b.corner r ≠ b.corner (r ||| axis.bit) ∨
        c.corner q ≠ c.corner (q ||| axis.bit) ∨
        d.corner 0 ≠ d.corner axis.bit) then
      if d.corner 0 then [⟨a, b, c, d⟩] else [⟨a, c, b, d⟩]
    else if a.getType = .BRANCH ∨ b.getType = .BRANCH ∨
            c.getType = .BRANCH ∨ d.getType = .BRANCH then
      match n with
      | 0 => []
      | n + 1 =>
        edgeQuads n (a.child (q ||| r)) (b.child r) (c.child q) (d.child 0) axis ++
        edgeQuads n (a.child (q ||| r ||| axis.bit)) (b.child (r ||| axis.bit))
          (c.child (q ||| axis.bit)) (d.child axis.bit) axis
    else []

/-- The quad calls made by `face a b axis`, with recursion depth at most `n`. -/
def faceQuads : Nat → Octree → Octree → Axis → List QuadCall
  | n, a, b, axis =>
    if a.getType = .BRANCH ∨ b.getType = .BRANCH then
      match n with
      | 0 => []
      | n + 1 =>
        let q := (Q axis).bit
        let r := (R axis).bit
        faceQuads n (a.child axis.bit) (b.child 0) axis ++
        faceQuads n (a.child (q ||| axis.bit)) (b.child q) axis ++
        faceQuads n (a.child (r ||| axis.bit)) (b.child r) axis ++
        faceQuads n (a.child (q ||| r ||| axis.bit)) (b.child (q ||| r)) axis ++
        edgeQuads (2 * n) (a.child axis.bit) (a.child (r ||| axis.bit)) (b.child 0) (b.child r)
                  (Q axis) ++
        edgeQuads (2 * n) (a.child (q ||| axis.bit)) (a.child (q ||| r ||| axis.bit))
                  (b.child q) (b.child (q ||| r)) (Q axis) ++
        edgeQuads (2 * n) (a.child axis.bit) (b.child 0) (a.child (axis.bit ||| q)) (b.child q)
                  (R axis) ++
        edgeQuads (2 * n) (a.child (r ||| axis.bit)) (b.child r) (a.child (r ||| axis.bit ||| q))
             (b.child (r ||| q)) (R axis)
    else []

/-- The quad calls made by `cell c`. -/
def cellQuads : Octree → List QuadCall
  | .LEAF _ _ _ => []
  | .BRANCH a ch =>
    let c := Octree.BRANCH a ch
    let X := Axis.AXIS_X.bit
    let Y := Axis.AXIS_Y.bit
    let Z := Axis.AXIS_Z.bit
    let n := c.height
    (List.finRange 8).flatMap (fun i => cellQuads (ch i)) ++
    faceQuads (2 * n) (c.child 0) (c.child X) .AXIS_X ++
    faceQuads (2 * n) (c.child Y) (c.child (Y ||| X)) .AXIS_X ++
    faceQuads (2 * n) (c.child Z) (c.child (Z ||| X)) .AXIS_X ++
    faceQuads (2 * n) (c.child (Y ||| Z)) (c.child (Y ||| Z ||| X)) .AXIS_X ++
    faceQuads (2 * n) (c.child 0) (c.child Y) .AXIS_Y ++
    faceQuads (2 * n) (c.child X) (c.child (X ||| Y)) .AXIS_Y ++
    faceQuads (2 * n) (c.child Z) (c.child (Z ||| Y)) .AXIS_Y ++
    faceQuads (2 * n) (c.child (X ||| Z)) (c.child (X ||| Z ||| Y)) .AXIS_Y ++
    faceQuads (2 * n) (c.child 0) (c.child Z) .AXIS_Z ++
    faceQuads (2 * n) (c.child X) (c.child (X ||| Z)) .AXIS_Z ++
    faceQuads (2 * n) (c.child Y) (c.child (Y ||| Z)) .AXIS_Z ++
    faceQuads (2 * n) (c.child (X ||| Y)) (c.child (X ||| Y ||| Z)) .AXIS_Z ++
    edgeQuads (4 * n) (c.child 0) (c.child X) (c.child Y) (c.child (X ||| Y)) .AXIS_Z ++
    edgeQuads (4 * n) (c.child Z) (c.child (X ||| Z)) (c.child (Y ||| Z))
                  (c.child (X ||| Y ||| Z)) .AXIS_Z ++
    edgeQuads (4 * n) (c.child 0) (c.child Y) (c.child Z) (c.child (Y ||| Z)) .AXIS_X ++
    edgeQuads (4 * n) (c.child X) (c.child (Y ||| X)) (c.child (Z ||| X))
                  (c.child (Y ||| Z ||| X)) .AXIS_X ++
    edgeQuads (4 * n) (c.child 0) (c.child Z) (c.child X) (c.child (Z ||| X)) .AXIS_Y ++
    edgeQuads (4 * n) (c.child Y) (c.child (Z ||| Y)) (c.child (X ||| Y))
         (c.child (Z ||| X ||| Y)) .AXIS_Y

/-! ## Definitions used by the statements -/

/-- The generic form of `cell` on a branch, as the specification words it: `cell` on the
eight children; then, for each axis in the order X, Y, Z, `face` on every pair of children
adjacent along that axis (low child first, low children in ascending order); then, for each
axis in the order Z, X, Y, `edge` on the two groups of four children around an interior
edge parallel to that axis. -/
def cellGeneric (c : Octree) (w : Worker) : Worker :=
  let w := (List.finRange 8).foldl (fun w i => cell (c.child i) w) w
  let w := [Axis.AXIS_X, Axis.AXIS_Y, Axis.AXIS_Z].foldl (fun w axis =>
    ((List.finRange 8).filter (fun i => i &&& axis.bit = 0)).foldl
      (fun w i => face (c.child i) (c.child (i ||| axis.bit)) axis w) w) w
  [Axis.AXIS_Z, Axis.AXIS_X, Axis.AXIS_Y].foldl (fun w axis =>
    [0, axis.bit].foldl
      (fun w k => edge (c.child k) (c.child (k ||| (Q axis).bit)) (c.child (k ||| (R axis).bit))
        (c.child (k ||| (Q axis).bit ||| (R axis).bit)) axis w) w) w

/-- The entry `verts[k]` of the map, read as the source reads it (0 when absent). -/
def Worker.idx (w : Worker) (k : Nat) : Nat :=
  (w.verts.lookup k).getD 0

/-- Every index of every triangle of the mesh is below the number of vertices. -/
def TrisClosed (w : Worker) : Prop :=
  ∀ t ∈ w.mesh.tris, t.1 < w.mesh.verts.length ∧ t.2.1 < w.mesh.verts.length ∧
    t.2.2 < w.mesh.verts.length

/-- Every index held in the map `verts` is below the number of vertices. -/
def MapInRange (w : Worker) : Prop :=
  ∀ p ∈ w.verts, p.2 < w.mesh.verts.length

instance (w : Worker) : Decidable (TrisClosed w) := by
  unfold TrisClosed; infer_instance

instance (w : Worker) : Decidable (MapInRange w) := by
  unfold MapInRange; infer_instance

/-- A leaf used in the examples: address `k`, corner signs `cs`, vertex `(k, 0, 0)`. -/
def leafAt (k : Nat) (cs : Fin 8 → Bool) : Octree :=
  .LEAF k cs ⟨k, 0, 0⟩

/-- A worker whose map holds the index 5 for address 0 while the mesh is empty. -/
def staleWorker : Worker := ⟨[(0, 5)], ⟨[], []⟩⟩

/-- The four arguments of a quad call as a list. -/
def QuadCall.args (q : QuadCall) : List Octree := [q.a, q.b, q.c, q.d]

/-- Record a reference to `o` in a history of first references (newest first): a node
whose address is already there changes nothing. -/
def addRef (hr : List Octree) (o : Octree) : List Octree :=
  if o.addr ∈ hr.map Octree.addr then hr else o :: hr

/-- The map `verts` that a history of first references (newest first) stands for: the
node referenced when `rest` had been, holds the index `|rest|`, converted to `unsigned`. -/
def mapOf : List Octree → List (Nat × Nat)
  | [] => []
  | o :: rest => (o.addr, rest.length % UNSIGNED_SIZE) :: mapOf rest

/-- The worker `w` agrees with the history `hr` of first references (newest first): the
map is `mapOf hr`, the vertices are those of the referenced nodes, oldest first, and no
address occurs twice. -/
def Tracks (w : Worker) (hr : List Octree) : Prop :=
  w.verts = mapOf hr ∧ w.mesh.verts = (hr.map Octree.getVertex).reverse ∧
    (hr.map Octree.addr).Nodup

/-- The nodes of a list of references, each address kept at its first occurrence only. -/
def firstRefs : List Octree → List Octree
  | [] => []
  | x :: xs => x :: (firstRefs xs).filter (fun y => decide (y.addr ≠ x.addr))

/-- The leaves passed to `quad` by a list of quad calls, in the order `a, b, c, d` of the
calls of `index`. -/
def refsOf (qs : List QuadCall) : List Octree :=
  qs.flatMap QuadCall.args

/-- One address, one node: nodes of the list that share an address are the same node. -/
def AddrFaithful (l : List Octree) : Prop :=
  ∀ x ∈ l, ∀ y ∈ l, x.addr = y.addr → x = y

/-- The two triangles of a quad call, written with the indices the worker `w` holds for
the four leaves. -/
def quadTris (w : Worker) (q : QuadCall) : List (Nat × Nat × Nat) :=
  [(w.idx q.a.addr, w.idx q.b.addr, w.idx q.c.addr),
   (w.idx q.c.addr, w.idx q.b.addr, w.idx q.d.addr)]

/-- Every index `0 .. |mesh.verts| - 1` occurs in at least one triangle of the mesh. -/
def Covered (w : Worker) : Prop :=
  ∀ p < w.mesh.verts.length, ∃ t ∈ w.mesh.tris, p = t.1 ∨ p = t.2.1 ∨ p = t.2.2

/-- No triangle of the mesh has two equal indices. -/
def NoDegenerate (m : Mesh) : Prop :=
  ∀ t ∈ m.tris, t.1 ≠ t.2.1 ∧ t.1 ≠ t.2.2 ∧ t.2.1 ≠ t.2.2

instance (m : Mesh) : Decidable (NoDegenerate m) := by
  unfold NoDegenerate; infer_instance

/-- Distinct leaves of the tree live at distinct addresses. -/
def Octree.WellAddressed (t : Octree) : Prop :=
  (t.leaves.map Octree.addr).Nodup

instance (t : Octree) : Decidable t.WellAddressed := by
  unfold Octree.WellAddressed; infer_instance

/-- Corner signs of the half-space `y < 1/4` on a cell whose low `y` face is at `y = 0`
and whose high `y` face is at `y ≥ 1/2`: inside on the four corners with the Y bit
clear. -/
def yLow : Fin 8 → Bool := fun i => decide (i &&& 2 = 0)

/-- Corner signs of a cell that is outside everywhere. -/
def allOut : Fin 8 → Bool := fun _ => false

/-- A T-junction: the octree of the half-space `y < 1/4` over the cube `[0,2]³`, in which
only the child 1 (`x ≥ 1`, `y, z < 1`) is subdivided. Leaves 0..7 are the children of the
root (1 excepted), leaves 10..17 the children of child 1; a cell with `y < 1/2` sees the
surface, a cell with `y ≥ 1/2` is outside. -/
def tJunction : Octree :=
  .BRANCH 200 (fun i =>
    if i = 1 then
      .BRANCH 100 (fun j => leafAt (10 + j.val) (if j &&& 2 = 0 then yLow else allOut))
    else leafAt i.val (if i &&& 2 = 0 then yLow else allOut))

/-- An octree that is a single surface-crossing leaf. -/
def singleLeaf : Octree := leafAt 0 yLow

/-- A branch of eight leaves, all uniform but child 0, whose corner 7 (the centre of the
branch) alone is inside. -/
def cornerTree : Octree :=
  .BRANCH 100 (fun i => leafAt i.val (if i = 0 then (fun j => decide (j = 7)) else allOut))

/-- Corner signs with corner 0 alone inside. -/
def corner0 : Fin 8 → Bool := fun i => decide (i = 0)

/-- The complete octree of depth `k` all of whose leaves have the corner signs `corner0`.
A node is named by a code `p`, its children by `8 * p + i`; the address of a node is its
code. -/
def deep : Nat → Nat → Octree
  | 0, p => leafAt p corner0
  | k + 1, p => .BRANCH p (fun i => deep k (8 * p + i.val))

/-- The states reachable from the empty worker by calls of `quad` (on leaves), `edge`,
`face` and `cell`, each with the list of the leaves passed to `quad` so far, in the order
of the calls of `index`. The leaves an `edge`, `face` or `cell` call passes to `quad` are
those of its sequence of quad calls. -/
inductive Reach : Worker → List Octree → Prop
  | empty : Reach Worker.empty []
  | quad {w : Worker} {refs : List Octree} (a b c d : Octree) :
      Reach w refs → a.getType = .LEAF → b.getType = .LEAF → c.getType = .LEAF →
      d.getType = .LEAF → Reach (quad a b c d w) (refs ++ [a, b, c, d])
  | edge {w : Worker} {refs : List Octree} (a b c d : Octree) (axis : Axis) :
      Reach w refs →
      Reach (edge a b c d axis w)
        (refs ++ refsOf (edgeQuads (a.height + b.height + c.height + d.height) a b c d axis))
  | face {w : Worker} {refs : List Octree} (a b : Octree) (axis : Axis) :
      Reach w refs →
      Reach (face a b axis w) (refs ++ refsOf (faceQuads (a.height + b.height) a b axis))
  | cell {w : Worker} {refs : List Octree} (c : Octree) :
      Reach w refs → Reach (cell c w) (refs ++ refsOf (cellQuads c))

/-- Corner signs of a cell that is inside everywhere. -/
def allIn : Fin 8 → Bool := fun _ => true

/-- An octree of uniform leaves at two depths: child 1 of the root is subdivided into
eight leaves that are inside everywhere, the other children are outside everywhere. -/
def uniformTree : Octree :=
  .BRANCH 200 (fun i =>
    if i = 1 then .BRANCH 100 (fun j => leafAt (10 + j.val) allIn)
    else leafAt i.val allOut)

/-! ## The uniform grid -/

/-- A point of the integer grid, or the low corner of a grid cell. -/
structure Pt where
  x : Nat
  y : Nat
  z : Nat
deriving DecidableEq, Repr

/-- The coordinate of a point along an axis. -/
def Pt.get (p : Pt) : Axis → Nat
  | .AXIS_X => p.x
  | .AXIS_Y => p.y
  | .AXIS_Z => p.z

/-- Whether the bit of axis `c` is set in the child or corner index `i`. -/
def bitOf (i : Fin 8) (c : Axis) : Bool :=
  decide (i &&& c.bit ≠ 0)

/-- The point `p` moved by `h` along every axis whose bit is set in `i`: the low corner
of octant `i` of the cube of side `2 * h` at `p`, or, for `h = 1`, corner `i` of the unit
cell at `p`. -/
def shift (p : Pt) (i : Fin 8) (h : Nat) : Pt :=
  ⟨p.x + (if bitOf i .AXIS_X then h else 0),
   p.y + (if bitOf i .AXIS_Y then h else 0),
   p.z + (if bitOf i .AXIS_Z then h else 0)⟩

/-- The address given to the grid node of depth `k` at `p` (an injective code). -/
def gridAddr (k : Nat) (p : Pt) : Nat :=
  Nat.pair k (Nat.pair p.x (Nat.pair p.y p.z))

/-- The unit grid cell at `p` as a leaf: corner `i` carries the sign of grid corner `i`. -/
def gridLeaf (s : Pt → Bool) (p : Pt) : Octree :=
  .LEAF (gridAddr 0 p) (fun i => s (shift p i 1)) ⟨p.x, p.y, p.z⟩

/-- The complete octree of depth `k` over the cube of side `2 ^ k` at `p`, child `i`
occupying octant `i`; its leaves are the unit grid cells. -/
def grid (s : Pt → Bool) : Nat → Pt → Octree
  | 0, p => gridLeaf s p
  | k + 1, p => .BRANCH (gridAddr (k + 1) p) (fun i => grid s k (shift p i (2 ^ k)))

/-- A unit grid edge, named by its direction `axis` and by `low`, the low corner of the
lowest of the four unit cells round it. With `Q = Q(axis)`, `R = R(axis)` the four cells
are at `low`, `low + Q`, `low + R` and `low + Q + R`, and the edge runs from the point
`low + Q + R` one unit along `axis`. -/
structure GridEdge where
  axis : Axis
  low : Pt
deriving DecidableEq, Repr

/-- The first end point of a grid edge. -/
def GridEdge.start (e : GridEdge) : Pt :=
  shift e.low ((Q e.axis).bit ||| (R e.axis).bit) 1

/-- The second end point of a grid edge. -/
def GridEdge.stop (e : GridEdge) : Pt :=
  shift e.low ((Q e.axis).bit ||| (R e.axis).bit ||| e.axis.bit) 1

/-- The two end points of the edge differ in sign. -/
def GridEdge.changes (s : Pt → Bool) (e : GridEdge) : Bool :=
  s e.start != s e.stop

/-- The edge is interior to the cube `[0, 2 ^ n]³`: it is no part of the boundary, that
is, the four unit cells round it are cells of the grid. -/
def GridEdge.Interior (n : Nat) (e : GridEdge) : Prop :=
  ∀ c : Axis, if c = e.axis then e.low.get c < 2 ^ n else e.low.get c + 1 < 2 ^ n

/-- The quad call of a sign-changing grid edge: the four cells that share it, wound by
the sign at its first end point (the corner 0 of cell `d`). -/
def quadAt (s : Pt → Bool) (e : GridEdge) : QuadCall :=
  if s e.start then
    ⟨gridLeaf s e.low, gridLeaf s (shift e.low (Q e.axis).bit 1),
     gridLeaf s (shift e.low (R e.axis).bit 1),
     gridLeaf s (shift e.low ((Q e.axis).bit ||| (R e.axis).bit) 1)⟩
  else
    ⟨gridLeaf s e.low, gridLeaf s (shift e.low (R e.axis).bit 1),
     gridLeaf s (shift e.low (Q e.axis).bit 1),
     gridLeaf s (shift e.low ((Q e.axis).bit ||| (R e.axis).bit) 1)⟩

/-- The quad calls of a grid edge: `quadAt` when its end points differ in sign, none
otherwise. -/
def quadOpt (s : Pt → Bool) (e : GridEdge) : List QuadCall :=
  if e.changes s then [quadAt s e] else []

/-- The grid edges visited by `edge` on four cubes of side `2 ^ k` round an edge along
`axis`, the lowest of them at `O`, in the order of the recursion. -/
def edgeKeys : Nat → Axis → Pt → List GridEdge
  | 0, axis, O => [⟨axis, O⟩]
  | k + 1, axis, O =>
    edgeKeys k axis (shift O ((Q axis).bit ||| (R axis).bit) (2 ^ k)) ++
    edgeKeys k axis (shift O ((Q axis).bit ||| (R axis).bit ||| axis.bit) (2 ^ k))

/-- The grid edges visited by `face` on two cubes of side `2 ^ k` adjacent along `axis`,
the low one at `O`, in the order of the recursion. -/
def faceKeys : Nat → Axis → Pt → List GridEdge
  | 0, _, _ => []
  | k + 1, axis, O =>
    faceKeys k axis (shift O axis.bit (2 ^ k)) ++
    faceKeys k axis (shift O ((Q axis).bit ||| axis.bit) (2 ^ k)) ++
    faceKeys k axis (shift O ((R axis).bit ||| axis.bit) (2 ^ k)) ++
    faceKeys k axis (shift O ((Q axis).bit ||| (R axis).bit ||| axis.bit) (2 ^ k)) ++
    edgeKeys k (Q axis) (shift O axis.bit (2 ^ k)) ++
    edgeKeys k (Q axis) (shift O ((Q axis).bit ||| axis.bit) (2 ^ k)) ++
    edgeKeys k (R axis) (shift O axis.bit (2 ^ k)) ++
    edgeKeys k (R axis) (shift O ((R axis).bit ||| axis.bit) (2 ^ k))

/-- The grid edges visited by `cell` on the cube of side `2 ^ k` at `O`, in the order of
the recursion. -/
def cellKeys : Nat → Pt → List GridEdge
  | 0, _ => []
  | k + 1, O =>
    (List.finRange 8).flatMap (fun i => cellKeys k (shift O i (2 ^ k))) ++
    faceKeys k .AXIS_X (shift O 0 (2 ^ k)) ++
    faceKeys k .AXIS_X (shift O 2 (2 ^ k)) ++
    faceKeys k .AXIS_X (shift O 4 (2 ^ k)) ++
    faceKeys k .AXIS_X (shift O 6 (2 ^ k)) ++
    faceKeys k .AXIS_Y (shift O 0 (2 ^ k)) ++
    faceKeys k .AXIS_Y (shift O 1 (2 ^ k)) ++
    faceKeys k .AXIS_Y (shift O 4 (2 ^ k)) ++
    faceKeys k .AXIS_Y (shift O 5 (2 ^ k)) ++
    faceKeys k .AXIS_Z (shift O 0 (2 ^ k)) ++
    faceKeys k .AXIS_Z (shift O 1 (2 ^ k)) ++
    faceKeys k .AXIS_Z (shift O 2 (2 ^ k)) ++
    faceKeys k .AXIS_Z (shift O 3 (2 ^ k)) ++
    edgeKeys k .AXIS_Z (shift O 0 (2 ^ k)) ++
    edgeKeys k .AXIS_Z (shift O 4 (2 ^ k)) ++
    edgeKeys k .AXIS_X (shift O 0 (2 ^ k)) ++
    edgeKeys k .AXIS_X (shift O 1 (2 ^ k)) ++
    edgeKeys k .AXIS_Y (shift O 0 (2 ^ k)) ++
    edgeKeys k .AXIS_Y (shift O 2 (2 ^ k))

/-- The grid edges that `edge` visits on four cubes of side `2 ^ k` round an edge along
`a`, the lowest at `O`: those along `a` on the common edge of the four cubes. -/
def EdgeReg (k : Nat) (a : Axis) (O : Pt) (e : GridEdge) : Prop :=
  e.axis = a ∧ ∀ c : Axis,
    if c = a then O.get c ≤ e.low.get c ∧ e.low.get c < O.get c + 2 ^ k
    else e.low.get c + 1 = O.get c + 2 ^ k

/-- The grid edges that `face` visits on two cubes of side `2 ^ k` adjacent along `u`, the
low one at `O`: those in the interior of the common face. -/
def FaceReg (k : Nat) (u : Axis) (O : Pt) (e : GridEdge) : Prop :=
  e.axis ≠ u ∧ ∀ c : Axis,
    if c = u then e.low.get c + 1 = O.get c + 2 ^ k
    else if c = e.axis then O.get c ≤ e.low.get c ∧ e.low.get c < O.get c + 2 ^ k
    else O.get c ≤ e.low.get c ∧ e.low.get c + 1 < O.get c + 2 ^ k

/-- The grid edges that `cell` visits on the cube of side `2 ^ k` at `O`: those in the
interior of the cube. -/
def CellReg (k : Nat) (O : Pt) (e : GridEdge) : Prop :=
  ∀ c : Axis,
    if c = e.axis then O.get c ≤ e.low.get c ∧ e.low.get c < O.get c + 2 ^ k
    else O.get c ≤ e.low.get c ∧ e.low.get c + 1 < O.get c + 2 ^ k

/-! ## Axis geometry -/

/-- The unit vector of an axis. -/
def Axis.unit : Axis → Int × Int × Int
  | .AXIS_X => (1, 0, 0)
  | .AXIS_Y => (0, 1, 0)
  | .AXIS_Z => (0, 0, 1)

/-- The cross product of two integer vectors. -/
def cross (u v : Int × Int × Int) : Int × Int × Int :=
  (u.2.1 * v.2.2 - u.2.2 * v.2.1, u.2.2 * v.1 - u.1 * v.2.2, u.1 * v.2.1 - u.2.1 * v.1)

/-! ## The traversal with partial reads, bounded recursion and a call log

A second embedding of the same source text in which nothing is taken for granted:
`corner` and `getVertex` exist on leaves only, every call of `cell`, `face` and `edge`
spends one unit of a recursion budget, and every call is entered in a log. -/

/-- What can stop a run: the recursion budget is spent, or `corner` / `getVertex` is read
from a node that is not a leaf. -/
inductive Fault
  | outOfFuel
  | notLeaf
deriving DecidableEq, Repr

/-- One call of a function of the worker, with its arguments. -/
inductive Call
  | cell (c : Octree)
  | face (a b : Octree) (axis : Axis)
  | edge (a b c d : Octree) (axis : Axis)
  | quad (a b c d : Octree)

/-- Every node passed to a `quad` call is a leaf (nothing is asked of other calls). -/
def Call.leafArgs : Call → Prop
  | .quad a b c d => a.getType = .LEAF ∧ b.getType = .LEAF ∧ c.getType = .LEAF ∧
      d.getType = .LEAF
  | _ => True

/-- The worker together with the log of the calls made so far, oldest first. -/
structure Run where
  w : Worker
  calls : List Call

/-- Enter a call in the log. -/
def Run.log (s : Run) (c : Call) : Run :=
  { s with calls := s.calls ++ [c] }

/-- `Octree::corner(i)` as a partial function: defined on leaves only. -/
def Octree.cornerChecked : Octree → Fin 8 → Except Fault Bool
  | .LEAF _ cs _, i => .ok (cs i)
  | .BRANCH _ _, _ => .error .notLeaf

/-- `Octree::getVertex` as a partial function: defined on leaves only. -/
def Octree.getVertexChecked : Octree → Except Fault Vec3
  | .LEAF _ _ v => .ok v
  | .BRANCH _ _ => .error .notLeaf

/-- The lambda `index` of `Worker::quad`, reading the vertex through
`getVertexChecked`. -/
def indexChecked (o : Octree) (w : Worker) : Except Fault (Nat × Worker) := do
  let w1 : Worker ←
    match w.verts.lookup o.addr with
    | none => do
        let v ← o.getVertexChecked
        pure { verts := (o.addr, w.mesh.verts.length % UNSIGNED_SIZE) :: w.verts,
               mesh := { w.mesh with verts := w.mesh.verts ++ [v] } }
    | some _ => pure w
  pure ((w1.verts.lookup o.addr).getD 0, w1)

/-- `Worker::quad`, logged, reading vertices through `getVertexChecked`. -/
def quadChecked (a b c d : Octree) (s : Run) : Except Fault Run := do
  let s := s.log (.quad a b c d)
  let (ia, w) ← indexChecked a s.w
  let (ib, w) ← indexChecked b w
  let (ic, w) ← indexChecked c w
  let (id, w) ← indexChecked d w
  pure { s with w := { w with mesh := { w.mesh with
    tris := w.mesh.tris ++ [(ia, ib, ic), (ic, ib, id)] } } }

/-- The comparison `o->corner(i) != o->corner(j)` with partial reads. -/
def cornersDiffer (o : Octree) (i j : Fin 8) : Except Fault Bool := do
  let x ← o.cornerChecked i
  let y ← o.cornerChecked j
  pure (x != y)

/-- The condition of the first `if` of `Worker::edge`, evaluated left to right with the
short-circuit rules of `&&` and `||`: the corners are read only after the four type
tests have succeeded, and a later comparison only when the earlier ones are false. -/
def edgeCondition (a b c d : Octree) (axis : Axis) : Except Fault Bool :=
  let q := (Q axis).bit
  let r := (R axis).bit
  if a.getType = .LEAF ∧ b.getType = .LEAF ∧ c.getType = .LEAF ∧ d.getType = .LEAF then do
    if ← cornersDiffer a (q ||| r) (q ||| r ||| axis.bit) then pure true
    else if ← cornersDiffer b r (r ||| axis.bit) then pure true
    else if ← cornersDiffer c q (q ||| axis.bit) then pure true
    else cornersDiffer d 0 axis.bit
  else pure false

/-- `Worker::edge` with partial reads, a recursion budget and the call log. -/
def edgeChecked : Nat → Octree → Octree → Octree → Octree → Axis → Run → Except Fault Run
  | 0, _, _, _, _, _, _ => .error .outOfFuel
  | n + 1, a, b, c, d, axis, s => do
    let s := s.log (.edge a b c d axis)
    let q := (Q axis).bit
    let r := (R axis).bit
    if ← edgeCondition a b c d axis then
      if ← d.cornerChecked 0 then
        quadChecked a b c d s
      else
        quadChecked a c b d s
    else if a.getType = .BRANCH ∨ b.getType = .BRANCH ∨
            c.getType = .BRANCH ∨ d.getType = .BRANCH then do
      let s ← edgeChecked n (a.child (q ||| r)) (b.child r) (c.child q) (d.child 0) axis s
      edgeChecked n (a.child (q ||| r ||| axis.bit)) (b.child (r ||| axis.bit))
        (c.child (q ||| axis.bit)) (d.child axis.bit) axis s
    else pure s

/-- `Worker::face` with a recursion budget and the call log. -/
def faceChecked : Nat → Octree → Octree → Axis → Run → Except Fault Run
  | 0, _, _, _, _ => .error .outOfFuel
  | n + 1, a, b, axis, s => do
    let s := s.log (.face a b axis)
    if a.getType = .BRANCH ∨ b.getType = .BRANCH then do
      let q := (Q axis).bit
      let r := (R axis).bit
      let s ← faceChecked n (a.child axis.bit) (b.child 0) axis s
      let s ← faceChecked n (a.child (q ||| axis.bit)) (b.child q) axis s
      let s ← faceChecked n (a.child (r ||| axis.bit)) (b.child r) axis s
      let s ← faceChecked n (a.child (q ||| r ||| axis.bit)) (b.child (q ||| r)) axis s
      let s ← edgeChecked n (a.child axis.bit) (a.child (r ||| axis.bit)) (b.child 0)
                (b.child r) (Q axis) s
      let s ← edgeChecked n (a.child (q ||| axis.bit)) (a.child (q ||| r ||| axis.bit))
                (b.child q) (b.child (q ||| r)) (Q axis) s
      let s ← edgeChecked n (a.child axis.bit) (b.child 0) (a.child (axis.bit ||| q))
                (b.child q) (R axis) s
      edgeChecked n (a.child (r ||| axis.bit)) (b.child r) (a.child (r ||| axis.bit ||| q))
        (b.child (r ||| q)) (R axis) s
    else pure s

/-- `Worker::cell` with a recursion budget and the call log. -/
def cellChecked : Nat → Octree → Run → Except Fault Run
  | 0, _, _ => .error .outOfFuel
  | n + 1, c, s => do
    let s := s.log (.cell c)
    if c.getType = .BRANCH then do
      let X := Axis.AXIS_X.bit
      let Y := Axis.AXIS_Y.bit
      let Z := Axis.AXIS_Z.bit
      let s ← (List.finRange 8).foldlM (fun s i => cellChecked n (c.child i) s) s
      let s ← faceChecked n (c.child 0) (c.child X) .AXIS_X s
      let s ← faceChecked n (c.child Y) (c.child (Y ||| X)) .AXIS_X s
      let s ← faceChecked n (c.child Z) (c.child (Z ||| X)) .AXIS_X s
      let s ← faceChecked n (c.child (Y ||| Z)) (c.child (Y ||| Z ||| X)) .AXIS_X s
      let s ← faceChecked n (c.child 0) (c.child Y) .AXIS_Y s
      let s ← faceChecked n (c.child X) (c.child (X ||| Y)) .AXIS_Y s
      let s ← faceChecked n (c.child Z) (c.child (Z ||| Y)) .AXIS_Y s
      let s ← faceChecked n (c.child (X ||| Z)) (c.child (X ||| Z ||| Y)) .AXIS_Y s
      let s ← faceChecked n (c.child 0) (c.child Z) .AXIS_Z s
      let s ← faceChecked n (c.child X) (c.child (X ||| Z)) .AXIS_Z s
      let s ← faceChecked n (c.child Y) (c.child (Y ||| Z)) .AXIS_Z s
      let s ← faceChecked n (c.child (X ||| Y)) (c.child (X ||| Y ||| Z)) .AXIS_Z s
      let s ← edgeChecked n (c.child 0) (c.child X) (c.child Y) (c.child (X ||| Y)) .AXIS_Z s
      let s ← edgeChecked n (c.child Z) (c.child (X ||| Z)) (c.child (Y ||| Z))
                (c.child (X ||| Y ||| Z)) .AXIS_Z s
      let s ← edgeChecked n (c.child 0) (c.child Y) (c.child Z) (c.child (Y ||| Z)) .AXIS_X s
      let s ← edgeChecked n (c.child X) (c.child (Y ||| X)) (c.child (Z ||| X))
                (c.child (Y ||| Z ||| X)) .AXIS_X s
      let s ← edgeChecked n (c.child 0) (c.child Z) (c.child X) (c.child (Z ||| X)) .AXIS_Y s
      edgeChecked n (c.child Y) (c.child (Z ||| Y)) (c.child (X ||| Y))
        (c.child (Z ||| X ||| Y)) .AXIS_Y s
    else pure s

/-- A step of the logged run agrees with a step of the plain worker: from every state it
returns, its worker is the plain result, and the calls it adds to the log pass only
leaves to `quad`. -/
def Agrees (f : Run → Except Fault Run) (g : Worker → Worker) : Prop :=
  ∀ s : Run, ∃ cs, f s = .ok ⟨g s.w, s.calls ++ cs⟩ ∧ ∀ x ∈ cs, x.leafArgs

end DC

namespace Kernel

open Matrix

/-! ## The quadratic error function `QEF<N>`, in exact rational arithmetic

`libfive/render/brep/simplex/qef.hpp`, where `QEF<N>` is implemented, is not among the
sources; its tests (`libfive/test/qef.cpp`) are. The definitions below follow the
specification; where its wording leaves a choice open or disagrees with a requirement of
the tests, the tests decide, and the doc comment says so. Every requirement of the tests
of `solve`, `solveConstrained` and `solveBounded` holds of these definitions
(`test_solve_flat`, `test_solveConstrained`, and the claims on `solve` and
`solveBounded`). -/

/-- Modelled from the spec: the record returned by a solve (`QEF<N>::Solution`, declared in
`qef.hpp`): `position`, `value`, `rank` and `error`, numbers being rationals. -/
structure Solution (N : Nat) where
  position : Fin N → ℚ
  value : ℚ
  rank : Nat
  error : ℚ

/-- Modelled from the spec: the state of a `QEF<N>` (declared in `qef.hpp`): the
accumulators `AᵀA` and `Aᵀb`, the mass point, kept as the sum of the `(p, v)` of the
samples, and the sample count. `BtB` accumulates `bᵀb`, without which the residual
`‖A z − b‖²` that a solve returns cannot be told from the accumulators. -/
structure QEF (N : Nat) where
  AtA : Fin (N + 1) → Fin (N + 1) → ℚ
  AtB : Fin (N + 1) → ℚ
  BtB : ℚ
  massPoint : Fin (N + 1) → ℚ
  count : Nat

/-- Modelled from the spec: the freshly constructed `QEF<N> q;`, all accumulators zero. -/
def QEF.empty (N : Nat) : QEF N :=
  ⟨fun _ _ => 0, fun _ => 0, 0, fun _ => 0, 0⟩

/-- Modelled from the spec: the row of a sample in `QEF<N>::insert`, `[n | −1]`. The
specification writes `[n | 1]`; the sign of the last entry is the one the tests of
`QEF::solve` require (see `rhs`). -/
def row {N : Nat} (normal : Fin N → ℚ) : Fin (N + 1) → ℚ :=
  Fin.snoc normal (-1)

/-- Modelled from the spec: the right-hand side of a sample in `QEF<N>::insert`,
`n·p − v`, so that the equation of the sample, `n·x − y = n·p − v`, says that the value at
`x` is `y = v + n·(x − p)`. The specification writes `β = n·p + v` for the row `[n | 1]`;
with that reading the line of the tests has its zero of the error at the value 2
(`spec_row_line`), and the test requires the value 4. -/
def rhs {N : Nat} (position normal : Fin N → ℚ) (value : ℚ) : ℚ :=
  normal ⬝ᵥ position - value

/-- Modelled from the spec: `QEF<N>::insert(position, normal, value)`:
`AᵀA += r rᵀ`, `Aᵀb += r β`, `massPoint += (p, v)`, `count += 1` for the row `r` and the
right-hand side `β` of the sample. -/
def QEF.insert {N : Nat} (q : QEF N) (position normal : Fin N → ℚ) (value : ℚ) : QEF N :=
  { AtA := fun i j => q.AtA i j + row normal i * row normal j
    AtB := fun i => q.AtB i + row normal i * rhs position normal value
    BtB := q.BtB + rhs position normal value * rhs position normal value
    massPoint := fun i => q.massPoint i + (Fin.snoc position value : Fin (N + 1) → ℚ) i
    count := q.count + 1 }

/-- One sample: a point, the normal there and the value there. -/
structure Sample (N : Nat) where
  position : Fin N → ℚ
  normal : Fin N → ℚ
  value : ℚ

/-- The `QEF<N>` obtained from a fresh one by inserting the samples of a list in order. -/
def QEF.ofSamples {N : Nat} (l : List (Sample N)) : QEF N :=
  l.foldl (fun q s => q.insert s.position s.normal s.value) (QEF.empty N)

/-- Modelled from the spec: the error of a solution, `‖A z − b‖²`, computed from the
accumulators as `zᵀ(AᵀA)z − 2 zᵀ(Aᵀb) + bᵀb`. -/
def QEF.errorAt {N : Nat} (q : QEF N) (z : Fin (N + 1) → ℚ) : ℚ :=
  z ⬝ᵥ (fun i => q.AtA i ⬝ᵥ z) - 2 * (z ⬝ᵥ q.AtB) + q.BtB

/-- Modelled from the spec: part of `solve`: remove from `m` its components along the directions of `basis`. -/
def reduce {n : Nat} (basis : List (Fin n → ℚ)) (m : Fin n → ℚ) : Fin n → ℚ :=
  basis.foldl (fun m u => m - (m ⬝ᵥ u / u ⬝ᵥ u) • u) m

/-- Modelled from the spec: part of `solve`: the state of the solver, the current point and the mutually orthogonal
directions along which it has been moved. -/
structure Sweep (n : Nat) where
  z : Fin n → ℚ
  basis : List (Fin n → ℚ)

/-- Modelled from the spec: part of `solve`: take one equation `m · z = c` into account. An equation that adds no
direction to those already used is skipped; otherwise the point moves along the new
direction until the equation holds. -/
def Sweep.step {n : Nat} (s : Sweep n) (m : Fin n → ℚ) (c : ℚ) : Sweep n :=
  if reduce s.basis m = 0 then s
  else
    { z := s.z + ((c - m ⬝ᵥ s.z) / (reduce s.basis m ⬝ᵥ reduce s.basis m)) • reduce s.basis m
      basis := s.basis ++ [reduce s.basis m] }

/-- Modelled from the spec: part of `solve`: take a list of equations into account, first to last, starting from
`t`. -/
def sweep {n : Nat} (rows : List ((Fin n → ℚ) × ℚ)) (t : Fin n → ℚ) : Sweep n :=
  rows.foldl (fun s p => s.step p.1 p.2) ⟨t, []⟩

/-- What a sweep maintains, for equations `rows` that all hold at `zs`: the directions are
nonzero and mutually orthogonal, the point agrees with `zs` along them and has left `t`
along them only, and the directions span what the rows span. -/
structure Sweep.Inv {n : Nat} (rows : List ((Fin n → ℚ) × ℚ)) (t zs : Fin n → ℚ)
    (s : Sweep n) : Prop where
  orth : s.basis.Pairwise (fun u v => u ⬝ᵥ v = 0)
  nonzero : ∀ u ∈ s.basis, u ⬝ᵥ u ≠ 0
  agree : ∀ u ∈ s.basis, u ⬝ᵥ (s.z - zs) = 0
  moved : ∀ w, (∀ u ∈ s.basis, u ⬝ᵥ w = 0) → (s.z - t) ⬝ᵥ w = 0
  rowsIn : ∀ p ∈ rows, ∀ w, (∀ u ∈ s.basis, u ⬝ᵥ w = 0) → p.1 ⬝ᵥ w = 0
  basisIn : ∀ u ∈ s.basis, ∀ w, (∀ p ∈ rows, p.1 ⬝ᵥ w = 0) → u ⬝ᵥ w = 0

/-- The squared distance of two points. -/
def distSq {n : Nat} (u v : Fin n → ℚ) : ℚ :=
  (u - v) ⬝ᵥ (u - v)

/-- Modelled from the spec: part of `solve`: the sweep over the rows of `M z = c` from the target `t`, which ends at
the solution nearest to `t` when there is a solution. -/
def nearest {n : Nat} (M : Fin n → Fin n → ℚ) (c t : Fin n → ℚ) : Sweep n :=
  (List.finRange n).foldl (fun s i => s.step (M i) (c i)) ⟨t, []⟩

/-- Modelled from the spec: the closed form of Solve, `[x; y] = (AᵀA + wI)⁻¹ (Aᵀb + w
[p*; v*])`, as the equation `(AᵀA + wI) z = Aᵀb + w t` that `z` solves. -/
def QEF.closedForm {N : Nat} (q : QEF N) (w : ℚ) (t z : Fin (N + 1) → ℚ) : Prop :=
  ∀ i, q.AtA i ⬝ᵥ z + w * z i = q.AtB i + w * t i

/-- Modelled from the spec: `QEF<N>::solve(target_pos, target_value)`, implemented in
`qef.hpp`. The result is the minimiser of `‖A z − b‖²` nearest to the target
`[p*; v*]`: the limit of the specification's closed form
`(AᵀA + wI)⁻¹ (Aᵀb + w [p*; v*])` as the weight `w` goes to 0, and its pseudo-inverse
solution for the target 0. The tests call `solve` with a target and without a weight, and
the values they expect on the flat sheet (position `(1, 0.5)`, value `0.5`, error `0` for
the target `(1, 0)` with value target 1) are those of this limit: for a weight `w > 0`
the closed form gives `(1, 2/(4+w))`, `1 − 2/(4+w)` and the error `2w²/(4+w)²`
(`closed_form_flat`). The minimiser is computed exactly, by a sweep over the rows of the normal
equations `AᵀA z = Aᵀb` in place of the singular value decomposition; the cutoff on small
singular values is part of the floating-point semantics and has no counterpart here.
`rank` is the number of independent rows less one, which is what the tests require: 0 on
the flat sheet (one independent row), 1 on the line (two). -/
def QEF.solve {N : Nat} (q : QEF N) (target_pos : Fin N → ℚ) (target_value : ℚ) :
    Solution N :=
  let s := nearest q.AtA q.AtB (Fin.snoc target_pos target_value)
  { position := fun i => s.z i.castSucc
    value := s.z (Fin.last N)
    rank := s.basis.length - 1
    error := q.errorAt s.z }

/-- The flat sheet of the tests: `QEF<2> q; q.insert({1, 0}, {0, 1}, 0);
q.insert({2, 0}, {0, 1}, 0);`. -/
def flatSheet : QEF 2 :=
  ((QEF.empty 2).insert ![1, 0] ![0, 1] 0).insert ![2, 0] ![0, 1] 0

/-- The line of the tests: `QEF<1> q; q.insert(1, 1, 3); q.insert(4, -0.5, 3);`. -/
def line : QEF 1 :=
  ((QEF.empty 1).insert ![1] ![1] 3).insert ![4] ![-1/2] 3

/-- Two samples of value 0 with the normal `(0, 1)`, on the line `x = 0`. -/
def skewSamples : List (Sample 2) :=
  [⟨![0, 0], ![0, 1], 0⟩, ⟨![0, 1], ![0, 1], 0⟩]

/-- Samples of value 0 with the common normal `n` at the points of a list. -/
def planeSamples {N : Nat} (n : Fin N → ℚ) (pts : List (Fin N → ℚ)) : List (Sample N) :=
  pts.map (fun p => ⟨p, n, 0⟩)

/-- Modelled from the spec: a region `Region<N>` (declared in a header that is not among
the sources), a box with the lower bound `lo` and the upper bound `hi`. -/
structure Region (N : Nat) where
  lo : Fin N → ℚ
  hi : Fin N → ℚ

/-- Modelled from the spec: the point `p` lies in the box of `r`, bounds included. -/
def Region.contains {N : Nat} (r : Region N) (p : Fin N → ℚ) : Prop :=
  ∀ k, r.lo k ≤ p k ∧ p k ≤ r.hi k

instance {N : Nat} (r : Region N) (p : Fin N → ℚ) : Decidable (r.contains p) := by
  unfold Region.contains; infer_instance

/-- Modelled from the spec: the centre of the box. -/
def Region.center {N : Nat} (r : Region N) : Fin N → ℚ :=
  fun k => (r.lo k + r.hi k) / 2

/-- Modelled from the spec: the mean of the `2ᴺ` corner values given to `solveBounded`. -/
def cornerMean {N : Nat} (corners : Fin (2 ^ N) → ℚ) : ℚ :=
  (∑ i, corners i) / 2 ^ N

/-- Modelled from the spec: digit `k` of the code of `solveConstrained<code>` in base 3,
which says what happens to axis `k`: 0 pins it to the lower extent, 1 to the upper extent,
2 leaves it free. The `3ᴺ − 1` codes below `3ᴺ − 1` are the vertices, edges and faces of
the box; the names the test gives to the codes 0, 1, 2, 6 and 7 fix the reading. -/
def digit (code k : Nat) : Nat :=
  code / 3 ^ k % 3

/-- Modelled from the spec: `QEF<N>::solveConstrained<code>(region, target_pos,
target_value)`, implemented in `qef.hpp`: the coordinates that the code pins are set to
the extents of the box and absorbed into the right-hand side, and the reduced problem in
the free coordinates and the value is solved as in `solve`. A pinned coordinate of the
target is replaced by the extent; a free coordinate of the result is not clamped (the test
requires `(0.75, 0)` on the lower edge of the box `[1, 2] × [0, 1]`). -/
def QEF.solveConstrained {N : Nat} (q : QEF N) (code : Nat) (r : Region N)
    (target_pos : Fin N → ℚ) (target_value : ℚ) : Solution N :=
  let free : Fin (N + 1) → Bool := Fin.snoc (fun k : Fin N => digit code k == 2) true
  let e : Fin (N + 1) → ℚ :=
    Fin.snoc (fun k : Fin N => if digit code k = 1 then r.hi k else r.lo k) 0
  let t : Fin (N + 1) → ℚ :=
    fun i => if free i then (Fin.snoc target_pos target_value : Fin (N + 1) → ℚ) i else e i
  let M : Fin (N + 1) → Fin (N + 1) → ℚ :=
    fun i j => if free i && free j then q.AtA i j else 0
  let c : Fin (N + 1) → ℚ :=
    fun i => if free i then q.AtB i - ∑ j, (if free j then 0 else q.AtA i j * e j) else 0
  let s := nearest M c t
  { position := fun i => s.z i.castSucc
    value := s.z (Fin.last N)
    rank := s.basis.length - 1
    error := q.errorAt s.z }

/-- Modelled from the spec: the order in which `solveBounded` prefers candidates: the lower
error, then the higher rank, then the lexicographically smaller position. -/
def Solution.better {N : Nat} (a b : Solution N) : Prop :=
  a.error < b.error ∨ (a.error = b.error ∧
    (b.rank < a.rank ∨ (a.rank = b.rank ∧ List.ofFn a.position < List.ofFn b.position)))

instance {N : Nat} (a b : Solution N) : Decidable (a.better b) := by
  unfold Solution.better; infer_instance

/-- Modelled from the spec: the most preferred solution among `first` and `rest`, the
earlier one among equals. -/
def pick {N : Nat} (first : Solution N) (rest : List (Solution N)) : Solution N :=
  rest.foldl (fun best s => if s.better best then s else best) first

/-- Modelled from the spec: `QEF<N>::solveBounded(region, corners)`, implemented in
`qef.hpp`. (1) The unconstrained solve is tried and returned when its position lies in
the box. (2) Otherwise `solveConstrained<code>` is run for every vertex, edge and face of
the box, and (3) among the candidates whose position lies in the box the most preferred
one is returned. (4) The corner values reject candidates; the specification does not say
which, so the rule is the parameter `reject`, and, being advisory, it is passed over when
it leaves no candidate. The solves aim at the centre of the box with the mean of the
corner values as value target, which is what makes the test of `solveBounded` come out at
`(1.5, 0.5)` with value `0.5`. -/
def QEF.solveBounded {N : Nat} (reject : (Fin (2 ^ N) → ℚ) → Solution N → Bool)
    (q : QEF N) (r : Region N) (corners : Fin (2 ^ N) → ℚ) : Solution N :=
  let sol := q.solve r.center (cornerMean corners)
  if r.contains sol.position then sol
  else
    let inBox := ((List.range (3 ^ N - 1)).map
      (fun code => q.solveConstrained code r r.center (cornerMean corners))).filter
      (fun s => decide (r.contains s.position))
    match inBox.filter (fun s => !reject corners s), inBox with
    | s :: rest, _ => pick s rest
    | [], s :: rest => pick s rest
    | [], [] => sol

end Kernel

namespace DC

/-! ## Running the traversal is running its quad calls -/

theorem Octree.height_pos_of_branch (o : Octree) (h : o.getType = .BRANCH) : 1 ≤ o.height := by
  cases o with
  | LEAF a cs v => simp [Octree.getType] at h
  | BRANCH a ch => simp [Octree.height]

theorem runQuads_nil (w : Worker) : runQuads [] w = w := rfl

theorem runQuads_cons (q : QuadCall) (qs : List QuadCall) (w : Worker) :
    runQuads (q :: qs) w = runQuads qs (quad q.a q.b q.c q.d w) := rfl

theorem runQuads_append (l1 l2 : List QuadCall) (w : Worker) :
    runQuads (l1 ++ l2) w = runQuads l2 (runQuads l1 w) := by
  simp [runQuads, List.foldl_append]

theorem edge_eq_runQuads (n : Nat) : ∀ (a b c d : Octree) (axis : Axis) (w : Worker),
    a.height + b.height + c.height + d.height ≤ n →
    edge a b c d axis w = runQuads (edgeQuads n a b c d axis) w := by
  induction n with
  | zero =>
    intro a b c d axis w hn
    rw [edge, edgeQuads]
    split_ifs with h1 h2 h3
    · rfl
    · rfl
    · exfalso
      rcases h3 with h | h | h | h <;>
        have := Octree.height_pos_of_branch _ h <;> omega
    · rfl
  | succ n ih =>
    intro a b c d axis w hn
    rw [edge, edgeQuads]
    split_ifs with h1 h2 h3
    · rfl
    · rfl
    · simp only [runQuads_append]
      have ha1 := Octree.height_child_le a ((Q axis).bit ||| (R axis).bit)
      have ha2 := Octree.height_child_le a ((Q axis).bit ||| (R axis).bit ||| axis.bit)
      have hb1 := Octree.height_child_le b (R axis).bit
      have hb2 := Octree.height_child_le b ((R axis).bit ||| axis.bit)
      have hc1 := Octree.height_child_le c (Q axis).bit
      have hc2 := Octree.height_child_le c ((Q axis).bit ||| axis.bit)
      have hd1 := Octree.height_child_le d 0
      have hd2 := Octree.height_child_le d axis.bit
      rw [ih, ih]
      all_goals
        rcases h3 with h | h | h | h
        · have := Octree.height_child_lt a ((Q axis).bit ||| (R axis).bit ||| axis.bit) h
          have := Octree.height_child_lt a ((Q axis).bit ||| (R axis).bit) h
          omega
        · have := Octree.height_child_lt b ((R axis).bit ||| axis.bit) h
          have := Octree.height_child_lt b (R axis).bit h
          omega
        · have := Octree.height_child_lt c ((Q axis).bit ||| axis.bit) h
          have := Octree.height_child_lt c (Q axis).bit h
          omega
        · have := Octree.height_child_lt d axis.bit h
          have := Octree.height_child_lt d 0 h
          omega
    · rfl

theorem face_eq_runQuads (n : Nat) : ∀ (a b : Octree) (axis : Axis) (w : Worker),
    a.height + b.height ≤ n →
    face a b axis w = runQuads (faceQuads n a b axis) w := by
  induction n with
  | zero =>
    intro a b axis w hn
    rw [face, faceQuads]
    split_ifs with h1
    · exfalso
      rcases h1 with h | h <;>
        have := Octree.height_pos_of_branch _ h <;> omega
    · rfl
  | succ n ih =>
    intro a b axis w hn
    rw [face, faceQuads]
    split_ifs with h1
    · simp only [runQuads_append]
      have ha1 := Octree.height_child_le a axis.bit
      have ha2 := Octree.height_child_le a ((Q axis).bit ||| axis.bit)
      have ha3 := Octree.height_child_le a ((R axis).bit ||| axis.bit)
      have ha4 := Octree.height_child_le a ((Q axis).bit ||| (R axis).bit ||| axis.bit)
      have ha5 := Octree.height_child_le a (axis.bit ||| (Q axis).bit)
      have ha6 := Octree.height_child_le a ((R axis).bit ||| axis.bit ||| (Q axis).bit)
      have hb1 := Octree.height_child_le b 0
      have hb2 := Octree.height_child_le b (Q axis).bit
      have hb3 := Octree.height_child_le b (R axis).bit
      have hb4 := Octree.height_child_le b ((Q axis).bit ||| (R axis).bit)
      have hb5 := Octree.height_child_le b ((R axis).bit ||| (Q axis).bit)
      rw [ih, ih, ih, ih, edge_eq_runQuads (2 * n), edge_eq_runQuads (2 * n),
        edge_eq_runQuads (2 * n), edge_eq_runQuads (2 * n)]
      all_goals
        rcases h1 with h | h
        · have := Octree.height_child_lt a axis.bit h
          have := Octree.height_child_lt a ((Q axis).bit ||| axis.bit) h
          have := Octree.height_child_lt a ((R axis).bit ||| axis.bit) h
          have := Octree.height_child_lt a ((Q axis).bit ||| (R axis).bit ||| axis.bit) h
          have := Octree.height_child_lt a (axis.bit ||| (Q axis).bit) h
          have := Octree.height_child_lt a ((R axis).bit ||| axis.bit ||| (Q axis).bit) h
          omega
        · have := Octree.height_child_lt b 0 h
          have := Octree.height_child_lt b (Q axis).bit h
          have := Octree.height_child_lt b (R axis).bit h
          have := Octree.height_child_lt b ((Q axis).bit ||| (R axis).bit) h
          have := Octree.height_child_lt b ((R axis).bit ||| (Q axis).bit) h
          omega
    · rfl

theorem foldl_cell_eq_runQuads (ch : Fin 8 → Octree)
    (ih : ∀ i w, cell (ch i) w = runQuads (cellQuads (ch i)) w) (l : List (Fin 8)) :
    ∀ w, l.foldl (fun w i => cell (ch i) w) w =
      runQuads (l.flatMap (fun i => cellQuads (ch i))) w := by
  induction l with
  | nil => intro w; rfl
  | cons i l ihl =>
    intro w
    simp only [List.foldl_cons, List.flatMap_cons, runQuads_append]
    rw [ih i w, ihl]

theorem Octree.height_branch_child_lt (a : Nat) (ch : Fin 8 → Octree) (i : Fin 8) :
    ((Octree.BRANCH a ch).child i).height < (Octree.BRANCH a ch).height :=
  Octree.height_child_lt _ i rfl

theorem cell_eq_runQuads : ∀ (c : Octree) (w : Worker),
    cell c w = runQuads (cellQuads c) w := by
  intro c
  induction c with
  | LEAF a cs v => intro w; rfl
  | BRANCH a ch ih =>
    intro w
    have hlt := Octree.height_branch_child_lt a ch
    rw [cell, cellQuads]
    simp only [runQuads_append]
    rw [foldl_cell_eq_runQuads ch ih]
    repeat rw [face_eq_runQuads (2 * (Octree.BRANCH a ch).height)]
    repeat rw [edge_eq_runQuads (4 * (Octree.BRANCH a ch).height)]
    all_goals
      first
        | exact Nat.le_of_lt (Nat.lt_of_lt_of_le
            (Nat.add_lt_add (hlt _) (hlt _)) (by omega))
        | exact Nat.le_of_lt (Nat.lt_of_lt_of_le
            (Nat.add_lt_add (Nat.add_lt_add (Nat.add_lt_add (hlt _) (hlt _)) (hlt _)) (hlt _))
            (by omega))

/-- C10. On a branch the hand-unrolled `cell` of the source is its generic definition
`cellGeneric`: `cell` on the children 0..7 in ascending order, then for the axes X, Y, Z
and each child `i` (ascending) with the axis bit clear `face(child i, child (i|axis), axis)`,
then for the axes Z, X, Y and `k` in `(0, axis)`
`edge(child k, child (k|Q axis), child (k|R axis), child (k|Q axis|R axis), axis)`, from
every worker state. -/
theorem cell_eq_cellGeneric (c : Octree) (w : Worker) (hc : c.getType = .BRANCH) :
    cell c w = cellGeneric c w := by
  cases c with
  | LEAF a cs v => simp [Octree.getType] at hc
  | BRANCH a ch => rfl

theorem index_of_none (o : Octree) (w : Worker) (h : w.verts.lookup o.addr = none) :
    index o w = (w.mesh.verts.length % UNSIGNED_SIZE,
      { verts := (o.addr, w.mesh.verts.length % UNSIGNED_SIZE) :: w.verts,
        mesh := { w.mesh with verts := w.mesh.verts ++ [o.getVertex] } }) := by
  simp [index, h, List.lookup_cons]

theorem index_of_some (o : Octree) (w : Worker) (i : Nat) (h : w.verts.lookup o.addr = some i) :
    index o w = (i, w) := by
  simp [index, h]

theorem lookup_mem {k v : Nat} : ∀ {l : List (Nat × Nat)}, l.lookup k = some v → (k, v) ∈ l := by
  intro l
  induction l with
  | nil => simp
  | cons p l ih =>
    obtain ⟨a, b⟩ := p
    simp only [List.lookup_cons]
    by_cases hk : k = a
    · subst hk; simp; intro h; left; exact h.symm
    · have : (k == a) = false := by simpa using hk
      simp only [this]
      intro h; exact List.mem_cons_of_mem _ (ih h)

theorem index_inv (o : Octree) (w : Worker) (hm : MapInRange w) :
    (index o w).1 < (index o w).2.mesh.verts.length ∧ MapInRange (index o w).2 ∧
    (index o w).2.mesh.tris = w.mesh.tris ∧
    w.mesh.verts.length ≤ (index o w).2.mesh.verts.length := by
  cases h : w.verts.lookup o.addr with
  | none =>
    rw [index_of_none o w h]
    have hlt : w.mesh.verts.length % UNSIGNED_SIZE < w.mesh.verts.length + 1 :=
      Nat.lt_succ_of_le (Nat.mod_le _ _)
    refine ⟨by simpa using hlt, ?_, rfl, by simp⟩
    intro p hp
    simp only [List.mem_cons] at hp
    rcases hp with hp | hp
    · subst hp; simpa using hlt
    · have := hm p hp
      simp; omega
  | some i =>
    rw [index_of_some o w i h]
    exact ⟨hm _ (lookup_mem h), hm, rfl, le_refl _⟩

theorem quad_eq (a b c d : Octree) (w : Worker) :
    quad a b c d w =
      { verts := (index d (index c (index b (index a w).2).2).2).2.verts,
        mesh :=
          { verts := (index d (index c (index b (index a w).2).2).2).2.mesh.verts,
            tris := (index d (index c (index b (index a w).2).2).2).2.mesh.tris ++
              [((index a w).1, (index b (index a w).2).1, (index c (index b (index a w).2).2).1),
               ((index c (index b (index a w).2).2).1, (index b (index a w).2).1,
                (index d (index c (index b (index a w).2).2).2).1)] } } := rfl

theorem quad_inv (a b c d : Octree) (w : Worker) (hT : TrisClosed w) (hM : MapInRange w) :
    TrisClosed (quad a b c d w) ∧ MapInRange (quad a b c d w) := by
  obtain ⟨ha1, ha2, ha3, ha4⟩ := index_inv a w hM
  obtain ⟨hb1, hb2, hb3, hb4⟩ := index_inv b _ ha2
  obtain ⟨hc1, hc2, hc3, hc4⟩ := index_inv c _ hb2
  obtain ⟨hd1, hd2, hd3, hd4⟩ := index_inv d _ hc2
  rw [quad_eq]
  constructor
  · intro t ht
    simp only [List.mem_append, List.mem_cons, List.mem_singleton, List.not_mem_nil,
      or_false] at ht
    rcases ht with ht | ht | ht
    · rw [hd3, hc3, hb3, ha3] at ht
      have := hT t ht
      simp only
      omega
    · subst ht; simp only; omega
    · subst ht; simp only; omega
  · intro p hp
    exact hd2 p hp

theorem runQuads_inv (qs : List QuadCall) : ∀ (w : Worker), TrisClosed w → MapInRange w →
    TrisClosed (runQuads qs w) ∧ MapInRange (runQuads qs w) := by
  induction qs with
  | nil => intro w hT hM; exact ⟨hT, hM⟩
  | cons q qs ih =>
    intro w hT hM
    rw [runQuads_cons]
    obtain ⟨h1, h2⟩ := quad_inv q.a q.b q.c q.d w hT hM
    exact ih _ h1 h2

/-- C1 (amended). Vertex indexing closure: after `cell root` run from the empty worker,
as `Render` does, every index of every triangle is below `mesh.verts.size()`; and the
property, taken together with "every index held in the map `verts` is below
`mesh.verts.size()`", is kept by every single call of `quad`, `face`, `edge` or `cell`. -/
theorem vertex_indexing_closure :
    (∀ root : Octree, TrisClosed (cell root Worker.empty) ∧
      ∀ t ∈ (Render root).tris, t.1 < (Render root).verts.length ∧
        t.2.1 < (Render root).verts.length ∧ t.2.2 < (Render root).verts.length) ∧
    (∀ w : Worker, TrisClosed w → MapInRange w →
      (∀ a b c d, TrisClosed (quad a b c d w) ∧ MapInRange (quad a b c d w)) ∧
      (∀ a b axis, TrisClosed (face a b axis w) ∧ MapInRange (face a b axis w)) ∧
      (∀ a b c d axis, TrisClosed (edge a b c d axis w) ∧ MapInRange (edge a b c d axis w)) ∧
      (∀ c, TrisClosed (cell c w) ∧ MapInRange (cell c w))) := by
  have hgen : ∀ w : Worker, TrisClosed w → MapInRange w →
      (∀ a b c d, TrisClosed (quad a b c d w) ∧ MapInRange (quad a b c d w)) ∧
      (∀ a b axis, TrisClosed (face a b axis w) ∧ MapInRange (face a b axis w)) ∧
      (∀ a b c d axis, TrisClosed (edge a b c d axis w) ∧ MapInRange (edge a b c d axis w)) ∧
      (∀ c, TrisClosed (cell c w) ∧ MapInRange (cell c w)) := by
    intro w hT hM
    refine ⟨fun a b c d => quad_inv a b c d w hT hM, ?_, ?_, ?_⟩
    · intro a b axis
      rw [face_eq_runQuads _ a b axis w (le_refl _)]
      exact runQuads_inv _ w hT hM
    · intro a b c d axis
      rw [edge_eq_runQuads _ a b c d axis w (le_refl _)]
      exact runQuads_inv _ w hT hM
    · intro c
      rw [cell_eq_runQuads]
      exact runQuads_inv _ w hT hM
  have hE : TrisClosed Worker.empty ∧ MapInRange Worker.empty := by
    constructor <;> intro p hp <;> simp [Worker.empty] at hp
  refine ⟨fun root => ?_, hgen⟩
  have h := ((hgen Worker.empty hE.1 hE.2).2.2.2 root).1
  exact ⟨h, h⟩

/-- C1, counterexample. From a state whose triangles are all in range (it has none) but
whose map holds an index that is not, one call of `quad` appends triangles with the
index 5 to a mesh of three vertices. -/
theorem vertex_indexing_closure_counterexample :
    TrisClosed staleWorker ∧
    ¬ TrisClosed (quad (leafAt 0 (fun _ => true)) (leafAt 1 (fun _ => true))
        (leafAt 2 (fun _ => true)) (leafAt 3 (fun _ => true)) staleWorker) := by
  decide

theorem index_lookup (o : Octree) (w : Worker) :
    (index o w).2.verts.lookup o.addr = some (index o w).1 := by
  cases h : w.verts.lookup o.addr with
  | none => rw [index_of_none o w h]; simp [List.lookup_cons]
  | some i => rw [index_of_some o w i h]; exact h

theorem index_mono (o : Octree) (w : Worker) (k i : Nat) (hk : w.verts.lookup k = some i) :
    (index o w).2.verts.lookup k = some i := by
  cases h : w.verts.lookup o.addr with
  | none =>
    rw [index_of_none o w h]
    have hne : k ≠ o.addr := by
      intro he; rw [he, h] at hk; exact Option.noConfusion hk
    have : (k == o.addr) = false := by simpa using hne
    simp [List.lookup_cons, this, hk]
  | some j => rw [index_of_some o w j h]; exact hk

theorem index_tris (o : Octree) (w : Worker) : (index o w).2.mesh.tris = w.mesh.tris := by
  cases h : w.verts.lookup o.addr with
  | none => rw [index_of_none o w h]
  | some i => rw [index_of_some o w i h]

theorem idx_of_lookup {w : Worker} {k i : Nat} (h : w.verts.lookup k = some i) : w.idx k = i := by
  simp [Worker.idx, h]

/-- The triangles of a quad, written with the indices the four leaves hold in the map
after the call. -/
theorem quad_tris (a b c d : Octree) (w : Worker) :
    (quad a b c d w).mesh.tris = w.mesh.tris ++
      [((quad a b c d w).idx a.addr, (quad a b c d w).idx b.addr, (quad a b c d w).idx c.addr),
       ((quad a b c d w).idx c.addr, (quad a b c d w).idx b.addr,
        (quad a b c d w).idx d.addr)] := by
  have ha := index_lookup a w
  have hb := index_lookup b (index a w).2
  have hc := index_lookup c (index b (index a w).2).2
  have hd := index_lookup d (index c (index b (index a w).2).2).2
  have ha' := index_mono d _ _ _ (index_mono c _ _ _ (index_mono b _ _ _ ha))
  have hb' := index_mono d _ _ _ (index_mono c _ _ _ hb)
  have hc' := index_mono d _ _ _ hc
  have e : (quad a b c d w).verts = (index d (index c (index b (index a w).2).2).2).2.verts := rfl
  have ia : (quad a b c d w).idx a.addr = (index a w).1 := by
    unfold Worker.idx; rw [e, ha']; rfl
  have ib : (quad a b c d w).idx b.addr = (index b (index a w).2).1 := by
    unfold Worker.idx; rw [e, hb']; rfl
  have ic : (quad a b c d w).idx c.addr = (index c (index b (index a w).2).2).1 := by
    unfold Worker.idx; rw [e, hc']; rfl
  have id : (quad a b c d w).idx d.addr =
      (index d (index c (index b (index a w).2).2).2).1 := by
    unfold Worker.idx; rw [e, hd]; rfl
  rw [ia, ib, ic, id]
  conv_lhs => rw [quad_eq]
  simp only [index_tris]

theorem edge_of_leaves (a b c d : Octree) (axis : Axis) (w : Worker)
    (ha : a.getType = .LEAF) (hb : b.getType = .LEAF)
    (hc : c.getType = .LEAF) (hd : d.getType = .LEAF) :
    edge a b c d axis w =
      if a.corner ((Q axis).bit ||| (R axis).bit) ≠
            a.corner ((Q axis).bit ||| (R axis).bit ||| axis.bit) ∨
          b.corner (R axis).bit ≠ b.corner ((R axis).bit ||| axis.bit) ∨
          c.corner (Q axis).bit ≠ c.corner ((Q axis).bit ||| axis.bit) ∨
          d.corner 0 ≠ d.corner axis.bit then
        if d.corner 0 then quad a b c d w else quad a c b d w
      else w := by
  rw [edge]
  simp [ha, hb, hc, hd]

/-- C6. Quad emission and winding of `edge` on four leaves: with `Q = Q(axis)`,
`R = R(axis)`, the call appends triangles exactly when one of
`a.corner(Q|R) ≠ a.corner(Q|R|axis)`, `b.corner(R) ≠ b.corner(R|axis)`,
`c.corner(Q) ≠ c.corner(Q|axis)`, `d.corner(0) ≠ d.corner(axis)` holds; it then appends
exactly `(ia,ib,ic),(ic,ib,id)` when `d.corner(0)` is true and exactly
`(ia,ic,ib),(ib,ic,id)` when it is false, `ix` being the index the map holds for leaf `x`
after the call; otherwise the worker (mesh and map) is unchanged. -/
theorem edge_on_four_leaves (a b c d : Octree) (axis : Axis) (w : Worker)
    (ha : a.getType = .LEAF) (hb : b.getType = .LEAF)
    (hc : c.getType = .LEAF) (hd : d.getType = .LEAF) :
    let w' := edge a b c d axis w
    let ia := w'.idx a.addr
    let ib := w'.idx b.addr
    let ic := w'.idx c.addr
    let id := w'.idx d.addr
    let change : Prop :=
      a.corner ((Q axis).bit ||| (R axis).bit) ≠
          a.corner ((Q axis).bit ||| (R axis).bit ||| axis.bit) ∨
      b.corner (R axis).bit ≠ b.corner ((R axis).bit ||| axis.bit) ∨
      c.corner (Q axis).bit ≠ c.corner ((Q axis).bit ||| axis.bit) ∨
      d.corner 0 ≠ d.corner axis.bit
    (w'.mesh.tris ≠ w.mesh.tris ↔ change) ∧
    (change → d.corner 0 = true →
      w'.mesh.tris = w.mesh.tris ++ [(ia, ib, ic), (ic, ib, id)]) ∧
    (change → d.corner 0 = false →
      w'.mesh.tris = w.mesh.tris ++ [(ia, ic, ib), (ib, ic, id)]) ∧
    (¬ change → w' = w) := by
  intro w' ia ib ic id change
  have key := edge_of_leaves a b c d axis w ha hb hc hd
  have h1 : change → d.corner 0 = true →
      w'.mesh.tris = w.mesh.tris ++ [(ia, ib, ic), (ic, ib, id)] := by
    intro hch hd0
    have e : w' = quad a b c d w := by
      show edge a b c d axis w = _
      rw [key, if_pos hch, if_pos hd0]
    simp only [ia, ib, ic, id, e]
    exact quad_tris a b c d w
  have h2 : change → d.corner 0 = false →
      w'.mesh.tris = w.mesh.tris ++ [(ia, ic, ib), (ib, ic, id)] := by
    intro hch hd0
    have e : w' = quad a c b d w := by
      show edge a b c d axis w = _
      rw [key, if_pos hch, if_neg (by simp [hd0])]
    simp only [ia, ib, ic, id, e]
    exact quad_tris a c b d w
  have h3 : ¬ change → w' = w := by
    intro hch
    show edge a b c d axis w = _
    rw [key, if_neg hch]
  refine ⟨?_, h1, h2, h3⟩
  constructor
  · intro hne
    by_contra hch
    exact hne (by rw [h3 hch])
  · intro hch hEq
    cases hd0 : d.corner 0 with
    | true =>
      have := h1 hch hd0
      rw [hEq] at this
      simp at this
    | false =>
      have := h2 hch hd0
      rw [hEq] at this
      simp at this

theorem Octree.leaves_child_subset (t : Octree) (i : Fin 8) :
    (t.child i).leaves ⊆ t.leaves := by
  cases t with
  | LEAF a cs v => simp [Octree.child]
  | BRANCH a ch =>
    intro l hl
    simp only [Octree.child] at hl
    simp only [Octree.leaves, List.mem_flatMap]
    exact ⟨i, List.mem_finRange i, hl⟩

theorem Octree.mem_leaves_self (t : Octree) (h : t.getType = .LEAF) : t ∈ t.leaves := by
  cases t with
  | LEAF a cs v => simp [Octree.leaves]
  | BRANCH a ch => simp [Octree.getType] at h

theorem Octree.getType_of_mem_leaves {l : Octree} : ∀ {t : Octree}, l ∈ t.leaves →
    l.getType = .LEAF := by
  intro t
  induction t with
  | LEAF a cs v =>
    intro h
    simp only [Octree.leaves, List.mem_singleton] at h
    subst h; rfl
  | BRANCH a ch ih =>
    intro h
    simp only [Octree.leaves, List.mem_flatMap] at h
    obtain ⟨i, _, hi⟩ := h
    exact ih i hi

theorem crossing_of_corner_ne (o : Octree) (i j : Fin 8) (h : o.corner i ≠ o.corner j) :
    o.crossing = true := by
  simp only [Octree.crossing, decide_eq_true_eq]
  exact ⟨i, j, h⟩

/-- What `edge` passes to `quad`: leaves of its four arguments (`a` first and `d` last,
`b` and `c` possibly swapped), one of which at least sees a sign change. -/
theorem edgeQuads_mem (n : Nat) : ∀ (a b c d : Octree) (axis : Axis) (q : QuadCall),
    q ∈ edgeQuads n a b c d axis →
    q.a ∈ a.leaves ∧ q.d ∈ d.leaves ∧
    ((q.b ∈ b.leaves ∧ q.c ∈ c.leaves) ∨ (q.b ∈ c.leaves ∧ q.c ∈ b.leaves)) ∧
    (∃ x ∈ q.args, x.crossing = true) := by
  induction n with
  | zero =>
    intro a b c d axis q hq
    rw [edgeQuads] at hq
    split_ifs at hq with h1 h2 h3
    · simp only [List.mem_singleton] at hq
      subst hq
      refine ⟨Octree.mem_leaves_self _ h1.1, Octree.mem_leaves_self _ h1.2.2.2.1,
        Or.inl ⟨Octree.mem_leaves_self _ h1.2.1, Octree.mem_leaves_self _ h1.2.2.1⟩, ?_⟩
      rcases h1.2.2.2.2 with h | h | h | h
      · exact ⟨a, by simp [QuadCall.args], crossing_of_corner_ne _ _ _ h⟩
      · exact ⟨b, by simp [QuadCall.args], crossing_of_corner_ne _ _ _ h⟩
      · exact ⟨c, by simp [QuadCall.args], crossing_of_corner_ne _ _ _ h⟩
      · exact ⟨d, by simp [QuadCall.args], crossing_of_corner_ne _ _ _ h⟩
    · simp only [List.mem_singleton] at hq
      subst hq
      refine ⟨Octree.mem_leaves_self _ h1.1, Octree.mem_leaves_self _ h1.2.2.2.1,
        Or.inr ⟨Octree.mem_leaves_self _ h1.2.2.1, Octree.mem_leaves_self _ h1.2.1⟩, ?_⟩
      rcases h1.2.2.2.2 with h | h | h | h
      · exact ⟨a, by simp [QuadCall.args], crossing_of_corner_ne _ _ _ h⟩
      · exact ⟨b, by simp [QuadCall.args], crossing_of_corner_ne _ _ _ h⟩
      · exact ⟨c, by simp [QuadCall.args], crossing_of_corner_ne _ _ _ h⟩
      · exact ⟨d, by simp [QuadCall.args], crossing_of_corner_ne _ _ _ h⟩
    · simp at hq
    · simp at hq
  | succ n ih =>
    intro a b c d axis q hq
    rw [edgeQuads] at hq
    split_ifs at hq with h1 h2 h3
    · simp only [List.mem_singleton] at hq
      subst hq
      refine ⟨Octree.mem_leaves_self _ h1.1, Octree.mem_leaves_self _ h1.2.2.2.1,
        Or.inl ⟨Octree.mem_leaves_self _ h1.2.1, Octree.mem_leaves_self _ h1.2.2.1⟩, ?_⟩
      rcases h1.2.2.2.2 with h | h | h | h
      · exact ⟨a, by simp [QuadCall.args], crossing_of_corner_ne _ _ _ h⟩
      · exact ⟨b, by simp [QuadCall.args], crossing_of_corner_ne _ _ _ h⟩
      · exact ⟨c, by simp [QuadCall.args], crossing_of_corner_ne _ _ _ h⟩
      · exact ⟨d, by simp [QuadCall.args], crossing_of_corner_ne _ _ _ h⟩
    · simp only [List.mem_singleton] at hq
      subst hq
      refine ⟨Octree.mem_leaves_self _ h1.1, Octree.mem_leaves_self _ h1.2.2.2.1,
        Or.inr ⟨Octree.mem_leaves_self _ h1.2.2.1, Octree.mem_leaves_self _ h1.2.1⟩, ?_⟩
      rcases h1.2.2.2.2 with h | h | h | h
      · exact ⟨a, by simp [QuadCall.args], crossing_of_corner_ne _ _ _ h⟩
      · exact ⟨b, by simp [QuadCall.args], crossing_of_corner_ne _ _ _ h⟩
      · exact ⟨c, by simp [QuadCall.args], crossing_of_corner_ne _ _ _ h⟩
      · exact ⟨d, by simp [QuadCall.args], crossing_of_corner_ne _ _ _ h⟩
    · simp only [List.mem_append] at hq
      rcases hq with hq | hq
      · obtain ⟨h1, h2, h3, h4⟩ := ih _ _ _ _ _ _ hq
        refine ⟨Octree.leaves_child_subset _ _ h1, Octree.leaves_child_subset _ _ h2, ?_, h4⟩
        rcases h3 with ⟨hb, hc⟩ | ⟨hb, hc⟩
        · exact Or.inl ⟨Octree.leaves_child_subset _ _ hb, Octree.leaves_child_subset _ _ hc⟩
        · exact Or.inr ⟨Octree.leaves_child_subset _ _ hb, Octree.leaves_child_subset _ _ hc⟩
      · obtain ⟨h1, h2, h3, h4⟩ := ih _ _ _ _ _ _ hq
        refine ⟨Octree.leaves_child_subset _ _ h1, Octree.leaves_child_subset _ _ h2, ?_, h4⟩
        rcases h3 with ⟨hb, hc⟩ | ⟨hb, hc⟩
        · exact Or.inl ⟨Octree.leaves_child_subset _ _ hb, Octree.leaves_child_subset _ _ hc⟩
        · exact Or.inr ⟨Octree.leaves_child_subset _ _ hb, Octree.leaves_child_subset _ _ hc⟩
    · simp at hq

/-- A coarser form of `edgeQuads_mem`: every argument of every quad is a leaf of one of
the four trees, and one of them is surface-crossing. -/
theorem edgeQuads_args (n : Nat) (a b c d : Octree) (axis : Axis) (q : QuadCall)
    (hq : q ∈ edgeQuads n a b c d axis) :
    (∀ x ∈ q.args, x ∈ a.leaves ∨ x ∈ b.leaves ∨ x ∈ c.leaves ∨ x ∈ d.leaves) ∧
    (∃ x ∈ q.args, x.crossing = true) := by
  obtain ⟨h1, h2, h3, h4⟩ := edgeQuads_mem n a b c d axis q hq
  refine ⟨?_, h4⟩
  intro x hx
  simp only [QuadCall.args, List.mem_cons, List.mem_singleton, List.not_mem_nil, or_false] at hx
  rcases h3 with ⟨hb, hc⟩ | ⟨hb, hc⟩ <;> rcases hx with rfl | rfl | rfl | rfl <;> simp [*]

theorem faceQuads_args (n : Nat) : ∀ (a b : Octree) (axis : Axis) (q : QuadCall),
    q ∈ faceQuads n a b axis →
    (∀ x ∈ q.args, x ∈ a.leaves ∨ x ∈ b.leaves) ∧ (∃ x ∈ q.args, x.crossing = true) := by
  induction n with
  | zero =>
    intro a b axis q hq
    rw [faceQuads] at hq
    split_ifs at hq <;> simp at hq
  | succ n ih =>
    intro a b axis q hq
    rw [faceQuads] at hq
    split_ifs at hq with h1
    · simp only [List.mem_append] at hq
      have hsub := fun (t : Octree) (i : Fin 8) (x : Octree) (hx : x ∈ (t.child i).leaves) =>
        Octree.leaves_child_subset t i hx
      rcases hq with (((((((hq | hq) | hq) | hq) | hq) | hq) | hq) | hq)
      iterate 4
        · obtain ⟨h2, h3⟩ := ih _ _ _ _ hq
          refine ⟨fun x hx => ?_, h3⟩
          rcases h2 x hx with h | h
          · exact Or.inl (hsub _ _ _ h)
          · exact Or.inr (hsub _ _ _ h)
      iterate 4
        · obtain ⟨h2, h3⟩ := edgeQuads_args _ _ _ _ _ _ _ hq
          refine ⟨fun x hx => ?_, h3⟩
          rcases h2 x hx with h | h | h | h
          all_goals first
            | exact Or.inl (hsub _ _ _ h)
            | exact Or.inr (hsub _ _ _ h)
    · simp at hq

theorem cellQuads_args : ∀ (t : Octree) (q : QuadCall), q ∈ cellQuads t →
    (∀ x ∈ q.args, x ∈ t.leaves) ∧ (∃ x ∈ q.args, x.crossing = true) := by
  intro t
  induction t with
  | LEAF a cs v => intro q hq; simp [cellQuads] at hq
  | BRANCH a ch ih =>
    intro q hq
    rw [cellQuads] at hq
    simp only [List.mem_append] at hq
    have hsub := fun (i : Fin 8) (x : Octree)
        (hx : x ∈ ((Octree.BRANCH a ch).child i).leaves) =>
      Octree.leaves_child_subset (Octree.BRANCH a ch) i hx
    rcases hq with (((((((((((((((((( hq | hq) | hq) | hq) | hq) | hq) | hq) | hq) | hq) | hq)
      | hq) | hq) | hq) | hq) | hq) | hq) | hq) | hq) | hq)
    · simp only [List.mem_flatMap] at hq
      obtain ⟨i, _, hi⟩ := hq
      obtain ⟨h2, h3⟩ := ih i q hi
      exact ⟨fun x hx => hsub i x (h2 x hx), h3⟩
    iterate 12
      · obtain ⟨h2, h3⟩ := faceQuads_args _ _ _ _ _ hq
        refine ⟨fun x hx => ?_, h3⟩
        rcases h2 x hx with h | h <;> exact hsub _ _ h
    iterate 6
      · obtain ⟨h2, h3⟩ := edgeQuads_args _ _ _ _ _ _ _ hq
        refine ⟨fun x hx => ?_, h3⟩
        rcases h2 x hx with h | h | h | h <;> exact hsub _ _ h

/-- C8. Uniform leaves produce no quad: when every leaf of the tree has its eight corner
signs all equal, `cell root` makes no quad call, and run from the empty worker it leaves
`mesh.verts`, `mesh.tris` and the map `verts` empty. -/
theorem uniform_leaves_no_quad (root : Octree)
    (h : ∀ l ∈ root.leaves, l.crossing = false) :
    cellQuads root = [] ∧
    (cell root Worker.empty).verts = [] ∧
    (cell root Worker.empty).mesh.verts = [] ∧
    (cell root Worker.empty).mesh.tris = [] ∧
    (Render root).verts = [] ∧ (Render root).tris = [] := by
  have hnil : cellQuads root = [] := by
    apply List.eq_nil_iff_forall_not_mem.mpr
    intro q hq
    obtain ⟨h1, x, hx, hc⟩ := cellQuads_args root q hq
    have := h x (h1 x hx)
    rw [this] at hc
    exact Bool.noConfusion hc
  have hrun : cell root Worker.empty = Worker.empty := by
    rw [cell_eq_runQuads, hnil]; rfl
  refine ⟨hnil, ?_, ?_, ?_, ?_, ?_⟩ <;> simp only [Render, hrun] <;> rfl

theorem lookup_mapOf_none (k : Nat) : ∀ hr : List Octree,
    ((mapOf hr).lookup k = none ↔ k ∉ hr.map Octree.addr) := by
  intro hr
  induction hr with
  | nil => simp [mapOf]
  | cons o rest ih =>
    simp only [mapOf, List.lookup_cons, List.map_cons, List.mem_cons, not_or]
    by_cases hk : k = o.addr
    · subst hk; simp
    · have : (k == o.addr) = false := by simpa using hk
      simp only [this, ih]
      exact ⟨fun h => ⟨hk, h⟩, fun h => h.2⟩

theorem Tracks.length_eq {w : Worker} {hr : List Octree} (h : Tracks w hr) :
    w.mesh.verts.length = hr.length := by
  rw [h.2.1]; simp

theorem mapOf_length : ∀ hr : List Octree, (mapOf hr).length = hr.length := by
  intro hr
  induction hr with
  | nil => rfl
  | cons o rest ih => simp [mapOf, ih]

theorem Tracks.verts_length_eq {w : Worker} {hr : List Octree} (h : Tracks w hr) :
    w.verts.length = hr.length := by
  rw [h.1, mapOf_length]

theorem tracks_empty : Tracks Worker.empty [] := by
  refine ⟨rfl, rfl, ?_⟩
  simp

theorem tracks_index (o : Octree) (w : Worker) (hr : List Octree) (h : Tracks w hr) :
    Tracks (index o w).2 (addRef hr o) := by
  cases hl : w.verts.lookup o.addr with
  | none =>
    have hnot : o.addr ∉ hr.map Octree.addr := by
      rw [h.1] at hl; exact (lookup_mapOf_none _ _).mp hl
    rw [index_of_none o w hl]
    simp only [addRef, if_neg hnot]
    refine ⟨?_, ?_, ?_⟩
    · simp only [mapOf, h.length_eq, h.1]
    · simp only [List.map_cons, List.reverse_cons, h.2.1]
    · simp only [List.map_cons]
      exact List.nodup_cons.mpr ⟨hnot, h.2.2⟩
  | some i =>
    have hin : o.addr ∈ hr.map Octree.addr := by
      by_contra hnot
      have := (lookup_mapOf_none _ _).mpr hnot
      rw [← h.1, hl] at this
      exact Option.noConfusion this
    rw [index_of_some o w i hl]
    simp only [addRef, if_pos hin]
    exact h

theorem tracks_quad (a b c d : Octree) (w : Worker) (hr : List Octree) (h : Tracks w hr) :
    Tracks (quad a b c d w) (addRef (addRef (addRef (addRef hr a) b) c) d) := by
  have h4 := tracks_index d _ _ (tracks_index c _ _ (tracks_index b _ _ (tracks_index a w hr h)))
  exact ⟨h4.1, h4.2.1, h4.2.2⟩

theorem tracks_runQuads (qs : List QuadCall) : ∀ (w : Worker) (hr : List Octree),
    Tracks w hr → Tracks (runQuads qs w) ((refsOf qs).foldl addRef hr) := by
  induction qs with
  | nil => intro w hr h; exact h
  | cons q qs ih =>
    intro w hr h
    rw [runQuads_cons]
    have := ih _ _ (tracks_quad q.a q.b q.c q.d w hr h)
    simpa [refsOf, QuadCall.args, List.flatMap_cons] using this

theorem foldl_addRef_eq (refs : List Octree) : ∀ acc : List Octree,
    refs.foldl addRef acc =
      ((firstRefs refs).filter (fun y => decide (y.addr ∉ acc.map Octree.addr))).reverse ++
        acc := by
  induction refs with
  | nil => intro acc; simp [firstRefs]
  | cons x xs ih =>
    intro acc
    simp only [List.foldl_cons, firstRefs]
    by_cases hx : x.addr ∈ acc.map Octree.addr
    · have e : addRef acc x = acc := by simp only [addRef, if_pos hx]
      rw [e, ih acc]
      congr 2
      rw [List.filter_cons]
      have hdx : decide (x.addr ∉ acc.map Octree.addr) = false := by simpa using hx
      simp only [hdx, Bool.false_eq_true, if_false, List.filter_filter]
      apply List.filter_congr
      intro y _
      by_cases hy : y.addr ∈ acc.map Octree.addr
      · simp [hy]
      · have : y.addr ≠ x.addr := fun e => hy (e ▸ hx)
        simp [hy, this]
    · have e : addRef acc x = x :: acc := by simp only [addRef, if_neg hx]
      rw [e, ih (x :: acc)]
      rw [List.filter_cons]
      have hdx : decide (x.addr ∉ acc.map Octree.addr) = true := by simpa using hx
      simp only [hdx, if_true, List.filter_filter, List.reverse_cons, List.append_assoc,
        List.singleton_append]
      congr 2
      apply List.filter_congr
      intro y _
      simp only [List.map_cons, List.mem_cons, not_or, ne_eq, Bool.decide_and,
        Bool.and_comm]

theorem foldl_addRef_nil (refs : List Octree) :
    refs.foldl addRef [] = (firstRefs refs).reverse := by
  rw [foldl_addRef_eq]
  simp

/-- The state reached from the empty worker by a list of quad calls. -/
theorem tracks_run_empty (qs : List QuadCall) :
    Tracks (runQuads qs Worker.empty) (firstRefs (refsOf qs)).reverse := by
  have := tracks_runQuads qs Worker.empty [] tracks_empty
  rwa [foldl_addRef_nil] at this

theorem quad_mono (a b c d : Octree) (w : Worker) (k i : Nat)
    (hk : w.verts.lookup k = some i) : (quad a b c d w).verts.lookup k = some i :=
  index_mono d _ _ _ (index_mono c _ _ _ (index_mono b _ _ _ (index_mono a w _ _ hk)))

theorem runQuads_mono (qs : List QuadCall) : ∀ (w : Worker) (k i : Nat),
    w.verts.lookup k = some i → (runQuads qs w).verts.lookup k = some i := by
  induction qs with
  | nil => intro w k i h; exact h
  | cons q qs ih =>
    intro w k i h
    rw [runQuads_cons]
    exact ih _ _ _ (quad_mono _ _ _ _ _ _ _ h)

theorem quad_lookup_args (a b c d : Octree) (w : Worker) :
    ∀ x ∈ [a, b, c, d], ∃ i, (quad a b c d w).verts.lookup x.addr = some i := by
  have ha := index_lookup a w
  have hb := index_lookup b (index a w).2
  have hc := index_lookup c (index b (index a w).2).2
  have hd := index_lookup d (index c (index b (index a w).2).2).2
  have ha' := index_mono d _ _ _ (index_mono c _ _ _ (index_mono b _ _ _ ha))
  have hb' := index_mono d _ _ _ (index_mono c _ _ _ hb)
  have hc' := index_mono d _ _ _ hc
  intro x hx
  simp only [List.mem_cons, List.mem_singleton, List.not_mem_nil, or_false] at hx
  rcases hx with rfl | rfl | rfl | rfl
  · exact ⟨_, ha'⟩
  · exact ⟨_, hb'⟩
  · exact ⟨_, hc'⟩
  · exact ⟨_, hd⟩

theorem quad_tris_eq (q : QuadCall) (w : Worker) :
    (quad q.a q.b q.c q.d w).mesh.tris = w.mesh.tris ++ quadTris (quad q.a q.b q.c q.d w) q :=
  quad_tris q.a q.b q.c q.d w

theorem quadTris_stable (q : QuadCall) (w w' : Worker)
    (hmono : ∀ k i, w.verts.lookup k = some i → w'.verts.lookup k = some i)
    (hargs : ∀ x ∈ q.args, ∃ i, w.verts.lookup x.addr = some i) :
    quadTris w' q = quadTris w q := by
  have key : ∀ x ∈ q.args, w'.idx x.addr = w.idx x.addr := by
    intro x hx
    obtain ⟨i, hi⟩ := hargs x hx
    rw [idx_of_lookup hi, idx_of_lookup (hmono _ _ hi)]
  simp only [quadTris]
  rw [key q.a (by simp [QuadCall.args]), key q.b (by simp [QuadCall.args]),
    key q.c (by simp [QuadCall.args]), key q.d (by simp [QuadCall.args])]

/-- The triangles appended by a run of quad calls, written with the final indices. -/
theorem runQuads_tris (qs : List QuadCall) : ∀ w : Worker,
    (runQuads qs w).mesh.tris = w.mesh.tris ++ qs.flatMap (quadTris (runQuads qs w)) := by
  induction qs with
  | nil => intro w; simp [runQuads]
  | cons q qs ih =>
    intro w
    rw [runQuads_cons, ih, quad_tris_eq, List.flatMap_cons, List.append_assoc]
    congr 2
    exact (quadTris_stable q _ _ (fun k i h => runQuads_mono qs _ k i h)
      (quad_lookup_args q.a q.b q.c q.d w)).symm

/-- Every leaf passed to a quad of the run has an entry in the final map. -/
theorem runQuads_lookup_refs (qs : List QuadCall) : ∀ (w : Worker), ∀ x ∈ refsOf qs,
    ∃ i, (runQuads qs w).verts.lookup x.addr = some i := by
  induction qs with
  | nil => intro w x hx; simp [refsOf] at hx
  | cons q qs ih =>
    intro w x hx
    rw [runQuads_cons]
    simp only [refsOf, List.flatMap_cons, List.mem_append] at hx
    rcases hx with hx | hx
    · obtain ⟨i, hi⟩ := quad_lookup_args q.a q.b q.c q.d w x hx
      exact ⟨i, runQuads_mono qs _ _ _ hi⟩
    · exact ih _ x hx

theorem mapOf_keys : ∀ hr : List Octree, (mapOf hr).map Prod.fst = hr.map Octree.addr := by
  intro hr
  induction hr with
  | nil => rfl
  | cons o rest ih => simp [mapOf, ih]

theorem mapOf_values_lt : ∀ hr : List Octree, ∀ p ∈ mapOf hr,
    p.2 < hr.length ∧ p.2 < UNSIGNED_SIZE := by
  intro hr
  induction hr with
  | nil => intro p hp; simp [mapOf] at hp
  | cons o rest ih =>
    intro p hp
    simp only [mapOf, List.mem_cons] at hp
    have hU : 0 < UNSIGNED_SIZE := by unfold UNSIGNED_SIZE; norm_num
    rcases hp with rfl | hp
    · exact ⟨Nat.lt_succ_of_le (Nat.mod_le _ _), Nat.mod_lt _ hU⟩
    · have := ih p hp
      exact ⟨Nat.lt_succ_of_lt this.1, this.2⟩

/-- The node first referenced in `i`-th place holds the index `i` (as an `unsigned`). -/
theorem lookup_mapOf_reverse (F : List Octree) :
    (F.map Octree.addr).Nodup → ∀ (i : Nat) (hi : i < F.length),
    (mapOf F.reverse).lookup (F.get ⟨i, hi⟩).addr = some (i % UNSIGNED_SIZE) := by
  induction F using List.reverseRecOn with
  | nil => intro _ i hi; simp at hi
  | append_singleton G x ih =>
    intro hN i hi
    simp only [List.reverse_append, List.reverse_cons, List.reverse_nil, List.nil_append,
      List.singleton_append, mapOf, List.length_reverse, List.lookup_cons]
    rw [List.map_append, List.nodup_append] at hN
    obtain ⟨hG, _, hdisj⟩ := hN
    simp only [List.length_append, List.length_singleton] at hi
    by_cases hiG : i < G.length
    · have e : (G ++ [x]).get ⟨i, by simp; omega⟩ = G.get ⟨i, hiG⟩ := by
        simp [List.getElem_append_left, hiG]
      rw [e]
      have hne : (G.get ⟨i, hiG⟩).addr ≠ x.addr := by
        intro he
        apply hdisj (a := x.addr)
        · rw [← he]; exact List.mem_map_of_mem _ (List.get_mem _ _ _)
        · simp
      have : ((G.get ⟨i, hiG⟩).addr == x.addr) = false := by simpa using hne
      simp only [this]
      exact ih hG i hiG
    · have hi' : i = G.length := by omega
      subst hi'
      have e : (G ++ [x]).get ⟨G.length, by simp⟩ = x := by
        simp
      rw [e]
      simp

/-- C2, counterexample. On the T-junction tree (distinct addresses), `face` passes the
undivided leaf 0 twice to `edge`, and the mesh holds the triangle `(4, 4, 0)`. -/
theorem no_equal_indices_counterexample :
    tJunction.WellAddressed ∧ (4, 4, 0) ∈ (Render tJunction).tris ∧
    ¬ NoDegenerate (Render tJunction) := by
  unfold Render
  rw [cell_eq_runQuads]
  decide

/-- C3, counterexample. A root that is one surface-crossing leaf: `cell` returns at once,
and the leaf has no entry in `verts` and no vertex in the mesh. -/
theorem leaf_uniqueness_counterexample :
    singleLeaf ∈ singleLeaf.leaves ∧ singleLeaf.crossing = true ∧
    (cell singleLeaf Worker.empty).verts.lookup singleLeaf.addr = none ∧
    (cell singleLeaf Worker.empty).mesh.verts = [] := by
  refine ⟨by simp [singleLeaf, leafAt, Octree.leaves], by decide, rfl, rfl⟩

/-- C9, counterexample. In `cornerTree` one leaf is surface-crossing, and the map ends
with seven entries: the three edges through the centre each pass child 0 and three
uniform leaves to `quad`. In `tJunction`, whose corner signs are those of one half-space,
seven leaves are surface-crossing and the map ends with ten entries. -/
theorem map_size_counterexample :
    ((cornerTree.leaves.filter Octree.crossing).length = 1 ∧
     (cell cornerTree Worker.empty).verts.length = 7 ∧
     (cell cornerTree Worker.empty).mesh.verts.length = 7) ∧
    ((tJunction.leaves.filter Octree.crossing).length = 7 ∧
     (cell tJunction Worker.empty).verts.length = 10 ∧
     (cell tJunction Worker.empty).mesh.verts.length = 10) := by
  rw [cell_eq_runQuads, cell_eq_runQuads]
  decide

theorem index_len_mono (o : Octree) (w : Worker) :
    w.mesh.verts.length ≤ (index o w).2.mesh.verts.length := by
  cases h : w.verts.lookup o.addr with
  | none => rw [index_of_none o w h]; simp
  | some i => rw [index_of_some o w i h]

theorem quad_len_mono (a b c d : Octree) (w : Worker) :
    w.mesh.verts.length ≤ (quad a b c d w).mesh.verts.length := by
  have h1 := index_len_mono a w
  have h2 := index_len_mono b (index a w).2
  have h3 := index_len_mono c (index b (index a w).2).2
  have h4 := index_len_mono d (index c (index b (index a w).2).2).2
  rw [quad_eq]
  simp only
  omega

theorem runQuads_len_mono (qs : List QuadCall) : ∀ w : Worker,
    w.mesh.verts.length ≤ (runQuads qs w).mesh.verts.length := by
  induction qs with
  | nil => intro w; exact le_refl _
  | cons q qs ih =>
    intro w
    rw [runQuads_cons]
    exact le_trans (quad_len_mono _ _ _ _ w) (ih _)

/-- A vertex position of the state after `index` is an old one or the index returned,
as long as the vertex count stays within the range of `unsigned`. -/
theorem index_cover (o : Octree) (w : Worker)
    (hU : (index o w).2.mesh.verts.length ≤ UNSIGNED_SIZE) :
    ∀ p < (index o w).2.mesh.verts.length, p < w.mesh.verts.length ∨ p = (index o w).1 := by
  cases h : w.verts.lookup o.addr with
  | none =>
    rw [index_of_none o w h] at hU ⊢
    simp only [List.length_append, List.length_singleton] at hU ⊢
    intro p hp
    rw [Nat.mod_eq_of_lt (by omega)]
    omega
  | some i =>
    rw [index_of_some o w i h]
    intro p hp
    exact Or.inl hp

theorem quad_cover (a b c d : Octree) (w : Worker) (hC : Covered w)
    (hU : (quad a b c d w).mesh.verts.length ≤ UNSIGNED_SIZE) :
    Covered (quad a b c d w) := by
  have l2 := index_len_mono b (index a w).2
  have l3 := index_len_mono c (index b (index a w).2).2
  have l4 := index_len_mono d (index c (index b (index a w).2).2).2
  have e : (quad a b c d w).mesh.verts.length =
      (index d (index c (index b (index a w).2).2).2).2.mesh.verts.length := rfl
  rw [e] at hU
  have c4 := index_cover d (index c (index b (index a w).2).2).2 hU
  have c3 := index_cover c (index b (index a w).2).2 (by omega)
  have c2 := index_cover b (index a w).2 (by omega)
  have c1 := index_cover a w (by omega)
  intro p hp
  rw [e] at hp
  have ht : (quad a b c d w).mesh.tris = w.mesh.tris ++
      [((index a w).1, (index b (index a w).2).1, (index c (index b (index a w).2).2).1),
       ((index c (index b (index a w).2).2).1, (index b (index a w).2).1,
        (index d (index c (index b (index a w).2).2).2).1)] := by
    conv_lhs => rw [quad_eq]
    simp only [index_tris]
  rw [ht]
  rcases c4 p hp with h4 | h4
  · rcases c3 p h4 with h3 | h3
    · rcases c2 p h3 with h2 | h2
      · rcases c1 p h2 with h1 | h1
        · obtain ⟨t, ht1, ht2⟩ := hC p h1
          exact ⟨t, List.mem_append_left _ ht1, ht2⟩
        · exact ⟨_, List.mem_append_right _ (List.mem_cons_self _ _), Or.inl h1⟩
      · exact ⟨_, List.mem_append_right _ (List.mem_cons_self _ _), Or.inr (Or.inl h2)⟩
    · exact ⟨_, List.mem_append_right _ (List.mem_cons_self _ _), Or.inr (Or.inr h3)⟩
  · exact ⟨_, List.mem_append_right _ (List.mem_cons_of_mem _ (List.mem_singleton_self _)),
      Or.inr (Or.inr h4)⟩

theorem runQuads_cover (qs : List QuadCall) : ∀ w : Worker, Covered w →
    (runQuads qs w).mesh.verts.length ≤ UNSIGNED_SIZE → Covered (runQuads qs w) := by
  induction qs with
  | nil => intro w hC _; exact hC
  | cons q qs ih =>
    intro w hC hU
    rw [runQuads_cons] at hU ⊢
    have := runQuads_len_mono qs (quad q.a q.b q.c q.d w)
    exact ih _ (quad_cover _ _ _ _ w hC (by omega)) hU

theorem covered_empty : Covered Worker.empty := by
  intro p hp
  simp [Worker.empty] at hp

/-- C5 (amended). No vertex is unreferenced, as long as the mesh has at most `2 ^ 32`
vertices: for every octree whose mesh ends with at most `2 ^ 32` vertices, after
`cell root` run from the empty worker, and after every intermediate quad call (every
initial segment `qs` of the quad calls of `cell root`), every index
`0 .. |mesh.verts| - 1` occurs in at least one triangle. -/
theorem no_vertex_unreferenced (root : Octree)
    (hU : (Render root).verts.length ≤ UNSIGNED_SIZE) :
    Covered (cell root Worker.empty) ∧
    (∀ p < (Render root).verts.length,
      ∃ t ∈ (Render root).tris, p = t.1 ∨ p = t.2.1 ∨ p = t.2.2) ∧
    (∀ qs rest, cellQuads root = qs ++ rest →
      cell root Worker.empty = runQuads rest (runQuads qs Worker.empty) ∧
      Covered (runQuads qs Worker.empty)) := by
  have hrun := cell_eq_runQuads root Worker.empty
  have hU' : (runQuads (cellQuads root) Worker.empty).mesh.verts.length ≤ UNSIGNED_SIZE := by
    rw [← hrun]; exact hU
  have hfin : Covered (cell root Worker.empty) := by
    rw [hrun]; exact runQuads_cover _ _ covered_empty hU'
  refine ⟨hfin, hfin, ?_⟩
  intro qs rest hsplit
  rw [hsplit, runQuads_append] at hU'
  refine ⟨by rw [hrun, hsplit, runQuads_append], ?_⟩
  have := runQuads_len_mono rest (runQuads qs Worker.empty)
  exact runQuads_cover _ _ covered_empty (by omega)

theorem edgeQuads_corner0 (n a b c d : Nat) (axis : Axis) :
    edgeQuads n (leafAt a corner0) (leafAt b corner0) (leafAt c corner0) (leafAt d corner0)
      axis =
    [⟨leafAt a corner0, leafAt b corner0, leafAt c corner0, leafAt d corner0⟩] := by
  have hd : (leafAt d corner0).corner 0 ≠ (leafAt d corner0).corner axis.bit := by
    cases axis <;> simp [leafAt, Octree.corner, corner0, Axis.bit]
  have hd0 : (leafAt d corner0).corner 0 = true := by
    simp [leafAt, Octree.corner, corner0]
  have hc : (leafAt a corner0).getType = .LEAF ∧ (leafAt b corner0).getType = .LEAF ∧
      (leafAt c corner0).getType = .LEAF ∧ (leafAt d corner0).getType = .LEAF ∧
      ((leafAt a corner0).corner ((Q axis).bit ||| (R axis).bit) ≠
          (leafAt a corner0).corner ((Q axis).bit ||| (R axis).bit ||| axis.bit) ∨
        (leafAt b corner0).corner (R axis).bit ≠
          (leafAt b corner0).corner ((R axis).bit ||| axis.bit) ∨
        (leafAt c corner0).corner (Q axis).bit ≠
          (leafAt c corner0).corner ((Q axis).bit ||| axis.bit) ∨
        (leafAt d corner0).corner 0 ≠ (leafAt d corner0).corner axis.bit) :=
    ⟨rfl, rfl, rfl, rfl, Or.inr (Or.inr (Or.inr hd))⟩
  cases n <;> rw [edgeQuads] <;> simp only [if_pos hc, if_pos hd0]

/-- In a branch of eight `corner0` leaves every child is passed to a quad. -/
theorem branch_corner0_refs (p : Nat) (a : Fin 8 → Nat) (i : Fin 8) :
    leafAt (a i) corner0 ∈
      refsOf (cellQuads (.BRANCH p (fun j => leafAt (a j) corner0))) := by
  rw [cellQuads]
  simp only [Octree.child, edgeQuads_corner0, refsOf, List.flatMap_append, List.mem_append,
    List.flatMap_cons, List.flatMap_nil, List.append_nil, QuadCall.args, Axis.bit]
  have h3 : ((1 : Fin 8) ||| 2) = 3 := by decide
  have h5 : ((1 : Fin 8) ||| 4) = 5 := by decide
  have h6 : ((2 : Fin 8) ||| 4) = 6 := by decide
  have h7 : ((3 : Fin 8) ||| 4) = 7 := by decide
  simp only [h3, h5, h6, h7]
  fin_cases i
  · exact Or.inl (Or.inl (Or.inl (Or.inl (Or.inl (Or.inr (by simp))))))
  · exact Or.inl (Or.inl (Or.inl (Or.inl (Or.inl (Or.inr (by simp))))))
  · exact Or.inl (Or.inl (Or.inl (Or.inl (Or.inl (Or.inr (by simp))))))
  · exact Or.inl (Or.inl (Or.inl (Or.inl (Or.inl (Or.inr (by simp))))))
  · exact Or.inl (Or.inl (Or.inl (Or.inl (Or.inr (by simp)))))
  · exact Or.inl (Or.inl (Or.inl (Or.inl (Or.inr (by simp)))))
  · exact Or.inl (Or.inl (Or.inl (Or.inl (Or.inr (by simp)))))
  · exact Or.inl (Or.inl (Or.inl (Or.inl (Or.inr (by simp)))))

theorem refsOf_cellQuads_child (p : Nat) (ch : Fin 8 → Octree) (i : Fin 8) :
    refsOf (cellQuads (ch i)) ⊆ refsOf (cellQuads (.BRANCH p ch)) := by
  intro x hx
  simp only [refsOf, List.mem_flatMap] at hx ⊢
  obtain ⟨q, hq, hxq⟩ := hx
  refine ⟨q, ?_, hxq⟩
  rw [cellQuads]
  simp only [List.mem_append, List.mem_flatMap]
  iterate 18 apply Or.inl
  exact ⟨i, List.mem_finRange i, hq⟩

theorem deep_succ (k p : Nat) :
    deep (k + 1) p = .BRANCH p (fun i => deep k (8 * p + i.val)) := rfl

theorem mem_leaves_branch (l : Octree) (p : Nat) (ch : Fin 8 → Octree) :
    l ∈ (Octree.BRANCH p ch).leaves ↔ ∃ i, l ∈ (ch i).leaves := by
  simp only [Octree.leaves, List.mem_flatMap]
  exact ⟨fun ⟨i, _, h⟩ => ⟨i, h⟩, fun ⟨i, h⟩ => ⟨i, List.mem_finRange i, h⟩⟩

theorem deep_refs : ∀ (k p : Nat), ∀ l ∈ (deep (k + 1) p).leaves,
    l ∈ refsOf (cellQuads (deep (k + 1) p)) := by
  intro k
  induction k with
  | zero =>
    intro p l hl
    simp only [deep, Octree.leaves, List.mem_flatMap, leafAt, List.mem_singleton] at hl
    obtain ⟨i, _, rfl⟩ := hl
    exact branch_corner0_refs p (fun j => 8 * p + j.val) i
  | succ k ih =>
    intro p l hl
    rw [deep_succ] at hl ⊢
    rw [mem_leaves_branch] at hl
    obtain ⟨i, hi⟩ := hl
    exact refsOf_cellQuads_child p _ i (ih _ l hi)

theorem deep_leaves_form : ∀ (k p : Nat), ∀ l ∈ (deep k p).leaves,
    l = leafAt l.addr corner0 ∧ l.addr / 8 ^ k = p := by
  intro k
  induction k with
  | zero =>
    intro p l hl
    simp only [deep, leafAt, Octree.leaves, List.mem_singleton] at hl
    subst hl
    simp [leafAt, Octree.addr]
  | succ k ih =>
    intro p l hl
    rw [deep_succ, mem_leaves_branch] at hl
    obtain ⟨i, hi⟩ := hl
    obtain ⟨h1, h2⟩ := ih _ l hi
    refine ⟨h1, ?_⟩
    rw [pow_succ, ← Nat.div_div_eq_div_mul, h2]
    omega

theorem length_flatMap_const {α β : Type} (f : α → List β) (c : Nat) :
    ∀ l : List α, (∀ x ∈ l, (f x).length = c) → (l.flatMap f).length = l.length * c := by
  intro l
  induction l with
  | nil => intro _; simp
  | cons x xs ih =>
    intro h
    rw [List.flatMap_cons, List.length_append, h x (List.mem_cons_self _ _),
      ih (fun y hy => h y (List.mem_cons_of_mem _ hy)), List.length_cons]
    ring

theorem deep_leaves_length : ∀ (k p : Nat), (deep k p).leaves.length = 8 ^ k := by
  intro k
  induction k with
  | zero => intro p; rfl
  | succ k ih =>
    intro p
    rw [deep_succ]
    simp only [Octree.leaves]
    rw [length_flatMap_const _ (8 ^ k) _ (fun i _ => ih _)]
    simp [pow_succ, Nat.mul_comm]

theorem deep_wellAddressed : ∀ (k p : Nat), (deep k p).WellAddressed := by
  intro k
  induction k with
  | zero => intro p; simp [Octree.WellAddressed, deep, leafAt, Octree.leaves]
  | succ k ih =>
    intro p
    rw [deep_succ]
    simp only [Octree.WellAddressed, Octree.leaves, List.map_flatMap]
    rw [List.nodup_flatMap]
    refine ⟨fun i _ => ih _, ?_⟩
    apply List.Nodup.pairwise_of_forall_ne (List.nodup_finRange 8)
    intro i _ j _ hij
    simp only [Function.onFun]
    intro x hxi hxj
    simp only [List.mem_map] at hxi hxj
    obtain ⟨li, hli, rfl⟩ := hxi
    obtain ⟨lj, hlj, hje⟩ := hxj
    have h1 := (deep_leaves_form k _ li hli).2
    have h2 := (deep_leaves_form k _ lj hlj).2
    rw [hje, h1] at h2
    apply hij
    apply Fin.ext
    omega

theorem firstRefs_subset : ∀ (l : List Octree), ∀ x ∈ firstRefs l, x ∈ l := by
  intro l
  induction l with
  | nil => intro x hx; simp [firstRefs] at hx
  | cons y ys ih =>
    intro x hx
    simp only [firstRefs, List.mem_cons, List.mem_filter] at hx
    rcases hx with rfl | ⟨hx, _⟩
    · exact List.mem_cons_self _ _
    · exact List.mem_cons_of_mem _ (ih x hx)

theorem addr_mem_firstRefs : ∀ (l : List Octree), ∀ x ∈ l,
    ∃ y ∈ firstRefs l, y.addr = x.addr := by
  intro l
  induction l with
  | nil => intro x hx; simp at hx
  | cons z zs ih =>
    intro x hx
    simp only [List.mem_cons] at hx
    rcases hx with rfl | hx
    · exact ⟨x, by simp [firstRefs], rfl⟩
    · obtain ⟨y, hy, hya⟩ := ih x hx
      by_cases hz : y.addr = z.addr
      · exact ⟨z, by simp [firstRefs], by rw [← hz, hya]⟩
      · exact ⟨y, by simp [firstRefs, hy, hz], hya⟩

theorem mem_firstRefs_of_faithful (l : List Octree) (hA : AddrFaithful l) :
    ∀ x ∈ l, x ∈ firstRefs l := by
  intro x hx
  obtain ⟨y, hy, hya⟩ := addr_mem_firstRefs l x hx
  have := hA y (firstRefs_subset l y hy) x hx hya
  rwa [this] at hy

theorem idx_lt_unsigned {w : Worker} {hr : List Octree} (h : Tracks w hr) (k : Nat) :
    w.idx k < UNSIGNED_SIZE := by
  unfold Worker.idx
  cases hl : w.verts.lookup k with
  | none => simp [UNSIGNED_SIZE]
  | some i =>
    have := lookup_mem hl
    rw [h.1] at this
    exact (mapOf_values_lt hr _ this).2

theorem run_verts_length (qs : List QuadCall) :
    (runQuads qs Worker.empty).mesh.verts.length = (firstRefs (refsOf qs)).length := by
  rw [(tracks_run_empty qs).length_eq, List.length_reverse]

/-- The mesh of the complete tree `deep k p` (`k ≥ 1`) has a vertex for each of the `8 ^ k`
leaves. -/
theorem deep_verts_length (k p : Nat) :
    8 ^ (k + 1) ≤ (cell (deep (k + 1) p) Worker.empty).mesh.verts.length := by
  rw [cell_eq_runQuads, run_verts_length, ← deep_leaves_length (k + 1) p]
  have hN := deep_wellAddressed (k + 1) p
  have hsub : (deep (k + 1) p).leaves.map Octree.addr ⊆
      (firstRefs (refsOf (cellQuads (deep (k + 1) p)))).map Octree.addr := by
    intro a ha
    simp only [List.mem_map] at ha ⊢
    obtain ⟨l, hl, rfl⟩ := ha
    exact addr_mem_firstRefs _ l (deep_refs k p l hl)
  have := (List.Nodup.subperm hN hsub).length_le
  simpa using this

/-- Every triangle index written by a run from the empty worker is an `unsigned`. -/
theorem run_tris_lt_unsigned (qs : List QuadCall) :
    ∀ t ∈ (runQuads qs Worker.empty).mesh.tris,
      t.1 < UNSIGNED_SIZE ∧ t.2.1 < UNSIGNED_SIZE ∧ t.2.2 < UNSIGNED_SIZE := by
  intro t ht
  rw [runQuads_tris] at ht
  have hT := tracks_run_empty qs
  have he : Worker.empty.mesh.tris = [] := rfl
  rw [he, List.nil_append, List.mem_flatMap] at ht
  obtain ⟨q, _, hq⟩ := ht
  simp only [quadTris, List.mem_cons, List.mem_singleton, List.not_mem_nil, or_false] at hq
  rcases hq with rfl | rfl
  · exact ⟨idx_lt_unsigned hT _, idx_lt_unsigned hT _, idx_lt_unsigned hT _⟩
  · exact ⟨idx_lt_unsigned hT _, idx_lt_unsigned hT _, idx_lt_unsigned hT _⟩

/-- A mesh with more than `2 ^ 32` vertices has an unreferenced vertex. -/
theorem not_covered_of_large (root : Octree)
    (hlen : UNSIGNED_SIZE < (cell root Worker.empty).mesh.verts.length) :
    (∀ t ∈ (cell root Worker.empty).mesh.tris, UNSIGNED_SIZE ≠ t.1 ∧ UNSIGNED_SIZE ≠ t.2.1 ∧
      UNSIGNED_SIZE ≠ t.2.2) ∧
    ¬ Covered (cell root Worker.empty) := by
  have htris : ∀ t ∈ (cell root Worker.empty).mesh.tris,
      UNSIGNED_SIZE ≠ t.1 ∧ UNSIGNED_SIZE ≠ t.2.1 ∧ UNSIGNED_SIZE ≠ t.2.2 := by
    intro t ht
    rw [cell_eq_runQuads] at ht
    have := run_tris_lt_unsigned _ t ht
    exact ⟨this.1.ne', this.2.1.ne', this.2.2.ne'⟩
  refine ⟨htris, ?_⟩
  intro hC
  obtain ⟨t, ht, h⟩ := hC UNSIGNED_SIZE hlen
  have := htris t ht
  rcases h with h | h | h
  · exact this.1 h
  · exact this.2.1 h
  · exact this.2.2 h

theorem deep_eleven_large :
    UNSIGNED_SIZE < (cell (deep 11 1) Worker.empty).mesh.verts.length := by
  have h := deep_verts_length 10 1
  have e : UNSIGNED_SIZE < 8 ^ (10 + 1) := by unfold UNSIGNED_SIZE; norm_num
  exact lt_of_lt_of_le e h

/-- C5, counterexample. The complete octree of depth 11 with the corner signs `corner0`
(distinct addresses) has `8 ^ 11 = 2 ^ 33` leaves, all referenced: the mesh has more than
`2 ^ 32` vertices, and no triangle holds the index `2 ^ 32`, every index being an
`unsigned`. -/
theorem no_vertex_unreferenced_counterexample :
    (deep 11 1).WellAddressed ∧
    UNSIGNED_SIZE < (cell (deep 11 1) Worker.empty).mesh.verts.length ∧
    (∀ t ∈ (cell (deep 11 1) Worker.empty).mesh.tris,
      UNSIGNED_SIZE ≠ t.1 ∧ UNSIGNED_SIZE ≠ t.2.1 ∧ UNSIGNED_SIZE ≠ t.2.2) ∧
    ¬ Covered (cell (deep 11 1) Worker.empty) :=
  ⟨deep_wellAddressed 11 1, deep_eleven_large,
    (not_covered_of_large (deep 11 1) deep_eleven_large).1,
    (not_covered_of_large (deep 11 1) deep_eleven_large).2⟩

theorem refsOf_append (l1 l2 : List QuadCall) : refsOf (l1 ++ l2) = refsOf l1 ++ refsOf l2 := by
  simp [refsOf, List.flatMap_append]

/-- A reachable state is the state after a run of quad calls from the empty worker. -/
theorem Reach.run {w : Worker} {refs : List Octree} (h : Reach w refs) :
    ∃ qs, w = runQuads qs Worker.empty ∧ refs = refsOf qs := by
  induction h with
  | empty => exact ⟨[], rfl, rfl⟩
  | quad a b c d _ _ _ _ _ ih =>
    obtain ⟨qs, rfl, rfl⟩ := ih
    refine ⟨qs ++ [⟨a, b, c, d⟩], ?_, ?_⟩
    · rw [runQuads_append]; rfl
    · rw [refsOf_append]; rfl
  | edge a b c d axis _ ih =>
    obtain ⟨qs, rfl, rfl⟩ := ih
    refine ⟨qs ++ edgeQuads (a.height + b.height + c.height + d.height) a b c d axis, ?_, ?_⟩
    · rw [runQuads_append, edge_eq_runQuads _ a b c d axis _ (le_refl _)]
    · rw [refsOf_append]
  | face a b axis _ ih =>
    obtain ⟨qs, rfl, rfl⟩ := ih
    refine ⟨qs ++ faceQuads (a.height + b.height) a b axis, ?_, ?_⟩
    · rw [runQuads_append, face_eq_runQuads _ a b axis _ (le_refl _)]
    · rw [refsOf_append]
  | cell c _ ih =>
    obtain ⟨qs, rfl, rfl⟩ := ih
    refine ⟨qs ++ cellQuads c, ?_, ?_⟩
    · rw [runQuads_append, cell_eq_runQuads]
    · rw [refsOf_append]

theorem Reach.tracks {w : Worker} {refs : List Octree} (h : Reach w refs) :
    Tracks w (firstRefs refs).reverse := by
  obtain ⟨qs, rfl, rfl⟩ := h.run
  exact tracks_run_empty qs

theorem index_verts_append (o : Octree) (w : Worker) :
    ∃ vs, (index o w).2.mesh.verts = w.mesh.verts ++ vs := by
  cases h : w.verts.lookup o.addr with
  | none => rw [index_of_none o w h]; exact ⟨[o.getVertex], rfl⟩
  | some i => rw [index_of_some o w i h]; exact ⟨[], by simp⟩

theorem quad_verts_append (a b c d : Octree) (w : Worker) :
    ∃ vs, (quad a b c d w).mesh.verts = w.mesh.verts ++ vs := by
  obtain ⟨v1, h1⟩ := index_verts_append a w
  obtain ⟨v2, h2⟩ := index_verts_append b (index a w).2
  obtain ⟨v3, h3⟩ := index_verts_append c (index b (index a w).2).2
  obtain ⟨v4, h4⟩ := index_verts_append d (index c (index b (index a w).2).2).2
  refine ⟨v1 ++ v2 ++ v3 ++ v4, ?_⟩
  rw [quad_eq]
  simp only [h4, h3, h2, h1, List.append_assoc]

/-- What a history of first references says about the map and the vertices, as long as
the vertex count stays within the range of `unsigned`. -/
theorem tracks_get {w : Worker} {F : List Octree} (h : Tracks w F.reverse)
    (hU : w.mesh.verts.length ≤ UNSIGNED_SIZE) (j : Nat) (hj : j < F.length) :
    w.verts.lookup (F.get ⟨j, hj⟩).addr = some j ∧ j < w.mesh.verts.length ∧
    w.mesh.verts[j]? = some (F.get ⟨j, hj⟩).getVertex := by
  have hlen : w.mesh.verts.length = F.length := by rw [h.length_eq, List.length_reverse]
  have hN : (F.map Octree.addr).Nodup := by
    have := h.2.2
    rw [List.map_reverse] at this
    exact List.nodup_reverse.mp this
  refine ⟨?_, by omega, ?_⟩
  · rw [h.1, lookup_mapOf_reverse F hN j hj, Nat.mod_eq_of_lt (by omega)]
  · rw [h.2.1, List.map_reverse, List.reverse_reverse]
    simp [List.getElem?_map, List.getElem?_eq_getElem hj]

theorem lookup_key_mem {w : Worker} {hr : List Octree} (h : Tracks w hr) {k i : Nat}
    (hl : w.verts.lookup k = some i) : ∃ o ∈ hr, o.addr = k := by
  have hk : k ∈ hr.map Octree.addr := by
    by_contra hnot
    have := (lookup_mapOf_none k hr).mpr hnot
    rw [← h.1, hl] at this
    exact Option.noConfusion this
  simpa using hk

/-- The content of a reachable state with at most `2 ^ 32` vertices, one address standing
for one leaf. -/
theorem reach_facts (w : Worker) (refs : List Octree)
    (hR : Reach w refs) (hA : AddrFaithful refs)
    (hU : w.mesh.verts.length ≤ UNSIGNED_SIZE) :
    (∀ l ∈ refs, ∃ i, w.verts.lookup l.addr = some i ∧ i < w.mesh.verts.length ∧
      w.mesh.verts[i]? = some l.getVertex) ∧
    (∀ l₁ ∈ refs, ∀ l₂ ∈ refs, w.verts.lookup l₁.addr = w.verts.lookup l₂.addr → l₁ = l₂) ∧
    (∀ i < w.mesh.verts.length, ∃ l ∈ refs, w.verts.lookup l.addr = some i) ∧
    (∀ k i, w.verts.lookup k = some i → ∃ l ∈ refs, l.addr = k) ∧
    (w.verts.map Prod.fst).Nodup ∧
    w.verts.length = w.mesh.verts.length ∧
    (∀ (j : Nat) (hj : j < (firstRefs refs).length),
      w.verts.lookup ((firstRefs refs).get ⟨j, hj⟩).addr = some j) := by
  have hT := hR.tracks
  have hlen : w.mesh.verts.length = (firstRefs refs).length := by
    rw [hT.length_eq, List.length_reverse]
  have hget := fun j hj => tracks_get hT hU j hj
  have hpos : ∀ l ∈ refs, ∃ (j : Nat) (hj : j < (firstRefs refs).length),
      (firstRefs refs).get ⟨j, hj⟩ = l := by
    intro l hl
    have hm := mem_firstRefs_of_faithful refs hA l hl
    obtain ⟨n, hn⟩ := List.get_of_mem hm
    exact ⟨n.1, n.2, hn⟩
  refine ⟨?_, ?_, ?_, ?_, ?_, ?_, ?_⟩
  · intro l hl
    obtain ⟨j, hj, rfl⟩ := hpos l hl
    exact ⟨j, hget j hj⟩
  · intro l₁ h₁ l₂ h₂ he
    obtain ⟨j₁, hj₁, rfl⟩ := hpos l₁ h₁
    obtain ⟨j₂, hj₂, rfl⟩ := hpos l₂ h₂
    rw [(hget j₁ hj₁).1, (hget j₂ hj₂).1] at he
    have : j₁ = j₂ := Option.some.inj he
    subst this
    rfl
  · intro i hi
    have hi' : i < (firstRefs refs).length := by omega
    exact ⟨_, firstRefs_subset refs _ (List.get_mem _ _ _), (hget i hi').1⟩
  · intro k i hl
    obtain ⟨o, ho, hk⟩ := lookup_key_mem hT hl
    exact ⟨o, firstRefs_subset refs o (List.mem_reverse.mp ho), hk⟩
  · rw [hT.1, mapOf_keys]
    exact hT.2.2
  · rw [hT.verts_length_eq, hT.length_eq]
  · intro j hj
    exact (hget j hj).1

/-- C4 (amended). First reference materialises the vertex, later references reuse it, as
long as the mesh has at most `2 ^ 32` vertices. In every state reachable from the empty
worker by `cell`/`face`/`edge`/`quad` in which `mesh.verts` has at most `2 ^ 32` elements
(one address standing for one leaf): every leaf passed to `quad` so far is mapped to an
index below `|mesh.verts|` at which its vertex sits; the map is one-to-one on these
leaves, onto `0 .. |mesh.verts| - 1`, has no other key and no key twice; the leaf first
referenced in `j`-th place holds the index `j`; and a call of `quad` changes neither the
index of a mapped leaf nor an existing element of `mesh.verts` or `mesh.tris`. -/
theorem first_reference_materialises (w : Worker) (refs : List Octree)
    (hR : Reach w refs) (hA : AddrFaithful refs)
    (hU : w.mesh.verts.length ≤ UNSIGNED_SIZE) :
    (∀ l ∈ refs, ∃ i, w.verts.lookup l.addr = some i ∧ i < w.mesh.verts.length ∧
      w.mesh.verts[i]? = some l.getVertex) ∧
    (∀ l₁ ∈ refs, ∀ l₂ ∈ refs, w.verts.lookup l₁.addr = w.verts.lookup l₂.addr → l₁ = l₂) ∧
    (∀ i < w.mesh.verts.length, ∃ l ∈ refs, w.verts.lookup l.addr = some i) ∧
    (∀ k i, w.verts.lookup k = some i → ∃ l ∈ refs, l.addr = k) ∧
    (w.verts.map Prod.fst).Nodup ∧
    w.verts.length = w.mesh.verts.length ∧
    (∀ (j : Nat) (hj : j < (firstRefs refs).length),
      w.verts.lookup ((firstRefs refs).get ⟨j, hj⟩).addr = some j) ∧
    (∀ a b c d : Octree,
      (∀ k i, w.verts.lookup k = some i → (quad a b c d w).verts.lookup k = some i) ∧
      (∃ vs, (quad a b c d w).mesh.verts = w.mesh.verts ++ vs) ∧
      (∃ ts, (quad a b c d w).mesh.tris = w.mesh.tris ++ ts)) := by
  obtain ⟨h1, h2, h3, h4, h5, h6, h7⟩ := reach_facts w refs hR hA hU
  refine ⟨h1, h2, h3, h4, h5, h6, h7, ?_⟩
  intro a b c d
  exact ⟨fun k i h => quad_mono a b c d w k i h, quad_verts_append a b c d w,
    ⟨_, quad_tris a b c d w⟩⟩

theorem reach_cell (root : Octree) :
    Reach (cell root Worker.empty) (refsOf (cellQuads root)) := by
  have h := Reach.cell root Reach.empty
  rwa [List.nil_append] at h

theorem deep_refs_faithful (k p : Nat) : AddrFaithful (refsOf (cellQuads (deep k p))) := by
  intro x hx y hy hxy
  simp only [refsOf, List.mem_flatMap] at hx hy
  obtain ⟨q, hq, hxq⟩ := hx
  obtain ⟨q', hq', hyq⟩ := hy
  have h1 := (deep_leaves_form k p x ((cellQuads_args _ q hq).1 x hxq)).1
  have h2 := (deep_leaves_form k p y ((cellQuads_args _ q' hq').1 y hyq)).1
  rw [h1, h2, hxy]

/-- C4, counterexample. The state after `cell` on the complete octree of depth 11 with
the corner signs `corner0` is reachable, one address stands for one leaf, and the map is
not onto `0 .. |mesh.verts| - 1`: the mesh has more than `2 ^ 32` vertices and no leaf
holds the index `2 ^ 32`. -/
theorem first_reference_counterexample :
    Reach (cell (deep 11 1) Worker.empty) (refsOf (cellQuads (deep 11 1))) ∧
    AddrFaithful (refsOf (cellQuads (deep 11 1))) ∧
    ¬ (∀ i < (cell (deep 11 1) Worker.empty).mesh.verts.length,
        ∃ l ∈ refsOf (cellQuads (deep 11 1)),
          (cell (deep 11 1) Worker.empty).verts.lookup l.addr = some i) := by
  have hR : Reach (cell (deep 11 1) Worker.empty) (refsOf (cellQuads (deep 11 1))) :=
    reach_cell (deep 11 1)
  refine ⟨hR, deep_refs_faithful 11 1, ?_⟩
  · intro h
    obtain ⟨l, _, hl⟩ := h UNSIGNED_SIZE deep_eleven_large
    have hm := lookup_mem hl
    rw [hR.tracks.1] at hm
    exact absurd (mapOf_values_lt _ _ hm).2 (lt_irrefl _)

theorem wellAddressed_faithful (root : Octree) (hW : root.WellAddressed) :
    ∀ x ∈ root.leaves, ∀ y ∈ root.leaves, x.addr = y.addr → x = y :=
  fun _ hx _ hy hxy => List.inj_on_of_nodup_map hW hx hy hxy

theorem refs_subset_leaves (root : Octree) : ∀ x ∈ refsOf (cellQuads root), x ∈ root.leaves := by
  intro x hx
  simp only [refsOf, List.mem_flatMap] at hx
  obtain ⟨q, hq, hxq⟩ := hx
  exact (cellQuads_args root q hq).1 x hxq

theorem refs_faithful (root : Octree) (hW : root.WellAddressed) :
    AddrFaithful (refsOf (cellQuads root)) :=
  fun x hx y hy hxy => wellAddressed_faithful root hW x (refs_subset_leaves root x hx)
    y (refs_subset_leaves root y hy) hxy

theorem mem_refsOf {qs : List QuadCall} {q : QuadCall} {x : Octree}
    (hq : q ∈ qs) (hx : x ∈ q.args) : x ∈ refsOf qs := by
  simp only [refsOf, List.mem_flatMap]
  exact ⟨q, hq, hx⟩

/-- C2 (amended). A triangle has two equal indices only where `quad` was passed the same
leaf twice. For every octree with distinct leaf addresses whose mesh has at most `2 ^ 32`
vertices: the triangles of `cell root` run from the empty worker are, quad call by quad
call, `(ia, ib, ic), (ic, ib, id)`, and for the leaves `x`, `y` passed to one quad call
the indices `ix`, `iy` are equal exactly when `x` and `y` are the same leaf (as leaf 0 of
the T-junction tree is, passed twice by `face`). -/
theorem equal_indices_iff_same_leaf (root : Octree) (hW : root.WellAddressed)
    (hU : (Render root).verts.length ≤ UNSIGNED_SIZE) :
    cell root Worker.empty = runQuads (cellQuads root) Worker.empty ∧
    (Render root).tris = (cellQuads root).flatMap (quadTris (cell root Worker.empty)) ∧
    (∀ q ∈ cellQuads root, ∀ x ∈ q.args, ∀ y ∈ q.args,
      ((cell root Worker.empty).idx x.addr = (cell root Worker.empty).idx y.addr ↔ x = y)) := by
  have hrun := cell_eq_runQuads root Worker.empty
  obtain ⟨h1, h2, -⟩ := reach_facts _ _ (reach_cell root) (refs_faithful root hW) hU
  refine ⟨hrun, ?_, ?_⟩
  · unfold Render
    rw [hrun, runQuads_tris]
    rfl
  · intro q hq x hx y hy
    constructor
    · intro he
      have hxr := mem_refsOf hq hx
      have hyr := mem_refsOf hq hy
      obtain ⟨i, hi, -⟩ := h1 x hxr
      obtain ⟨j, hj, -⟩ := h1 y hyr
      rw [idx_of_lookup hi, idx_of_lookup hj] at he
      exact h2 x hxr y hyr (by rw [hi, hj, he])
    · intro he; rw [he]

/-- C3 (amended). Leaf uniqueness: for every octree with distinct leaf addresses whose
mesh has at most `2 ^ 32` vertices, after `cell root` run from the empty worker each leaf
of the tree, surface-crossing or not, has at most one entry in the map `verts`; it has
one exactly when it was passed to a quad call, and then its vertex sits at that index
of `mesh.verts` and no other leaf holds that index. -/
theorem leaf_uniqueness (root : Octree) (hW : root.WellAddressed)
    (hU : (Render root).verts.length ≤ UNSIGNED_SIZE) (l : Octree) (hl : l ∈ root.leaves) :
    ((cell root Worker.empty).verts.map Prod.fst).count l.addr ≤ 1 ∧
    ((∃ i, (cell root Worker.empty).verts.lookup l.addr = some i) ↔
      ∃ q ∈ cellQuads root, l ∈ q.args) ∧
    (∀ i, (cell root Worker.empty).verts.lookup l.addr = some i →
      i < (cell root Worker.empty).mesh.verts.length ∧
      (cell root Worker.empty).mesh.verts[i]? = some l.getVertex ∧
      ∀ l' ∈ root.leaves, (cell root Worker.empty).verts.lookup l'.addr = some i → l' = l) := by
  obtain ⟨h1, h2, -, h4, h5, -⟩ :=
    reach_facts _ _ (reach_cell root) (refs_faithful root hW) hU
  have hiff : (∃ i, (cell root Worker.empty).verts.lookup l.addr = some i) ↔
      ∃ q ∈ cellQuads root, l ∈ q.args := by
    constructor
    · rintro ⟨i, hi⟩
      obtain ⟨l', hl', ha⟩ := h4 _ _ hi
      have := wellAddressed_faithful root hW l' (refs_subset_leaves root l' hl') l hl ha
      subst this
      simpa [refsOf] using hl'
    · rintro ⟨q, hq, hx⟩
      obtain ⟨i, hi, -⟩ := h1 l (mem_refsOf hq hx)
      exact ⟨i, hi⟩
  refine ⟨List.nodup_iff_count_le_one.mp h5 _, hiff, ?_⟩
  intro i hi
  obtain ⟨q, hq, hx⟩ := hiff.mp ⟨i, hi⟩
  have hlr := mem_refsOf hq hx
  obtain ⟨j, hj, hjlt, hjv⟩ := h1 l hlr
  have : j = i := Option.some.inj (hj.symm.trans hi)
  subst this
  refine ⟨hjlt, hjv, ?_⟩
  intro l' hl' hi'
  obtain ⟨m, hm, ha⟩ := h4 _ _ hi'
  have := wellAddressed_faithful root hW m (refs_subset_leaves root m hm) l' hl' ha
  subst this
  exact h2 m hm l hlr (by rw [hi', hj])

/-- C9 (amended). The size of the vertex-uniqueness map: for every octree, after
`cell root` run from the empty worker the number of entries of `verts` equals
`|mesh.verts|` and is at most the number of leaves of the tree; it is at most the number
of surface-crossing leaves when every leaf passed to a quad call is surface-crossing. -/
theorem map_size_bound (root : Octree) :
    (cell root Worker.empty).verts.length = (cell root Worker.empty).mesh.verts.length ∧
    (cell root Worker.empty).verts.length ≤ root.leaves.length ∧
    ((∀ q ∈ cellQuads root, ∀ x ∈ q.args, x.crossing = true) →
      (cell root Worker.empty).verts.length ≤ (root.leaves.filter Octree.crossing).length) := by
  have hT := (reach_cell root).tracks
  have hkeys : (cell root Worker.empty).verts.length =
      ((firstRefs (refsOf (cellQuads root))).map Octree.addr).length := by
    rw [hT.verts_length_eq, List.length_reverse, List.length_map]
  have hN : ((firstRefs (refsOf (cellQuads root))).map Octree.addr).Nodup := by
    have := hT.2.2
    rw [List.map_reverse] at this
    exact List.nodup_reverse.mp this
  refine ⟨by rw [hT.verts_length_eq, hT.length_eq], ?_, ?_⟩
  · rw [hkeys]
    have hsub : (firstRefs (refsOf (cellQuads root))).map Octree.addr ⊆
        root.leaves.map Octree.addr := by
      intro a ha
      simp only [List.mem_map] at ha ⊢
      obtain ⟨x, hx, rfl⟩ := ha
      exact ⟨x, refs_subset_leaves root x (firstRefs_subset _ x hx), rfl⟩
    simpa using (List.Nodup.subperm hN hsub).length_le
  · intro hall
    rw [hkeys]
    have hsub : (firstRefs (refsOf (cellQuads root))).map Octree.addr ⊆
        (root.leaves.filter Octree.crossing).map Octree.addr := by
      intro a ha
      simp only [List.mem_map] at ha ⊢
      obtain ⟨x, hx, rfl⟩ := ha
      have hxr := firstRefs_subset _ x hx
      have hxl := refs_subset_leaves root x hxr
      simp only [refsOf, List.mem_flatMap] at hxr
      obtain ⟨q, hq, hxq⟩ := hxr
      exact ⟨x, List.mem_filter.mpr ⟨hxl, hall q hq x hxq⟩, rfl⟩
    simpa using (List.Nodup.subperm hN hsub).length_le

theorem tJunction_small : (Render tJunction).verts.length ≤ UNSIGNED_SIZE := by
  unfold Render
  rw [cell_eq_runQuads]
  decide

theorem tJunction_wellAddressed : tJunction.WellAddressed := by decide

theorem tJunction_leaf0 : leafAt 0 yLow ∈ tJunction.leaves :=
  (mem_leaves_branch _ _ _).mpr ⟨0, List.mem_singleton.mpr rfl⟩

/-- C1, witness: the mesh of the T-junction tree is closed. -/
theorem vertex_indexing_closure_witness : TrisClosed (cell tJunction Worker.empty) :=
  (vertex_indexing_closure.1 tJunction).1

/-- C2, witness: the amended statement at the T-junction tree. -/
theorem equal_indices_iff_same_leaf_witness :
    tJunction.WellAddressed ∧ (Render tJunction).verts.length ≤ UNSIGNED_SIZE ∧
    (Render tJunction).tris =
      (cellQuads tJunction).flatMap (quadTris (cell tJunction Worker.empty)) :=
  ⟨tJunction_wellAddressed, tJunction_small,
    (equal_indices_iff_same_leaf tJunction tJunction_wellAddressed tJunction_small).2.1⟩

/-- C3, witness: leaf 0 of the T-junction tree has at most one entry. -/
theorem leaf_uniqueness_witness :
    tJunction.WellAddressed ∧ (Render tJunction).verts.length ≤ UNSIGNED_SIZE ∧
    leafAt 0 yLow ∈ tJunction.leaves ∧
    ((cell tJunction Worker.empty).verts.map Prod.fst).count (leafAt 0 yLow).addr ≤ 1 :=
  ⟨tJunction_wellAddressed, tJunction_small, tJunction_leaf0,
    (leaf_uniqueness tJunction tJunction_wellAddressed tJunction_small (leafAt 0 yLow)
      tJunction_leaf0).1⟩

/-- C4, witness: the state after `cell` on the T-junction tree. -/
theorem first_reference_materialises_witness :
    Reach (cell tJunction Worker.empty) (refsOf (cellQuads tJunction)) ∧
    AddrFaithful (refsOf (cellQuads tJunction)) ∧
    (cell tJunction Worker.empty).mesh.verts.length ≤ UNSIGNED_SIZE ∧
    (cell tJunction Worker.empty).verts.length =
      (cell tJunction Worker.empty).mesh.verts.length :=
  ⟨reach_cell tJunction, refs_faithful tJunction tJunction_wellAddressed, tJunction_small,
    (first_reference_materialises _ _ (reach_cell tJunction)
      (refs_faithful tJunction tJunction_wellAddressed) tJunction_small).2.2.2.2.2.1⟩

/-- C5, witness: every vertex of the mesh of the T-junction tree is referenced. -/
theorem no_vertex_unreferenced_witness :
    (Render tJunction).verts.length ≤ UNSIGNED_SIZE ∧ Covered (cell tJunction Worker.empty) :=
  ⟨tJunction_small, (no_vertex_unreferenced tJunction tJunction_small).1⟩

/-- C6, witness: four leaves with the corner signs `yLow` around an edge along Y. -/
theorem edge_on_four_leaves_witness :
    (leafAt 0 yLow).getType = .LEAF ∧ (leafAt 1 yLow).getType = .LEAF ∧
    (leafAt 2 yLow).getType = .LEAF ∧ (leafAt 3 yLow).getType = .LEAF ∧
    (edge (leafAt 0 yLow) (leafAt 1 yLow) (leafAt 2 yLow) (leafAt 3 yLow) .AXIS_Y
      Worker.empty).mesh.tris = [(0, 1, 2), (2, 1, 3)] := by
  refine ⟨rfl, rfl, rfl, rfl, ?_⟩
  have h := (edge_on_four_leaves (leafAt 0 yLow) (leafAt 1 yLow) (leafAt 2 yLow)
    (leafAt 3 yLow) .AXIS_Y Worker.empty rfl rfl rfl rfl).2.1 (by decide) (by decide)
  rw [h, edge_of_leaves (leafAt 0 yLow) (leafAt 1 yLow) (leafAt 2 yLow) (leafAt 3 yLow)
    .AXIS_Y Worker.empty rfl rfl rfl rfl]
  decide

theorem uniformTree_uniform : ∀ l ∈ uniformTree.leaves, l.crossing = false := by decide

/-- C8, witness: a tree of uniform leaves at two depths. -/
theorem uniform_leaves_no_quad_witness :
    (∀ l ∈ uniformTree.leaves, l.crossing = false) ∧
    (cell uniformTree Worker.empty).mesh.tris = [] :=
  ⟨uniformTree_uniform, (uniform_leaves_no_quad uniformTree uniformTree_uniform).2.2.2.1⟩

/-- C9, witness: in the tree `deep 1 1` every leaf passed to a quad is surface-crossing,
and the map has at most as many entries as there are such leaves. -/
theorem map_size_bound_witness :
    (∀ q ∈ cellQuads (deep 1 1), ∀ x ∈ q.args, x.crossing = true) ∧
    (cell (deep 1 1) Worker.empty).verts.length ≤
      ((deep 1 1).leaves.filter Octree.crossing).length :=
  ⟨by decide, (map_size_bound (deep 1 1)).2.2 (by decide)⟩

/-- C10, witness: the root of the T-junction tree is a branch. -/
theorem cell_eq_cellGeneric_witness :
    tJunction.getType = .BRANCH ∧
    cell tJunction Worker.empty = cellGeneric tJunction Worker.empty :=
  ⟨rfl, cell_eq_cellGeneric tJunction Worker.empty rfl⟩

/-! ## The uniform grid: one quad per sign-changing edge -/

theorem grid_height (s : Pt → Bool) : ∀ (k : Nat) (P : Pt), (grid s k P).height = k := by
  intro k
  induction k with
  | zero => intro P; rfl
  | succ k ih =>
    intro P
    simp only [grid, Octree.height, ih]
    have : (Finset.univ : Finset (Fin 8)).sup (fun _ => k) = k := by
      apply le_antisymm
      · exact Finset.sup_le (fun _ _ => le_refl k)
      · exact Finset.le_sup (f := fun _ : Fin 8 => k) (Finset.mem_univ 0)
    omega

theorem grid_succ_type (s : Pt → Bool) (k : Nat) (P : Pt) :
    (grid s (k + 1) P).getType = .BRANCH := rfl

theorem grid_zero_type (s : Pt → Bool) (P : Pt) : (grid s 0 P).getType = .LEAF := rfl

theorem grid_child (s : Pt → Bool) (k : Nat) (P : Pt) (i : Fin 8) :
    (grid s (k + 1) P).child i = grid s k (shift P i (2 ^ k)) := rfl

theorem grid_corner (s : Pt → Bool) (P : Pt) (i : Fin 8) :
    (grid s 0 P).corner i = s (shift P i 1) := rfl

theorem grid_zero (s : Pt → Bool) (P : Pt) : grid s 0 P = gridLeaf s P := rfl

theorem gridLeaf_type (s : Pt → Bool) (P : Pt) : (gridLeaf s P).getType = .LEAF := rfl

theorem gridLeaf_corner (s : Pt → Bool) (P : Pt) (i : Fin 8) :
    (gridLeaf s P).corner i = s (shift P i 1) := rfl

theorem edgeQuads_grid (s : Pt → Bool) (axis : Axis) : ∀ (k n : Nat) (O Ob Oc Od : Pt),
    4 * k ≤ n →
    Ob = shift O (Q axis).bit (2 ^ k) → Oc = shift O (R axis).bit (2 ^ k) →
    Od = shift O ((Q axis).bit ||| (R axis).bit) (2 ^ k) →
    edgeQuads n (grid s k O) (grid s k Ob) (grid s k Oc) (grid s k Od) axis =
      (edgeKeys k axis O).flatMap (quadOpt s) := by
  intro k
  induction k with
  | zero =>
    intro n O Ob Oc Od _ hb hc hd
    subst hb hc hd
    have key : edgeQuads n (grid s 0 O) (grid s 0 (shift O (Q axis).bit (2 ^ 0)))
        (grid s 0 (shift O (R axis).bit (2 ^ 0)))
        (grid s 0 (shift O ((Q axis).bit ||| (R axis).bit) (2 ^ 0))) axis =
        edgeQuads 0 (grid s 0 O) (grid s 0 (shift O (Q axis).bit (2 ^ 0)))
        (grid s 0 (shift O (R axis).bit (2 ^ 0)))
        (grid s 0 (shift O ((Q axis).bit ||| (R axis).bit) (2 ^ 0))) axis := by
      cases n with
      | zero => rfl
      | succ m =>
        rw [edgeQuads, edgeQuads]
        simp only [grid_zero_type]
        simp
    rw [key, edgeQuads]
    cases axis <;>
      simp +decide [gridLeaf_type, gridLeaf_corner, edgeKeys, quadOpt, quadAt,
        GridEdge.changes, GridEdge.start, GridEdge.stop, Q, R, Axis.bit, shift, bitOf,
        grid_zero] <;>
      split_ifs <;> rfl
  | succ k ih =>
    intro n O Ob Oc Od hn hb hc hd
    obtain ⟨m, rfl⟩ : ∃ m, n = m + 1 := ⟨n - 1, by omega⟩
    have hm : 4 * k ≤ m := by omega
    rw [edgeQuads]
    simp only [grid_succ_type, grid_child, edgeKeys, List.flatMap_append]
    have e1 : shift Ob (R axis).bit (2 ^ k) =
        shift (shift O ((Q axis).bit ||| (R axis).bit) (2 ^ k)) (Q axis).bit (2 ^ k) := by
      subst hb
      cases axis <;> simp +decide [shift, bitOf, Q, R, Axis.bit, pow_succ] <;> omega
    have e2 : shift Oc (Q axis).bit (2 ^ k) =
        shift (shift O ((Q axis).bit ||| (R axis).bit) (2 ^ k)) (R axis).bit (2 ^ k) := by
      subst hc
      cases axis <;> simp +decide [shift, bitOf, Q, R, Axis.bit, pow_succ] <;> omega
    have e3 : shift Od 0 (2 ^ k) =
        shift (shift O ((Q axis).bit ||| (R axis).bit) (2 ^ k))
          ((Q axis).bit ||| (R axis).bit) (2 ^ k) := by
      subst hd
      cases axis <;> simp +decide [shift, bitOf, Q, R, Axis.bit, pow_succ] <;> omega
    have f1 : shift Ob ((R axis).bit ||| axis.bit) (2 ^ k) =
        shift (shift O ((Q axis).bit ||| (R axis).bit ||| axis.bit) (2 ^ k))
          (Q axis).bit (2 ^ k) := by
      subst hb
      cases axis <;> simp +decide [shift, bitOf, Q, R, Axis.bit, pow_succ] <;> omega
    have f2 : shift Oc ((Q axis).bit ||| axis.bit) (2 ^ k) =
        shift (shift O ((Q axis).bit ||| (R axis).bit ||| axis.bit) (2 ^ k))
          (R axis).bit (2 ^ k) := by
      subst hc
      cases axis <;> simp +decide [shift, bitOf, Q, R, Axis.bit, pow_succ] <;> omega
    have f3 : shift Od axis.bit (2 ^ k) =
        shift (shift O ((Q axis).bit ||| (R axis).bit ||| axis.bit) (2 ^ k))
          ((Q axis).bit ||| (R axis).bit) (2 ^ k) := by
      subst hd
      cases axis <;> simp +decide [shift, bitOf, Q, R, Axis.bit, pow_succ] <;> omega
    rw [← ih m _ _ _ _ hm e1 e2 e3, ← ih m _ _ _ _ hm f1 f2 f3]
    simp

theorem faceQuads_grid (s : Pt → Bool) (axis : Axis) : ∀ (k n : Nat) (O Ob : Pt),
    2 * k ≤ n → Ob = shift O axis.bit (2 ^ k) →
    faceQuads n (grid s k O) (grid s k Ob) axis = (faceKeys k axis O).flatMap (quadOpt s) := by
  intro k
  induction k with
  | zero =>
    intro n O Ob _ _
    cases n <;> rw [faceQuads] <;> simp [grid_zero_type, faceKeys]
  | succ k ih =>
    intro n O Ob hn hb
    obtain ⟨m, rfl⟩ : ∃ m, n = m + 1 := ⟨n - 1, by omega⟩
    have hm : 2 * k ≤ m := by omega
    have hm2 : 4 * k ≤ 2 * m := by omega
    rw [faceQuads]
    simp only [grid_succ_type, grid_child, faceKeys, List.flatMap_append]
    subst hb
    have a1 : shift (shift O axis.bit (2 ^ (k + 1))) 0 (2 ^ k) =
        shift (shift O axis.bit (2 ^ k)) axis.bit (2 ^ k) := by
      cases axis <;> simp +decide [shift, bitOf, Q, R, Axis.bit, pow_succ] <;> omega
    have a2 : shift (shift O axis.bit (2 ^ (k + 1))) (Q axis).bit (2 ^ k) =
        shift (shift O ((Q axis).bit ||| axis.bit) (2 ^ k)) axis.bit (2 ^ k) := by
      cases axis <;> simp +decide [shift, bitOf, Q, R, Axis.bit, pow_succ] <;> omega
    have a3 : shift (shift O axis.bit (2 ^ (k + 1))) (R axis).bit (2 ^ k) =
        shift (shift O ((R axis).bit ||| axis.bit) (2 ^ k)) axis.bit (2 ^ k) := by
      cases axis <;> simp +decide [shift, bitOf, Q, R, Axis.bit, pow_succ] <;> omega
    have a4 : shift (shift O axis.bit (2 ^ (k + 1))) ((Q axis).bit ||| (R axis).bit) (2 ^ k) =
        shift (shift O ((Q axis).bit ||| (R axis).bit ||| axis.bit) (2 ^ k)) axis.bit
          (2 ^ k) := by
      cases axis <;> simp +decide [shift, bitOf, Q, R, Axis.bit, pow_succ] <;> omega
    -- first edge along Q: a.child(axis), a.child(r|axis), b.child(0), b.child(r)
    have b1 : shift O ((R axis).bit ||| axis.bit) (2 ^ k) =
        shift (shift O axis.bit (2 ^ k)) (Q (Q axis)).bit (2 ^ k) := by
      cases axis <;> simp +decide [shift, bitOf, Q, R, Axis.bit, pow_succ]
    have b2 : shift (shift O axis.bit (2 ^ (k + 1))) 0 (2 ^ k) =
        shift (shift O axis.bit (2 ^ k)) (R (Q axis)).bit (2 ^ k) := by
      cases axis <;> simp +decide [shift, bitOf, Q, R, Axis.bit, pow_succ] <;> omega
    have b3 : shift (shift O axis.bit (2 ^ (k + 1))) (R axis).bit (2 ^ k) =
        shift (shift O axis.bit (2 ^ k)) ((Q (Q axis)).bit ||| (R (Q axis)).bit) (2 ^ k) := by
      cases axis <;> simp +decide [shift, bitOf, Q, R, Axis.bit, pow_succ] <;> omega
    -- second edge along Q: a.child(q|axis), a.child(q|r|axis), b.child(q), b.child(q|r)
    have c1 : shift O ((Q axis).bit ||| (R axis).bit ||| axis.bit) (2 ^ k) =
        shift (shift O ((Q axis).bit ||| axis.bit) (2 ^ k)) (Q (Q axis)).bit (2 ^ k) := by
      cases axis <;> simp +decide [shift, bitOf, Q, R, Axis.bit, pow_succ]
    have c2 : shift (shift O axis.bit (2 ^ (k + 1))) (Q axis).bit (2 ^ k) =
        shift (shift O ((Q axis).bit ||| axis.bit) (2 ^ k)) (R (Q axis)).bit (2 ^ k) := by
      cases axis <;> simp +decide [shift, bitOf, Q, R, Axis.bit, pow_succ] <;> omega
    have c3 : shift (shift O axis.bit (2 ^ (k + 1))) ((Q axis).bit ||| (R axis).bit) (2 ^ k) =
        shift (shift O ((Q axis).bit ||| axis.bit) (2 ^ k))
          ((Q (Q axis)).bit ||| (R (Q axis)).bit) (2 ^ k) := by
      cases axis <;> simp +decide [shift, bitOf, Q, R, Axis.bit, pow_succ] <;> omega
    -- first edge along R: a.child(axis), b.child(0), a.child(axis|q), b.child(q)
    have d1 : shift (shift O axis.bit (2 ^ (k + 1))) 0 (2 ^ k) =
        shift (shift O axis.bit (2 ^ k)) (Q (R axis)).bit (2 ^ k) := by
      cases axis <;> simp +decide [shift, bitOf, Q, R, Axis.bit, pow_succ] <;> omega
    have d2 : shift O (axis.bit ||| (Q axis).bit) (2 ^ k) =
        shift (shift O axis.bit (2 ^ k)) (R (R axis)).bit (2 ^ k) := by
      cases axis <;> simp +decide [shift, bitOf, Q, R, Axis.bit, pow_succ]
    have d3 : shift (shift O axis.bit (2 ^ (k + 1))) (Q axis).bit (2 ^ k) =
        shift (shift O axis.bit (2 ^ k)) ((Q (R axis)).bit ||| (R (R axis)).bit) (2 ^ k) := by
      cases axis <;> simp +decide [shift, bitOf, Q, R, Axis.bit, pow_succ] <;> omega
    -- second edge along R: a.child(r|axis), b.child(r), a.child(r|axis|q), b.child(r|q)
    have e1 : shift (shift O axis.bit (2 ^ (k + 1))) (R axis).bit (2 ^ k) =
        shift (shift O ((R axis).bit ||| axis.bit) (2 ^ k)) (Q (R axis)).bit (2 ^ k) := by
      cases axis <;> simp +decide [shift, bitOf, Q, R, Axis.bit, pow_succ] <;> omega
    have e2 : shift O ((R axis).bit ||| axis.bit ||| (Q axis).bit) (2 ^ k) =
        shift (shift O ((R axis).bit ||| axis.bit) (2 ^ k)) (R (R axis)).bit (2 ^ k) := by
      cases axis <;> simp +decide [shift, bitOf, Q, R, Axis.bit, pow_succ]
    have e3 : shift (shift O axis.bit (2 ^ (k + 1))) ((R axis).bit ||| (Q axis).bit) (2 ^ k) =
        shift (shift O ((R axis).bit ||| axis.bit) (2 ^ k))
          ((Q (R axis)).bit ||| (R (R axis)).bit) (2 ^ k) := by
      cases axis <;> simp +decide [shift, bitOf, Q, R, Axis.bit, pow_succ] <;> omega
    rw [← ih m _ _ hm a1, ← ih m _ _ hm a2, ← ih m _ _ hm a3, ← ih m _ _ hm a4,
      ← edgeQuads_grid s (Q axis) k (2 * m) _ _ _ _ hm2 b1 b2 b3,
      ← edgeQuads_grid s (Q axis) k (2 * m) _ _ _ _ hm2 c1 c2 c3,
      ← edgeQuads_grid s (R axis) k (2 * m) _ _ _ _ hm2 d1 d2 d3,
      ← edgeQuads_grid s (R axis) k (2 * m) _ _ _ _ hm2 e1 e2 e3]
    simp

theorem flatMap_flatMap {α β γ : Type} (l : List α) (f : α → List β) (g : β → List γ) :
    (l.flatMap f).flatMap g = l.flatMap (fun x => (f x).flatMap g) := by
  induction l with
  | nil => rfl
  | cons x xs ih => simp [List.flatMap_cons, List.flatMap_append, ih]

theorem fin8_or_table :
    ((2 : Fin 8) ||| 1 = 3) ∧ ((4 : Fin 8) ||| 1 = 5) ∧ ((2 : Fin 8) ||| 4 = 6) ∧
    ((6 : Fin 8) ||| 1 = 7) ∧ ((1 : Fin 8) ||| 2 = 3) ∧ ((4 : Fin 8) ||| 2 = 6) ∧
    ((1 : Fin 8) ||| 4 = 5) ∧ ((5 : Fin 8) ||| 2 = 7) ∧ ((3 : Fin 8) ||| 4 = 7) := by decide

theorem cellQuads_grid (s : Pt → Bool) : ∀ (k : Nat) (O : Pt),
    cellQuads (grid s k O) = (cellKeys k O).flatMap (quadOpt s) := by
  intro k
  induction k with
  | zero => intro O; rfl
  | succ k ih =>
    intro O
    have hh : (Octree.BRANCH (gridAddr (k + 1) O)
        (fun i => grid s k (shift O i (2 ^ k)))).height = k + 1 := grid_height s (k + 1) O
    have hcells : (List.finRange 8).flatMap (fun i => cellQuads (grid s k (shift O i (2 ^ k)))) =
        ((List.finRange 8).flatMap (fun i => cellKeys k (shift O i (2 ^ k)))).flatMap
          (quadOpt s) := by
      rw [flatMap_flatMap]
      congr 1
      funext i
      exact ih _
    have fc := fun (axis : Axis) (i j : Fin 8)
        (h : shift O j (2 ^ k) = shift (shift O i (2 ^ k)) axis.bit (2 ^ k)) =>
      faceQuads_grid s axis k (2 * (k + 1)) (shift O i (2 ^ k)) (shift O j (2 ^ k))
        (by omega) h
    have ec := fun (axis : Axis) (i jb jc jd : Fin 8)
        (hb : shift O jb (2 ^ k) = shift (shift O i (2 ^ k)) (Q axis).bit (2 ^ k))
        (hc : shift O jc (2 ^ k) = shift (shift O i (2 ^ k)) (R axis).bit (2 ^ k))
        (hd : shift O jd (2 ^ k) =
          shift (shift O i (2 ^ k)) ((Q axis).bit ||| (R axis).bit) (2 ^ k)) =>
      edgeQuads_grid s axis k (4 * (k + 1)) (shift O i (2 ^ k)) (shift O jb (2 ^ k))
        (shift O jc (2 ^ k)) (shift O jd (2 ^ k)) (by omega) hb hc hd
    show cellQuads (Octree.BRANCH (gridAddr (k + 1) O)
        (fun i => grid s k (shift O i (2 ^ k)))) = _
    rw [cellQuads]
    simp only [hh, Octree.child, Axis.bit, fin8_or_table, hcells]
    rw [fc .AXIS_X 0 1 (by simp +decide [shift, bitOf, Axis.bit]),
      fc .AXIS_X 2 3 (by simp +decide [shift, bitOf, Axis.bit]),
      fc .AXIS_X 4 5 (by simp +decide [shift, bitOf, Axis.bit]),
      fc .AXIS_X 6 7 (by simp +decide [shift, bitOf, Axis.bit]),
      fc .AXIS_Y 0 2 (by simp +decide [shift, bitOf, Axis.bit]),
      fc .AXIS_Y 1 3 (by simp +decide [shift, bitOf, Axis.bit]),
      fc .AXIS_Y 4 6 (by simp +decide [shift, bitOf, Axis.bit]),
      fc .AXIS_Y 5 7 (by simp +decide [shift, bitOf, Axis.bit]),
      fc .AXIS_Z 0 4 (by simp +decide [shift, bitOf, Axis.bit]),
      fc .AXIS_Z 1 5 (by simp +decide [shift, bitOf, Axis.bit]),
      fc .AXIS_Z 2 6 (by simp +decide [shift, bitOf, Axis.bit]),
      fc .AXIS_Z 3 7 (by simp +decide [shift, bitOf, Axis.bit]),
      ec .AXIS_Z 0 1 2 3 (by simp +decide [shift, bitOf, Axis.bit, Q, R])
        (by simp +decide [shift, bitOf, Axis.bit, Q, R])
        (by simp +decide [shift, bitOf, Axis.bit, Q, R]),
      ec .AXIS_Z 4 5 6 7 (by simp +decide [shift, bitOf, Axis.bit, Q, R])
        (by simp +decide [shift, bitOf, Axis.bit, Q, R])
        (by simp +decide [shift, bitOf, Axis.bit, Q, R]),
      ec .AXIS_X 0 2 4 6 (by simp +decide [shift, bitOf, Axis.bit, Q, R])
        (by simp +decide [shift, bitOf, Axis.bit, Q, R])
        (by simp +decide [shift, bitOf, Axis.bit, Q, R]),
      ec .AXIS_X 1 3 5 7 (by simp +decide [shift, bitOf, Axis.bit, Q, R])
        (by simp +decide [shift, bitOf, Axis.bit, Q, R])
        (by simp +decide [shift, bitOf, Axis.bit, Q, R]),
      ec .AXIS_Y 0 4 1 5 (by simp +decide [shift, bitOf, Axis.bit, Q, R])
        (by simp +decide [shift, bitOf, Axis.bit, Q, R])
        (by simp +decide [shift, bitOf, Axis.bit, Q, R]),
      ec .AXIS_Y 2 6 3 7 (by simp +decide [shift, bitOf, Axis.bit, Q, R])
        (by simp +decide [shift, bitOf, Axis.bit, Q, R])
        (by simp +decide [shift, bitOf, Axis.bit, Q, R])]
    simp only [cellKeys, List.flatMap_append]

theorem Axis.forall_iff (P : Axis → Prop) :
    (∀ c : Axis, P c) ↔ P .AXIS_X ∧ P .AXIS_Y ∧ P .AXIS_Z :=
  ⟨fun h => ⟨h _, h _, h _⟩, fun h c => by cases c; exact h.1; exact h.2.1; exact h.2.2⟩

theorem mem_edgeKeys (a : Axis) : ∀ (k : Nat) (O : Pt) (e : GridEdge),
    e ∈ edgeKeys k a O ↔ EdgeReg k a O e := by
  intro k
  induction k with
  | zero =>
    intro O e
    obtain ⟨ea, ⟨ex, ey, ez⟩⟩ := e
    obtain ⟨Ox, Oy, Oz⟩ := O
    cases a <;> cases ea <;>
      simp +decide [edgeKeys, EdgeReg, Axis.forall_iff, Pt.get] <;> omega
  | succ k ih =>
    intro O e
    simp only [edgeKeys, List.mem_append, ih]
    obtain ⟨ea, ⟨ex, ey, ez⟩⟩ := e
    obtain ⟨Ox, Oy, Oz⟩ := O
    have hp : 0 < 2 ^ k := Nat.pow_pos (by norm_num)
    cases a <;> cases ea <;>
      simp +decide [EdgeReg, Axis.forall_iff, Pt.get, shift, bitOf, Q, R, Axis.bit,
        pow_succ] <;> omega

theorem axis_eval :
    Q .AXIS_X = .AXIS_Y ∧ Q .AXIS_Y = .AXIS_Z ∧ Q .AXIS_Z = .AXIS_X ∧
    R .AXIS_X = .AXIS_Z ∧ R .AXIS_Y = .AXIS_X ∧ R .AXIS_Z = .AXIS_Y ∧
    Axis.AXIS_X.bit = 1 ∧ Axis.AXIS_Y.bit = 2 ∧ Axis.AXIS_Z.bit = 4 :=
  ⟨rfl, rfl, rfl, rfl, rfl, rfl, rfl, rfl, rfl⟩

theorem fin8_or_all :
    ((1 : Fin 8) ||| 2 = 3) ∧ ((2 : Fin 8) ||| 1 = 3) ∧ ((1 : Fin 8) ||| 4 = 5) ∧
    ((4 : Fin 8) ||| 1 = 5) ∧ ((2 : Fin 8) ||| 4 = 6) ∧ ((4 : Fin 8) ||| 2 = 6) ∧
    ((3 : Fin 8) ||| 4 = 7) ∧ ((5 : Fin 8) ||| 2 = 7) ∧ ((6 : Fin 8) ||| 1 = 7) ∧
    ((3 : Fin 8) ||| 1 = 3) ∧ ((3 : Fin 8) ||| 2 = 3) ∧ ((5 : Fin 8) ||| 1 = 5) ∧
    ((5 : Fin 8) ||| 4 = 5) ∧ ((6 : Fin 8) ||| 2 = 6) ∧ ((6 : Fin 8) ||| 4 = 6) := by decide

theorem shift_lit (O : Pt) (h : Nat) :
    shift O 0 h = ⟨O.x, O.y, O.z⟩ ∧ shift O 1 h = ⟨O.x + h, O.y, O.z⟩ ∧
    shift O 2 h = ⟨O.x, O.y + h, O.z⟩ ∧ shift O 3 h = ⟨O.x + h, O.y + h, O.z⟩ ∧
    shift O 4 h = ⟨O.x, O.y, O.z + h⟩ ∧ shift O 5 h = ⟨O.x + h, O.y, O.z + h⟩ ∧
    shift O 6 h = ⟨O.x, O.y + h, O.z + h⟩ ∧ shift O 7 h = ⟨O.x + h, O.y + h, O.z + h⟩ := by
  simp +decide [shift, bitOf, Axis.bit]

theorem Axis.eq_eval :
    ((Axis.AXIS_X = Axis.AXIS_Y) = False) ∧ ((Axis.AXIS_X = Axis.AXIS_Z) = False) ∧
    ((Axis.AXIS_Y = Axis.AXIS_X) = False) ∧ ((Axis.AXIS_Y = Axis.AXIS_Z) = False) ∧
    ((Axis.AXIS_Z = Axis.AXIS_X) = False) ∧ ((Axis.AXIS_Z = Axis.AXIS_Y) = False) := by
  simp

theorem mem_faceKeys (u : Axis) : ∀ (k : Nat) (O : Pt) (e : GridEdge),
    e ∈ faceKeys k u O ↔ FaceReg k u O e := by
  intro k
  induction k with
  | zero =>
    intro O e
    obtain ⟨ea, ⟨ex, ey, ez⟩⟩ := e
    cases u <;> cases ea <;>
      simp only [faceKeys, FaceReg, Axis.forall_iff, Pt.get, Axis.eq_eval, ne_eq,
        not_true_eq_false, not_false_eq_true, if_true, if_false, false_and, and_false,
        true_and, and_true, eq_self_iff_true, ite_true, ite_false, List.not_mem_nil,
        pow_zero, false_iff, not_and, not_lt] <;>
      omega
  | succ k ih =>
    intro O e
    simp only [faceKeys, List.mem_append, ih, mem_edgeKeys]
    obtain ⟨ea, ⟨ex, ey, ez⟩⟩ := e
    have hp : 0 < 2 ^ k := Nat.pow_pos (by norm_num)
    cases u <;> cases ea <;>
      simp only [FaceReg, EdgeReg, Axis.forall_iff, Pt.get, axis_eval, fin8_or_all, shift_lit,
        Axis.eq_eval, ne_eq, not_true_eq_false, not_false_eq_true, if_true, if_false,
        false_and, and_false, true_and, and_true, or_false, false_or, eq_self_iff_true,
        ite_true, ite_false, pow_succ, reduceCtorEq] <;>
      omega

theorem finRange_eight : List.finRange 8 = [0, 1, 2, 3, 4, 5, 6, 7] := by decide

set_option maxHeartbeats 1000000 in
theorem mem_cellKeys : ∀ (k : Nat) (O : Pt) (e : GridEdge),
    e ∈ cellKeys k O ↔ CellReg k O e := by
  intro k
  induction k with
  | zero =>
    intro O e
    obtain ⟨ea, ⟨ex, ey, ez⟩⟩ := e
    cases ea <;>
      simp only [cellKeys, CellReg, Axis.forall_iff, Pt.get, Axis.eq_eval, if_true, if_false,
        eq_self_iff_true, ite_true, ite_false, List.not_mem_nil, pow_zero, false_iff] <;>
      omega
  | succ k ih =>
    intro O e
    simp only [cellKeys, finRange_eight, List.flatMap_cons, List.flatMap_nil, List.append_nil,
      List.mem_append, ih, mem_faceKeys, mem_edgeKeys]
    obtain ⟨ea, ⟨ex, ey, ez⟩⟩ := e
    have hp : 0 < 2 ^ k := Nat.pow_pos (by norm_num)
    cases ea <;>
    · simp only [CellReg, FaceReg, EdgeReg, Axis.forall_iff, Pt.get, axis_eval, fin8_or_all,
        shift_lit, Axis.eq_eval, ne_eq, not_true_eq_false, not_false_eq_true, if_true,
        if_false, false_and, and_false, true_and, and_true, or_false, false_or,
        eq_self_iff_true, ite_true, ite_false, pow_succ, reduceCtorEq]
      constructor
      · intro hh; omega
      · intro hh
        simp only [or_assoc]
        rcases Nat.lt_or_ge ex (O.x + 2 ^ k) with h1 | h1 <;>
        rcases Nat.lt_or_ge ey (O.y + 2 ^ k) with h2 | h2 <;>
        rcases Nat.lt_or_ge ez (O.z + 2 ^ k) with h3 | h3 <;>
        rcases Nat.lt_trichotomy (ex + 1) (O.x + 2 ^ k) with h4 | h4 | h4 <;>
        rcases Nat.lt_trichotomy (ey + 1) (O.y + 2 ^ k) with h5 | h5 | h5 <;>
        rcases Nat.lt_trichotomy (ez + 1) (O.z + 2 ^ k) with h6 | h6 | h6 <;>
        first
          | (exfalso; omega)
          | (repeat (first | (left; omega) | right)
             all_goals omega)

theorem nodup_edgeKeys (a : Axis) : ∀ (k : Nat) (O : Pt), (edgeKeys k a O).Nodup := by
  intro k
  induction k with
  | zero => intro O; simp [edgeKeys]
  | succ k ih =>
    intro O
    simp only [edgeKeys, List.nodup_append, ih, true_and, List.Disjoint, mem_edgeKeys]
    intro e
    obtain ⟨ea, ⟨ex, ey, ez⟩⟩ := e
    have hp : 0 < 2 ^ k := Nat.pow_pos (by norm_num)
    cases a <;> cases ea <;>
      simp only [EdgeReg, Axis.forall_iff, Pt.get, axis_eval, fin8_or_all, shift_lit,
        Axis.eq_eval, if_true, if_false, false_and, and_false, true_and, and_true,
        eq_self_iff_true, ite_true, ite_false, reduceCtorEq, false_imp_iff, imp_false,
        implies_true] <;>
      omega

theorem nodup_faceKeys (u : Axis) : ∀ (k : Nat) (O : Pt), (faceKeys k u O).Nodup := by
  intro k
  induction k with
  | zero => intro O; simp [faceKeys]
  | succ k ih =>
    intro O
    simp only [faceKeys, List.nodup_append, ih, nodup_edgeKeys, true_and, and_true,
      List.Disjoint, List.mem_append, mem_edgeKeys, mem_faceKeys]
    have hp : 0 < 2 ^ k := Nat.pow_pos (by norm_num)
    refine ⟨⟨⟨⟨⟨⟨?_, ?_⟩, ?_⟩, ?_⟩, ?_⟩, ?_⟩, ?_⟩
    all_goals
      intro e
      obtain ⟨ea, ⟨ex, ey, ez⟩⟩ := e
      cases u <;> cases ea <;>
        simp only [FaceReg, EdgeReg, Axis.forall_iff, Pt.get, axis_eval, fin8_or_all, shift_lit,
          Axis.eq_eval, ne_eq, not_true_eq_false, not_false_eq_true, if_true, if_false,
          false_and, and_false, true_and, and_true, or_false, false_or, false_imp_iff,
          imp_false, reduceCtorEq, eq_self_iff_true, ite_true, ite_false, not_true,
          not_false_iff, implies_true] <;>
        omega

set_option maxHeartbeats 4000000 in
theorem nodup_cellKeys : ∀ (k : Nat) (O : Pt), (cellKeys k O).Nodup := by
  intro k
  induction k with
  | zero => intro O; simp [cellKeys]
  | succ k ih =>
    intro O
    simp only [cellKeys, finRange_eight, List.flatMap_cons, List.flatMap_nil, List.append_nil,
      List.nodup_append, ih, nodup_faceKeys, nodup_edgeKeys, true_and, and_true,
      List.Disjoint, List.mem_append, mem_cellKeys, mem_edgeKeys, mem_faceKeys]
    have hp : 0 < 2 ^ k := Nat.pow_pos (by norm_num)
    constructorm* _ ∧ _
    all_goals
      intro e
      obtain ⟨ea, ⟨ex, ey, ez⟩⟩ := e
      cases ea <;>
        simp only [CellReg, FaceReg, EdgeReg, Axis.forall_iff, Pt.get, axis_eval, fin8_or_all,
          shift_lit, Axis.eq_eval, ne_eq, not_true_eq_false, not_false_eq_true, if_true,
          if_false, false_and, and_false, true_and, and_true, or_false, false_or,
          false_imp_iff, imp_false, reduceCtorEq, eq_self_iff_true, ite_true, ite_false,
          not_true, not_false_iff, implies_true] <;>
        omega

theorem flatMap_quadOpt (s : Pt → Bool) (l : List GridEdge) :
    l.flatMap (quadOpt s) = (l.filter (GridEdge.changes s)).map (quadAt s) := by
  induction l with
  | nil => rfl
  | cons e l ih =>
    rw [List.flatMap_cons, ih, List.filter_cons]
    cases h : e.changes s <;> simp [quadOpt, h]

theorem gridAddr_inj (p p' : Pt) : gridAddr 0 p = gridAddr 0 p' ↔ p = p' := by
  constructor
  · intro h
    simp only [gridAddr, Nat.pair_eq_pair, true_and] at h
    obtain ⟨hx, hy, hz⟩ := h
    cases p; cases p'
    simp only [Pt.mk.injEq]
    exact ⟨hx, hy, hz⟩
  · intro h; rw [h]

theorem gridLeaf_addr (s : Pt → Bool) (p : Pt) : (gridLeaf s p).addr = gridAddr 0 p := rfl

theorem gridLeaf_inj (s : Pt → Bool) (p p' : Pt) (h : gridLeaf s p = gridLeaf s p') :
    p = p' :=
  (gridAddr_inj p p').mp (by rw [← gridLeaf_addr s p, ← gridLeaf_addr s p', h])

theorem quadAt_a (s : Pt → Bool) (e : GridEdge) : (quadAt s e).a = gridLeaf s e.low := by
  unfold quadAt; split_ifs <;> rfl

theorem quadAt_d (s : Pt → Bool) (e : GridEdge) :
    (quadAt s e).d = gridLeaf s (shift e.low ((Q e.axis).bit ||| (R e.axis).bit) 1) := by
  unfold quadAt; split_ifs <;> rfl

theorem quadAt_inj (s : Pt → Bool) (e e' : GridEdge) (h : quadAt s e = quadAt s e') :
    e = e' := by
  have ha : e.low = e'.low :=
    gridLeaf_inj s _ _ (by rw [← quadAt_a s e, ← quadAt_a s e', h])
  have hd : shift e.low ((Q e.axis).bit ||| (R e.axis).bit) 1 =
      shift e'.low ((Q e'.axis).bit ||| (R e'.axis).bit) 1 :=
    gridLeaf_inj s _ _ (by rw [← quadAt_d s e, ← quadAt_d s e', h])
  obtain ⟨ea, ⟨ex, ey, ez⟩⟩ := e
  obtain ⟨ea', ⟨ex', ey', ez'⟩⟩ := e'
  simp only [Pt.mk.injEq] at ha
  obtain ⟨rfl, rfl, rfl⟩ := ha
  cases ea <;> cases ea' <;>
    simp only [axis_eval, fin8_or_all, shift_lit, Pt.mk.injEq] at hd <;>
    first | rfl | omega

theorem quadAt_args_nodup (s : Pt → Bool) (e : GridEdge) :
    ((quadAt s e).args.map Octree.addr).Nodup := by
  obtain ⟨ea, ⟨ex, ey, ez⟩⟩ := e
  unfold quadAt
  cases ea <;> split_ifs <;>
    simp only [QuadCall.args, List.map_cons, List.map_nil, gridLeaf_addr, axis_eval,
      fin8_or_all, shift_lit, List.nodup_cons, List.mem_cons, List.mem_singleton,
      List.not_mem_nil, gridAddr_inj, Pt.mk.injEq, not_or, List.nodup_nil, or_false,
      and_true, true_and, not_false_eq_true] <;>
    omega

theorem cellReg_zero_iff (n : Nat) (e : GridEdge) : CellReg n ⟨0, 0, 0⟩ e ↔ e.Interior n := by
  obtain ⟨ea, ⟨ex, ey, ez⟩⟩ := e
  cases ea <;>
    simp only [CellReg, GridEdge.Interior, Axis.forall_iff, Pt.get, Axis.eq_eval, if_true,
      if_false, eq_self_iff_true, ite_true, ite_false, Nat.zero_le, true_and, Nat.zero_add]

/-- C7. One quad per sign-changing minimal edge on a uniform grid: for every `n` and every
assignment `s` of signs to the grid points, on the complete octree of depth `n` whose
leaves are the unit grid cells, the quad calls of `cell root` are, without repetition,
the quads `quadAt s e` of the interior unit grid edges `e` whose two end points differ in
sign, and no other; each quad is two consecutive triangles of the mesh; different edges
have different quads, and the four leaves of a quad are four distinct leaves of the tree,
the grid cells that share the edge. -/
theorem one_quad_per_grid_edge (s : Pt → Bool) (n : Nat) :
    ∃ edges : List GridEdge,
      edges.Nodup ∧
      (∀ e, e ∈ edges ↔ e.Interior n ∧ e.changes s = true) ∧
      cellQuads (grid s n ⟨0, 0, 0⟩) = edges.map (quadAt s) ∧
      cell (grid s n ⟨0, 0, 0⟩) Worker.empty = runQuads (edges.map (quadAt s)) Worker.empty ∧
      (Render (grid s n ⟨0, 0, 0⟩)).tris =
        edges.flatMap (fun e =>
          quadTris (cell (grid s n ⟨0, 0, 0⟩) Worker.empty) (quadAt s e)) ∧
      (∀ e e', quadAt s e = quadAt s e' → e = e') ∧
      (∀ e, ((quadAt s e).args.map Octree.addr).Nodup) ∧
      (∀ e ∈ edges, ∀ x ∈ (quadAt s e).args, x ∈ (grid s n ⟨0, 0, 0⟩).leaves) := by
  have hq : cellQuads (grid s n ⟨0, 0, 0⟩) =
      ((cellKeys n ⟨0, 0, 0⟩).filter (GridEdge.changes s)).map (quadAt s) := by
    rw [cellQuads_grid, flatMap_quadOpt]
  have hrun := cell_eq_runQuads (grid s n ⟨0, 0, 0⟩) Worker.empty
  refine ⟨(cellKeys n ⟨0, 0, 0⟩).filter (GridEdge.changes s),
    (nodup_cellKeys n _).filter _, ?_, hq, ?_, ?_, quadAt_inj s, quadAt_args_nodup s, ?_⟩
  · intro e
    rw [List.mem_filter, mem_cellKeys, cellReg_zero_iff]
  · rw [hrun, hq]
  · unfold Render
    rw [hrun, runQuads_tris, ← hrun, hq]
    simp only [Worker.empty, List.nil_append, List.flatMap_map]
  · intro e he x hx
    exact (cellQuads_args _ (quadAt s e) (by rw [hq]; exact List.mem_map_of_mem _ he)).1 x hx

/-! ## The checked run agrees with the worker -/

theorem cornerChecked_leaf (o : Octree) (i : Fin 8) (h : o.getType = .LEAF) :
    o.cornerChecked i = .ok (o.corner i) := by
  cases o with
  | LEAF a cs v => rfl
  | BRANCH a ch => simp [Octree.getType] at h

theorem getVertexChecked_leaf (o : Octree) (h : o.getType = .LEAF) :
    o.getVertexChecked = .ok o.getVertex := by
  cases o with
  | LEAF a cs v => rfl
  | BRANCH a ch => simp [Octree.getType] at h

theorem indexChecked_leaf (o : Octree) (w : Worker) (h : o.getType = .LEAF) :
    indexChecked o w = .ok (index o w) := by
  unfold indexChecked index
  rw [getVertexChecked_leaf o h]
  cases w.verts.lookup o.addr <;> rfl

theorem quadChecked_leaf (a b c d : Octree) (s : Run) (ha : a.getType = .LEAF)
    (hb : b.getType = .LEAF) (hc : c.getType = .LEAF) (hd : d.getType = .LEAF) :
    quadChecked a b c d s = .ok ⟨quad a b c d s.w, s.calls ++ [.quad a b c d]⟩ := by
  unfold quadChecked quad
  simp only [Run.log, indexChecked_leaf _ _ ha, indexChecked_leaf _ _ hb,
    indexChecked_leaf _ _ hc, indexChecked_leaf _ _ hd]
  rfl

theorem cornersDiffer_leaf (o : Octree) (i j : Fin 8) (h : o.getType = .LEAF) :
    cornersDiffer o i j = .ok (decide (o.corner i ≠ o.corner j)) := by
  unfold cornersDiffer
  rw [cornerChecked_leaf o i h, cornerChecked_leaf o j h]
  cases o.corner i <;> cases o.corner j <;> rfl

theorem edgeCondition_eq (a b c d : Octree) (axis : Axis) :
    edgeCondition a b c d axis = .ok (decide (a.getType = .LEAF ∧ b.getType = .LEAF ∧
      c.getType = .LEAF ∧ d.getType = .LEAF ∧
      (a.corner ((Q axis).bit ||| (R axis).bit) ≠
          a.corner ((Q axis).bit ||| (R axis).bit ||| axis.bit) ∨
       b.corner (R axis).bit ≠ b.corner ((R axis).bit ||| axis.bit) ∨
       c.corner (Q axis).bit ≠ c.corner ((Q axis).bit ||| axis.bit) ∨
       d.corner 0 ≠ d.corner axis.bit))) := by
  unfold edgeCondition
  by_cases h : a.getType = .LEAF ∧ b.getType = .LEAF ∧ c.getType = .LEAF ∧ d.getType = .LEAF
  · obtain ⟨ha, hb, hc, hd⟩ := h
    simp only [ha, hb, hc, hd, and_self, if_true, true_and,
      cornersDiffer_leaf _ _ _ ha, cornersDiffer_leaf _ _ _ hb, cornersDiffer_leaf _ _ _ hc,
      cornersDiffer_leaf _ _ _ hd]
    by_cases h1 : a.corner ((Q axis).bit ||| (R axis).bit) =
        a.corner ((Q axis).bit ||| (R axis).bit ||| axis.bit) <;>
    by_cases h2 : b.corner (R axis).bit = b.corner ((R axis).bit ||| axis.bit) <;>
    by_cases h3 : c.corner (Q axis).bit = c.corner ((Q axis).bit ||| axis.bit) <;>
    by_cases h4 : d.corner 0 = d.corner axis.bit <;>
    simp [h1, h2, h3, h4] <;> rfl
  · have h' : ¬ (a.getType = .LEAF ∧ b.getType = .LEAF ∧ c.getType = .LEAF ∧
        d.getType = .LEAF ∧
        (a.corner ((Q axis).bit ||| (R axis).bit) ≠
          a.corner ((Q axis).bit ||| (R axis).bit ||| axis.bit) ∨
        b.corner (R axis).bit ≠ b.corner ((R axis).bit ||| axis.bit) ∨
        c.corner (Q axis).bit ≠ c.corner ((Q axis).bit ||| axis.bit) ∨
        d.corner 0 ≠ d.corner axis.bit)) := by
      intro hh; exact h ⟨hh.1, hh.2.1, hh.2.2.1, hh.2.2.2.1⟩
    rw [if_neg h, decide_eq_false h']
    rfl

theorem edgeChecked_ok (n : Nat) : ∀ (a b c d : Octree) (axis : Axis) (s : Run),
    a.height + b.height + c.height + d.height < n →
    ∃ cs, edgeChecked n a b c d axis s = .ok ⟨edge a b c d axis s.w, s.calls ++ cs⟩ ∧
      ∀ x ∈ cs, x.leafArgs := by
  induction n with
  | zero => intro a b c d axis s h; omega
  | succ n ih =>
    intro a b c d axis s hn
    rw [edgeChecked, edge]
    simp only [edgeCondition_eq]
    by_cases hP : a.getType = .LEAF ∧ b.getType = .LEAF ∧ c.getType = .LEAF ∧
        d.getType = .LEAF ∧
        (a.corner ((Q axis).bit ||| (R axis).bit) ≠
          a.corner ((Q axis).bit ||| (R axis).bit ||| axis.bit) ∨
        b.corner (R axis).bit ≠ b.corner ((R axis).bit ||| axis.bit) ∨
        c.corner (Q axis).bit ≠ c.corner ((Q axis).bit ||| axis.bit) ∨
        d.corner 0 ≠ d.corner axis.bit)
    · obtain ⟨ha, hb, hc, hd, hx⟩ := id hP
      rw [if_pos hP, decide_eq_true hP]
      simp only [cornerChecked_leaf d 0 hd]
      by_cases hd0 : d.corner 0 = true
      · refine ⟨[.edge a b c d axis, .quad a b c d], ?_, ?_⟩
        · simp only [hd0, if_true]
          show quadChecked a b c d _ = _
          rw [quadChecked_leaf a b c d _ ha hb hc hd]
          simp [Run.log]
        · intro x hx
          simp only [List.mem_cons, List.mem_singleton, List.not_mem_nil, or_false] at hx
          rcases hx with rfl | rfl
          · trivial
          · exact ⟨ha, hb, hc, hd⟩
      · refine ⟨[.edge a b c d axis, .quad a c b d], ?_, ?_⟩
        · simp only [hd0]
          show quadChecked a c b d _ = _
          rw [quadChecked_leaf a c b d _ ha hc hb hd]
          simp [Run.log]
        · intro x hx
          simp only [List.mem_cons, List.mem_singleton, List.not_mem_nil, or_false] at hx
          rcases hx with rfl | rfl
          · trivial
          · exact ⟨ha, hc, hb, hd⟩
    · rw [if_neg hP, decide_eq_false hP]
      by_cases hB : a.getType = .BRANCH ∨ b.getType = .BRANCH ∨
          c.getType = .BRANCH ∨ d.getType = .BRANCH
      · have hlt1 : (a.child ((Q axis).bit ||| (R axis).bit)).height +
            (b.child (R axis).bit).height + (c.child (Q axis).bit).height +
            (d.child 0).height < n := by
          have ha1 := Octree.height_child_le a ((Q axis).bit ||| (R axis).bit)
          have hb1 := Octree.height_child_le b (R axis).bit
          have hc1 := Octree.height_child_le c (Q axis).bit
          have hd1 := Octree.height_child_le d 0
          rcases hB with h | h | h | h
          · have := Octree.height_child_lt a ((Q axis).bit ||| (R axis).bit) h; omega
          · have := Octree.height_child_lt b (R axis).bit h; omega
          · have := Octree.height_child_lt c (Q axis).bit h; omega
          · have := Octree.height_child_lt d 0 h; omega
        have hlt2 : (a.child ((Q axis).bit ||| (R axis).bit ||| axis.bit)).height +
            (b.child ((R axis).bit ||| axis.bit)).height +
            (c.child ((Q axis).bit ||| axis.bit)).height +
            (d.child axis.bit).height < n := by
          have ha1 := Octree.height_child_le a ((Q axis).bit ||| (R axis).bit ||| axis.bit)
          have hb1 := Octree.height_child_le b ((R axis).bit ||| axis.bit)
          have hc1 := Octree.height_child_le c ((Q axis).bit ||| axis.bit)
          have hd1 := Octree.height_child_le d axis.bit
          rcases hB with h | h | h | h
          · have := Octree.height_child_lt a ((Q axis).bit ||| (R axis).bit ||| axis.bit) h
            omega
          · have := Octree.height_child_lt b ((R axis).bit ||| axis.bit) h; omega
          · have := Octree.height_child_lt c ((Q axis).bit ||| axis.bit) h; omega
          · have := Octree.height_child_lt d axis.bit h; omega
        obtain ⟨cs1, h1, l1⟩ := ih _ _ _ _ axis (s.log (.edge a b c d axis)) hlt1
        obtain ⟨cs2, h2, l2⟩ := ih _ _ _ _ axis
          ⟨edge (a.child ((Q axis).bit ||| (R axis).bit)) (b.child (R axis).bit)
            (c.child (Q axis).bit) (d.child 0) axis s.w,
           (s.log (.edge a b c d axis)).calls ++ cs1⟩ hlt2
        refine ⟨.edge a b c d axis :: (cs1 ++ cs2), ?_, ?_⟩
        · simp only [hB, if_true, dite_true]
          show (edgeChecked n _ _ _ _ axis (s.log (.edge a b c d axis)) >>= fun s =>
            edgeChecked n _ _ _ _ axis s) = _
          rw [h1]
          show edgeChecked n _ _ _ _ axis _ = _
          simp only [Run.log] at h2 ⊢
          rw [h2]
          simp
        · intro x hx
          simp only [List.mem_cons, List.mem_append] at hx
          rcases hx with rfl | hx | hx
          · trivial
          · exact l1 x hx
          · exact l2 x hx
      · refine ⟨[.edge a b c d axis], ?_, ?_⟩
        · simp only [hB, if_false, dite_false]
          rfl
        · intro x hx
          simp only [List.mem_singleton] at hx
          subst hx; trivial

theorem Agrees.bind {f k : Run → Except Fault Run} {g g' : Worker → Worker}
    (hf : Agrees f g) (hk : Agrees k g') :
    Agrees (fun s => f s >>= k) (fun w => g' (g w)) := by
  intro s
  obtain ⟨cs1, h1, l1⟩ := hf s
  obtain ⟨cs2, h2, l2⟩ := hk ⟨g s.w, s.calls ++ cs1⟩
  refine ⟨cs1 ++ cs2, ?_, ?_⟩
  · show (f s >>= k) = _
    rw [h1]
    show k _ = _
    rw [h2, List.append_assoc]
  · intro x hx
    rcases List.mem_append.1 hx with hx | hx
    · exact l1 x hx
    · exact l2 x hx

theorem Agrees.log {f : Run → Except Fault Run} {g : Worker → Worker} (c : Call)
    (hc : c.leafArgs) (hf : Agrees f g) : Agrees (fun s => f (s.log c)) g := by
  intro s
  obtain ⟨cs, h, l⟩ := hf (s.log c)
  refine ⟨c :: cs, ?_, ?_⟩
  · show f (s.log c) = _
    rw [h]
    simp [Run.log]
  · intro x hx
    rcases List.mem_cons.1 hx with rfl | hx
    · exact hc
    · exact l x hx

theorem Agrees.pure : Agrees (fun s => Except.ok s) (fun w => w) := by
  intro s
  exact ⟨[], by simp, by simp⟩

theorem edgeChecked_agrees (n : Nat) (a b c d : Octree) (axis : Axis)
    (h : a.height + b.height + c.height + d.height < n) :
    Agrees (edgeChecked n a b c d axis) (edge a b c d axis) :=
  fun s => edgeChecked_ok n a b c d axis s h

theorem faceChecked_agrees (n : Nat) : ∀ (a b : Octree) (axis : Axis),
    2 * (a.height + b.height) < n →
    Agrees (faceChecked n a b axis) (face a b axis) := by
  induction n with
  | zero => intro a b axis h; omega
  | succ n ih =>
    intro a b axis hn
    by_cases hB : a.getType = .BRANCH ∨ b.getType = .BRANCH
    · have hA : ∀ i j k l : Fin 8, (a.child i).height + (a.child j).height +
          (b.child k).height + (b.child l).height < n := by
        intro i j k l
        have ha1 := Octree.height_child_le a i
        have ha2 := Octree.height_child_le a j
        have hb1 := Octree.height_child_le b k
        have hb2 := Octree.height_child_le b l
        rcases hB with h | h
        · have := Octree.height_child_lt a i h
          have := Octree.height_child_lt a j h
          omega
        · have := Octree.height_child_lt b k h
          have := Octree.height_child_lt b l h
          omega
      have hF : ∀ i k : Fin 8, 2 * ((a.child i).height + (b.child k).height) < n := by
        intro i k
        have := hA i i k k
        omega
      have key := Agrees.log (.face a b axis) trivial
        (Agrees.bind (ih _ _ axis (hF axis.bit 0))
        (Agrees.bind (ih _ _ axis (hF ((Q axis).bit ||| axis.bit) (Q axis).bit))
        (Agrees.bind (ih _ _ axis (hF ((R axis).bit ||| axis.bit) (R axis).bit))
        (Agrees.bind (ih _ _ axis (hF ((Q axis).bit ||| (R axis).bit ||| axis.bit)
            ((Q axis).bit ||| (R axis).bit)))
        (Agrees.bind (edgeChecked_agrees n (a.child axis.bit)
            (a.child ((R axis).bit ||| axis.bit)) (b.child 0) (b.child (R axis).bit) (Q axis)
            (hA _ _ _ _))
        (Agrees.bind (edgeChecked_agrees n (a.child ((Q axis).bit ||| axis.bit))
            (a.child ((Q axis).bit ||| (R axis).bit ||| axis.bit)) (b.child (Q axis).bit)
            (b.child ((Q axis).bit ||| (R axis).bit)) (Q axis) (hA _ _ _ _))
        (Agrees.bind (edgeChecked_agrees n (a.child axis.bit) (b.child 0)
            (a.child (axis.bit ||| (Q axis).bit)) (b.child (Q axis).bit) (R axis)
            (by have := hA axis.bit (axis.bit ||| (Q axis).bit) 0 (Q axis).bit; omega))
        (edgeChecked_agrees n (a.child ((R axis).bit ||| axis.bit)) (b.child (R axis).bit)
            (a.child ((R axis).bit ||| axis.bit ||| (Q axis).bit))
            (b.child ((R axis).bit ||| (Q axis).bit)) (R axis)
            (by have := hA ((R axis).bit ||| axis.bit)
                  ((R axis).bit ||| axis.bit ||| (Q axis).bit) (R axis).bit
                  ((R axis).bit ||| (Q axis).bit); omega)))))))))
      intro s
      obtain ⟨cs, h, l⟩ := key s
      refine ⟨cs, ?_, l⟩
      rw [faceChecked, face]
      simp only [hB, if_true, dite_true]
      exact h
    · intro s
      refine ⟨[.face a b axis], ?_, ?_⟩
      · rw [faceChecked, face]
        simp only [hB, if_false, dite_false]
        rfl
      · intro x hx
        simp only [List.mem_singleton] at hx
        subst hx; trivial

theorem Agrees.foldlM {ι : Type} (l : List ι) (f : ι → Run → Except Fault Run)
    (g : ι → Worker → Worker) (h : ∀ i ∈ l, Agrees (f i) (g i)) :
    Agrees (fun s => l.foldlM (fun s i => f i s) s) (fun w => l.foldl (fun w i => g i w) w) := by
  induction l with
  | nil => exact Agrees.pure
  | cons i l ih =>
    have h1 := h i (List.mem_cons_self i l)
    have h2 := ih (fun j hj => h j (List.mem_cons_of_mem i hj))
    have := Agrees.bind h1 h2
    intro s
    obtain ⟨cs, hc, hl⟩ := this s
    exact ⟨cs, by simp only [List.foldlM_cons, List.foldl_cons] at hc ⊢; exact hc, hl⟩

theorem cellChecked_agrees (n : Nat) : ∀ (c : Octree), 4 * c.height < n →
    Agrees (cellChecked n c) (cell c) := by
  induction n with
  | zero => intro c h; omega
  | succ n ih =>
    intro c hn
    cases c with
    | LEAF a cs v =>
      intro s
      refine ⟨[.cell (.LEAF a cs v)], ?_, ?_⟩
      · rw [cellChecked]
        simp only [Octree.getType]
        rfl
      · intro x hx
        simp only [List.mem_singleton] at hx
        subst hx; trivial
    | BRANCH a ch =>
      have hlt := Octree.height_branch_child_lt a ch
      have hC : ∀ i : Fin 8, 4 * ((Octree.BRANCH a ch).child i).height < n := by
        intro i; have := hlt i; omega
      have hF : ∀ i j : Fin 8, 2 * (((Octree.BRANCH a ch).child i).height +
          ((Octree.BRANCH a ch).child j).height) < n := by
        intro i j; have := hlt i; have := hlt j; omega
      have hE : ∀ i j k l : Fin 8, ((Octree.BRANCH a ch).child i).height +
          ((Octree.BRANCH a ch).child j).height + ((Octree.BRANCH a ch).child k).height +
          ((Octree.BRANCH a ch).child l).height < n := by
        intro i j k l; have := hlt i; have := hlt j; have := hlt k; have := hlt l; omega
      have F := fun (i j : Fin 8) (axis : Axis) =>
        faceChecked_agrees n ((Octree.BRANCH a ch).child i) ((Octree.BRANCH a ch).child j)
          axis (hF i j)
      have E := fun (i j k l : Fin 8) (axis : Axis) =>
        edgeChecked_agrees n ((Octree.BRANCH a ch).child i) ((Octree.BRANCH a ch).child j)
          ((Octree.BRANCH a ch).child k) ((Octree.BRANCH a ch).child l) axis (hE i j k l)
      have key := Agrees.log (.cell (.BRANCH a ch)) trivial
        (Agrees.bind (Agrees.foldlM (List.finRange 8)
          (fun i => cellChecked n ((Octree.BRANCH a ch).child i))
          (fun i => cell (ch i)) (fun i _ => ih _ (hC i)))
        (Agrees.bind (F 0 Axis.AXIS_X.bit .AXIS_X)
        (Agrees.bind (F Axis.AXIS_Y.bit (Axis.AXIS_Y.bit ||| Axis.AXIS_X.bit) .AXIS_X)
        (Agrees.bind (F Axis.AXIS_Z.bit (Axis.AXIS_Z.bit ||| Axis.AXIS_X.bit) .AXIS_X)
        (Agrees.bind (F (Axis.AXIS_Y.bit ||| Axis.AXIS_Z.bit)
          (Axis.AXIS_Y.bit ||| Axis.AXIS_Z.bit ||| Axis.AXIS_X.bit) .AXIS_X)
        (Agrees.bind (F 0 Axis.AXIS_Y.bit .AXIS_Y)
        (Agrees.bind (F Axis.AXIS_X.bit (Axis.AXIS_X.bit ||| Axis.AXIS_Y.bit) .AXIS_Y)
        (Agrees.bind (F Axis.AXIS_Z.bit (Axis.AXIS_Z.bit ||| Axis.AXIS_Y.bit) .AXIS_Y)
        (Agrees.bind (F (Axis.AXIS_X.bit ||| Axis.AXIS_Z.bit)
          (Axis.AXIS_X.bit ||| Axis.AXIS_Z.bit ||| Axis.AXIS_Y.bit) .AXIS_Y)
        (Agrees.bind (F 0 Axis.AXIS_Z.bit .AXIS_Z)
        (Agrees.bind (F Axis.AXIS_X.bit (Axis.AXIS_X.bit ||| Axis.AXIS_Z.bit) .AXIS_Z)
        (Agrees.bind (F Axis.AXIS_Y.bit (Axis.AXIS_Y.bit ||| Axis.AXIS_Z.bit) .AXIS_Z)
        (Agrees.bind (F (Axis.AXIS_X.bit ||| Axis.AXIS_Y.bit)
          (Axis.AXIS_X.bit ||| Axis.AXIS_Y.bit ||| Axis.AXIS_Z.bit) .AXIS_Z)
        (Agrees.bind (E 0 Axis.AXIS_X.bit Axis.AXIS_Y.bit
          (Axis.AXIS_X.bit ||| Axis.AXIS_Y.bit) .AXIS_Z)
        (Agrees.bind (E Axis.AXIS_Z.bit (Axis.AXIS_X.bit ||| Axis.AXIS_Z.bit)
          (Axis.AXIS_Y.bit ||| Axis.AXIS_Z.bit)
          (Axis.AXIS_X.bit ||| Axis.AXIS_Y.bit ||| Axis.AXIS_Z.bit) .AXIS_Z)
        (Agrees.bind (E 0 Axis.AXIS_Y.bit Axis.AXIS_Z.bit
          (Axis.AXIS_Y.bit ||| Axis.AXIS_Z.bit) .AXIS_X)
        (Agrees.bind (E Axis.AXIS_X.bit (Axis.AXIS_Y.bit ||| Axis.AXIS_X.bit)
          (Axis.AXIS_Z.bit ||| Axis.AXIS_X.bit)
          (Axis.AXIS_Y.bit ||| Axis.AXIS_Z.bit ||| Axis.AXIS_X.bit) .AXIS_X)
        (Agrees.bind (E 0 Axis.AXIS_Z.bit Axis.AXIS_X.bit
          (Axis.AXIS_Z.bit ||| Axis.AXIS_X.bit) .AXIS_Y)
        (E Axis.AXIS_Y.bit (Axis.AXIS_Z.bit ||| Axis.AXIS_Y.bit)
          (Axis.AXIS_X.bit ||| Axis.AXIS_Y.bit)
          (Axis.AXIS_Z.bit ||| Axis.AXIS_X.bit ||| Axis.AXIS_Y.bit) .AXIS_Y)))))))))))))))))))
      intro s
      obtain ⟨cs, h, l⟩ := key s
      refine ⟨cs, ?_, l⟩
      rw [cellChecked, cell]
      simp only [Octree.getType, if_true]
      exact h

/-! ## Axis cycle, leaf faces, leaf-only reads and termination -/

/-- C11. Axis cycle: the axes have the values 1, 2, 4; `Q` sends X to Y, Y to Z and Z to
X; and for every axis `a`, `R a = Q (Q a)`, `Q (R a) = a`, the axes `a`, `Q a`, `R a` are
pairwise distinct and their values or to 7, and `(a, Q a, R a)` is a cyclic rotation of
`(X, Y, Z)`, a right-handed triple: the cross product of the unit vectors of `a` and
`Q a` is the unit vector of `R a`. -/
theorem axis_cycle :
    (Axis.AXIS_X.bit = 1 ∧ Axis.AXIS_Y.bit = 2 ∧ Axis.AXIS_Z.bit = 4) ∧
    (Q .AXIS_X = .AXIS_Y ∧ Q .AXIS_Y = .AXIS_Z ∧ Q .AXIS_Z = .AXIS_X) ∧
    ∀ a : Axis, R a = Q (Q a) ∧ Q (R a) = a ∧
      (a ≠ Q a ∧ Q a ≠ R a ∧ a ≠ R a) ∧
      a.bit ||| (Q a).bit ||| (R a).bit = 7 ∧
      (a, Q a, R a) ∈ [(Axis.AXIS_X, Axis.AXIS_Y, Axis.AXIS_Z),
        (Axis.AXIS_Y, Axis.AXIS_Z, Axis.AXIS_X), (Axis.AXIS_Z, Axis.AXIS_X, Axis.AXIS_Y)] ∧
      cross a.unit (Q a).unit = (R a).unit := by
  refine ⟨by decide, by decide, ?_⟩
  intro a
  cases a <;> decide

/-- C12. `face` on two leaves does no work: for every axis, every two leaves (whatever
their corner signs) and every worker, `face a b axis` returns the worker unchanged (map,
vertices and triangles), makes no call of `quad`, and in the logged run adds nothing to
the log but its own call: no call of `face`, `edge` or `quad` is made. -/
theorem face_on_leaves (a b : Octree) (axis : Axis) (w : Worker)
    (ha : a.getType = .LEAF) (hb : b.getType = .LEAF) :
    face a b axis w = w ∧
    (∀ n, faceQuads n a b axis = []) ∧
    ∀ n calls, faceChecked (n + 1) a b axis ⟨w, calls⟩ =
      .ok ⟨w, calls ++ [.face a b axis]⟩ := by
  have hB : ¬ (a.getType = .BRANCH ∨ b.getType = .BRANCH) := by
    rw [ha, hb]; decide
  refine ⟨?_, ?_, ?_⟩
  · rw [face]
    simp only [hB, dite_false]
  · intro n
    cases n <;> simp [faceQuads, hB]
  · intro n calls
    rw [faceChecked]
    simp only [hB, if_false]
    rfl

/-- C12, instance: a surface-crossing leaf next to an outside leaf, from a worker whose
map is not empty. -/
theorem face_on_leaves_witness :
    (leafAt 0 yLow).getType = .LEAF ∧ (leafAt 1 allOut).getType = .LEAF ∧
    face (leafAt 0 yLow) (leafAt 1 allOut) .AXIS_X staleWorker = staleWorker :=
  ⟨rfl, rfl, (face_on_leaves (leafAt 0 yLow) (leafAt 1 allOut) .AXIS_X staleWorker rfl rfl).1⟩

/-- C17. Only leaves reach `quad`. In the run of `cell root` in which `corner` and
`getVertex` are defined on leaves only, from every state and with every recursion
budget above four times the height of the tree, no read fails: the run returns, its
worker is that of `cell root`, and every `quad` call it logs has four leaf arguments.
The quad calls of `cell root` take their arguments among the leaves of the tree; when
one of its four arguments is not a leaf, the condition of `edge` is false without
reading any corner; and `child` hands a leaf back unchanged, which is how the leaf
neighbour of a branch arrives at `quad` at a T-junction. -/
theorem only_leaves_reach_quad (root : Octree) (s : Run) :
    (∀ n, 4 * root.height < n → ∃ cs,
      cellChecked n root s = .ok ⟨cell root s.w, s.calls ++ cs⟩ ∧ ∀ x ∈ cs, x.leafArgs) ∧
    (∀ q ∈ cellQuads root, ∀ x ∈ q.args, x.getType = .LEAF ∧ x ∈ root.leaves) ∧
    (∀ (a b c d : Octree) (axis : Axis),
      ¬ (a.getType = .LEAF ∧ b.getType = .LEAF ∧ c.getType = .LEAF ∧ d.getType = .LEAF) →
      edgeCondition a b c d axis = .ok false) ∧
    (∀ (l : Octree) (i : Fin 8), l.getType = .LEAF → l.child i = l) := by
  refine ⟨?_, ?_, ?_, ?_⟩
  · intro n hn
    exact cellChecked_agrees n root hn s
  · intro q hq x hx
    have h := (cellQuads_args root q hq).1 x hx
    exact ⟨Octree.getType_of_mem_leaves h, h⟩
  · intro a b c d axis h
    unfold edgeCondition
    rw [if_neg h]
    rfl
  · intro l i hl
    cases l with
    | LEAF a cs v => rfl
    | BRANCH a ch => simp [Octree.getType] at hl

/-- C18. The traversal terminates on every finite octree. With a recursion budget above
four times the height of its argument (twice the sum of the heights for `face`, the sum
of the heights for `edge`) the budgeted run returns, and what it returns is the value of
the total function `cell` (`face`, `edge`). `child` of a leaf is the leaf and `child` of a
branch is lower than the branch; on leaves `face` and `edge` return within a budget of
one call, that is without recursing; and when some argument is a branch, the arguments
of each recursive call of `face` and of `edge` have a strictly smaller sum of heights. -/
theorem traversal_terminates :
    (∀ (c : Octree) (s : Run) (n : Nat), 4 * c.height < n →
      ∃ cs, cellChecked n c s = .ok ⟨cell c s.w, s.calls ++ cs⟩) ∧
    (∀ (a b : Octree) (axis : Axis) (s : Run) (n : Nat), 2 * (a.height + b.height) < n →
      ∃ cs, faceChecked n a b axis s = .ok ⟨face a b axis s.w, s.calls ++ cs⟩) ∧
    (∀ (a b c d : Octree) (axis : Axis) (s : Run) (n : Nat),
      a.height + b.height + c.height + d.height < n →
      ∃ cs, edgeChecked n a b c d axis s = .ok ⟨edge a b c d axis s.w, s.calls ++ cs⟩) ∧
    (∀ (o : Octree) (i : Fin 8), (o.getType = .LEAF → o.child i = o) ∧
      (o.getType = .BRANCH → (o.child i).height < o.height)) ∧
    (∀ (a b : Octree) (axis : Axis) (s : Run), a.getType = .LEAF → b.getType = .LEAF →
      faceChecked 1 a b axis s = .ok (s.log (.face a b axis))) ∧
    (∀ (a b c d : Octree) (axis : Axis) (s : Run), a.getType = .LEAF → b.getType = .LEAF →
      c.getType = .LEAF → d.getType = .LEAF →
      ∃ cs, edgeChecked 1 a b c d axis s = .ok ⟨edge a b c d axis s.w, s.calls ++ cs⟩) ∧
    (∀ (a b : Octree) (axis : Axis), a.getType = .BRANCH ∨ b.getType = .BRANCH →
      ∀ p ∈ [(axis.bit, (0 : Fin 8)), ((Q axis).bit ||| axis.bit, (Q axis).bit),
          ((R axis).bit ||| axis.bit, (R axis).bit),
          ((Q axis).bit ||| (R axis).bit ||| axis.bit, (Q axis).bit ||| (R axis).bit)],
        (a.child p.1).height + (b.child p.2).height < a.height + b.height) ∧
    (∀ (a b c d : Octree) (axis : Axis),
      a.getType = .BRANCH ∨ b.getType = .BRANCH ∨ c.getType = .BRANCH ∨
        d.getType = .BRANCH →
      (a.child ((Q axis).bit ||| (R axis).bit)).height + (b.child (R axis).bit).height +
          (c.child (Q axis).bit).height + (d.child 0).height <
        a.height + b.height + c.height + d.height ∧
      (a.child ((Q axis).bit ||| (R axis).bit ||| axis.bit)).height +
          (b.child ((R axis).bit ||| axis.bit)).height +
          (c.child ((Q axis).bit ||| axis.bit)).height + (d.child axis.bit).height <
        a.height + b.height + c.height + d.height) := by
  have hleaf : ∀ o : Octree, o.getType = .LEAF → o.height = 0 := by
    intro o h
    cases o with
    | LEAF a cs v => rfl
    | BRANCH a ch => simp [Octree.getType] at h
  have hsum : ∀ (a b : Octree) (i j : Fin 8), a.getType = .BRANCH ∨ b.getType = .BRANCH →
      (a.child i).height + (b.child j).height < a.height + b.height := by
    intro a b i j h
    have ha := Octree.height_child_le a i
    have hb := Octree.height_child_le b j
    rcases h with h | h
    · have := Octree.height_child_lt a i h; omega
    · have := Octree.height_child_lt b j h; omega
  refine ⟨?_, ?_, ?_, ?_, ?_, ?_, ?_, ?_⟩
  · intro c s n hn
    obtain ⟨cs, h, _⟩ := cellChecked_agrees n c hn s
    exact ⟨cs, h⟩
  · intro a b axis s n hn
    obtain ⟨cs, h, _⟩ := faceChecked_agrees n a b axis hn s
    exact ⟨cs, h⟩
  · intro a b c d axis s n hn
    obtain ⟨cs, h, _⟩ := edgeChecked_ok n a b c d axis s hn
    exact ⟨cs, h⟩
  · intro o i
    refine ⟨?_, Octree.height_child_lt o i⟩
    intro hl
    cases o with
    | LEAF a cs v => rfl
    | BRANCH a ch => simp [Octree.getType] at hl
  · intro a b axis s ha hb
    have hB : ¬ (a.getType = .BRANCH ∨ b.getType = .BRANCH) := by
      rw [ha, hb]; decide
    rw [faceChecked]
    simp only [hB, if_false]
    rfl
  · intro a b c d axis s ha hb hc hd
    obtain ⟨cs, h, _⟩ := edgeChecked_ok 1 a b c d axis s
      (by rw [hleaf a ha, hleaf b hb, hleaf c hc, hleaf d hd]; decide)
    exact ⟨cs, h⟩
  · intro a b axis h p hp
    exact hsum a b p.1 p.2 h
  · intro a b c d axis h
    constructor
    · rcases h with h | h | h | h
      · have := hsum a b ((Q axis).bit ||| (R axis).bit) (R axis).bit (Or.inl h)
        have := Octree.height_child_le c (Q axis).bit
        have := Octree.height_child_le d 0
        omega
      · have := hsum a b ((Q axis).bit ||| (R axis).bit) (R axis).bit (Or.inr h)
        have := Octree.height_child_le c (Q axis).bit
        have := Octree.height_child_le d 0
        omega
      · have := hsum c d (Q axis).bit 0 (Or.inl h)
        have := Octree.height_child_le a ((Q axis).bit ||| (R axis).bit)
        have := Octree.height_child_le b (R axis).bit
        omega
      · have := hsum c d (Q axis).bit 0 (Or.inr h)
        have := Octree.height_child_le a ((Q axis).bit ||| (R axis).bit)
        have := Octree.height_child_le b (R axis).bit
        omega
    · rcases h with h | h | h | h
      · have := hsum a b ((Q axis).bit ||| (R axis).bit ||| axis.bit)
          ((R axis).bit ||| axis.bit) (Or.inl h)
        have := Octree.height_child_le c ((Q axis).bit ||| axis.bit)
        have := Octree.height_child_le d axis.bit
        omega
      · have := hsum a b ((Q axis).bit ||| (R axis).bit ||| axis.bit)
          ((R axis).bit ||| axis.bit) (Or.inr h)
        have := Octree.height_child_le c ((Q axis).bit ||| axis.bit)
        have := Octree.height_child_le d axis.bit
        omega
      · have := hsum c d ((Q axis).bit ||| axis.bit) axis.bit (Or.inl h)
        have := Octree.height_child_le a ((Q axis).bit ||| (R axis).bit ||| axis.bit)
        have := Octree.height_child_le b ((R axis).bit ||| axis.bit)
        omega
      · have := hsum c d ((Q axis).bit ||| axis.bit) axis.bit (Or.inr h)
        have := Octree.height_child_le a ((Q axis).bit ||| (R axis).bit ||| axis.bit)
        have := Octree.height_child_le b ((R axis).bit ||| axis.bit)
        omega

end DC

namespace Kernel

open Matrix

/-! ## The solver: orthogonal sweep -/

theorem reduce_nil {n : Nat} (m : Fin n → ℚ) : reduce [] m = m := rfl

theorem reduce_cons {n : Nat} (u : Fin n → ℚ) (B : List (Fin n → ℚ)) (m : Fin n → ℚ) :
    reduce (u :: B) m = reduce B (m - (m ⬝ᵥ u / u ⬝ᵥ u) • u) := rfl

theorem reduce_dot_of_orth {n : Nat} (B : List (Fin n → ℚ)) : ∀ (m w : Fin n → ℚ),
    (∀ u ∈ B, u ⬝ᵥ w = 0) → reduce B m ⬝ᵥ w = m ⬝ᵥ w := by
  induction B with
  | nil => intro m w _; rfl
  | cons u B ih =>
    intro m w h
    rw [reduce_cons, ih _ w (fun v hv => h v (List.mem_cons_of_mem u hv)),
      sub_dotProduct, smul_dotProduct, h u (List.mem_cons_self u B)]
    simp

theorem reduce_orth {n : Nat} (B : List (Fin n → ℚ)) : ∀ (m : Fin n → ℚ),
    B.Pairwise (fun u v => u ⬝ᵥ v = 0) → (∀ u ∈ B, u ⬝ᵥ u ≠ 0) →
    ∀ u ∈ B, reduce B m ⬝ᵥ u = 0 := by
  induction B with
  | nil => intro m _ _ u hu; simp at hu
  | cons u0 B ih =>
    intro m hp hn u hu
    rw [List.pairwise_cons] at hp
    rw [reduce_cons]
    rcases List.mem_cons.1 hu with rfl | hu
    · rw [reduce_dot_of_orth B _ u (fun v hv => by rw [dotProduct_comm]; exact hp.1 v hv),
        sub_dotProduct, smul_dotProduct, smul_eq_mul,
        div_mul_cancel₀ _ (hn u (List.mem_cons_self u B)), sub_self]
    · exact ih _ hp.2 (fun v hv => hn v (List.mem_cons_of_mem u0 hv)) u hu

theorem Sweep.Inv.start {n : Nat} (t zs : Fin n → ℚ) : Sweep.Inv [] t zs ⟨t, []⟩ where
  orth := List.Pairwise.nil
  nonzero := by intro u hu; simp at hu
  agree := by intro u hu; simp at hu
  moved := by intro w _; simp
  rowsIn := by intro p hp; simp at hp
  basisIn := by intro u hu; simp at hu

theorem Sweep.Inv.step {n : Nat} {rows : List ((Fin n → ℚ) × ℚ)} {t zs : Fin n → ℚ}
    {s : Sweep n} (h : Sweep.Inv rows t zs s) (m : Fin n → ℚ) (c : ℚ) (hc : m ⬝ᵥ zs = c) :
    Sweep.Inv (rows ++ [(m, c)]) t zs (s.step m c) := by
  unfold Sweep.step
  have hR1 := reduce_orth s.basis m h.orth h.nonzero
  have hR2 := fun w hw => reduce_dot_of_orth s.basis m w hw
  by_cases h0 : reduce s.basis m = 0
  · rw [if_pos h0]
    refine ⟨h.orth, h.nonzero, h.agree, h.moved, ?_, ?_⟩
    · intro p hp w hw
      rcases List.mem_append.1 hp with hp | hp
      · exact h.rowsIn p hp w hw
      · simp only [List.mem_singleton] at hp
        subst hp
        show m ⬝ᵥ w = 0
        rw [← hR2 w hw, h0, zero_dotProduct]
    · intro u hu w hw
      exact h.basisIn u hu w (fun p hp => hw p (List.mem_append_left _ hp))
  · rw [if_neg h0]
    have hnz : reduce s.basis m ⬝ᵥ reduce s.basis m ≠ 0 :=
      fun hz => h0 (dotProduct_self_eq_zero.1 hz)
    have hmem : ∀ u, u ∈ s.basis ++ [reduce s.basis m] ↔ u ∈ s.basis ∨ u = reduce s.basis m := by
      intro u; simp
    refine ⟨?_, ?_, ?_, ?_, ?_, ?_⟩
    · show (s.basis ++ [reduce s.basis m]).Pairwise _
      rw [List.pairwise_append]
      refine ⟨h.orth, List.pairwise_singleton _ _, ?_⟩
      intro u hu v hv
      simp only [List.mem_singleton] at hv
      subst hv
      rw [dotProduct_comm]
      exact hR1 u hu
    · intro u hu
      rcases (hmem u).1 hu with hu | rfl
      · exact h.nonzero u hu
      · exact hnz
    · intro u hu
      show u ⬝ᵥ (s.z + _ • reduce s.basis m - zs) = 0
      have e : s.z + ((c - m ⬝ᵥ s.z) / (reduce s.basis m ⬝ᵥ reduce s.basis m)) •
          reduce s.basis m - zs = (s.z - zs) +
          ((c - m ⬝ᵥ s.z) / (reduce s.basis m ⬝ᵥ reduce s.basis m)) • reduce s.basis m := by
        abel
      rw [e, dotProduct_add, dotProduct_smul, smul_eq_mul]
      rcases (hmem u).1 hu with hu | rfl
      · rw [h.agree u hu, dotProduct_comm u, hR1 u hu]
        simp
      · rw [hR2 (s.z - zs) h.agree, div_mul_cancel₀ _ hnz, dotProduct_sub, hc]
        ring
    · intro w hw
      show (s.z + _ • reduce s.basis m - t) ⬝ᵥ w = 0
      have e : s.z + ((c - m ⬝ᵥ s.z) / (reduce s.basis m ⬝ᵥ reduce s.basis m)) •
          reduce s.basis m - t = (s.z - t) +
          ((c - m ⬝ᵥ s.z) / (reduce s.basis m ⬝ᵥ reduce s.basis m)) • reduce s.basis m := by
        abel
      rw [e, add_dotProduct, smul_dotProduct,
        h.moved w (fun u hu => hw u ((hmem u).2 (Or.inl hu))),
        hw _ ((hmem _).2 (Or.inr rfl))]
      simp
    · intro p hp w hw
      have hw' : ∀ u ∈ s.basis, u ⬝ᵥ w = 0 := fun u hu => hw u ((hmem u).2 (Or.inl hu))
      rcases List.mem_append.1 hp with hp | hp
      · exact h.rowsIn p hp w hw'
      · simp only [List.mem_singleton] at hp
        subst hp
        show m ⬝ᵥ w = 0
        rw [← hR2 w hw']
        exact hw _ ((hmem _).2 (Or.inr rfl))
    · intro u hu w hw
      have hw' : ∀ p ∈ rows, p.1 ⬝ᵥ w = 0 := fun p hp => hw p (List.mem_append_left _ hp)
      rcases (hmem u).1 hu with hu | rfl
      · exact h.basisIn u hu w hw'
      · rw [hR2 w (fun u hu => h.basisIn u hu w hw')]
        exact hw (m, c) (List.mem_append_right _ (List.mem_singleton_self _))

theorem sweep_append {n : Nat} (rows : List ((Fin n → ℚ) × ℚ)) (p : (Fin n → ℚ) × ℚ)
    (t : Fin n → ℚ) : sweep (rows ++ [p]) t = (sweep rows t).step p.1 p.2 := by
  simp [sweep, List.foldl_append]

theorem sweep_inv {n : Nat} (rows : List ((Fin n → ℚ) × ℚ)) (t zs : Fin n → ℚ)
    (h : ∀ p ∈ rows, p.1 ⬝ᵥ zs = p.2) : Sweep.Inv rows t zs (sweep rows t) := by
  induction rows using List.reverseRecOn with
  | nil => exact Sweep.Inv.start t zs
  | append_singleton l p ih =>
    rw [sweep_append]
    exact (ih (fun q hq => h q (List.mem_append_left _ hq))).step p.1 p.2
      (h p (List.mem_append_right _ (List.mem_singleton_self p)))

theorem sweep_solves {n : Nat} (rows : List ((Fin n → ℚ) × ℚ)) (t zs : Fin n → ℚ)
    (h : ∀ p ∈ rows, p.1 ⬝ᵥ zs = p.2) : ∀ p ∈ rows, p.1 ⬝ᵥ (sweep rows t).z = p.2 := by
  intro p hp
  have inv := sweep_inv rows t zs h
  have := inv.rowsIn p hp _ inv.agree
  rw [dotProduct_sub, h p hp] at this
  linarith

theorem distSq_nonneg {n : Nat} (u v : Fin n → ℚ) : 0 ≤ distSq u v := by
  unfold distSq dotProduct
  exact Finset.sum_nonneg (fun i _ => mul_self_nonneg _)

theorem distSq_eq_zero {n : Nat} (u v : Fin n → ℚ) : distSq u v = 0 ↔ u = v := by
  unfold distSq
  rw [dotProduct_self_eq_zero, sub_eq_zero]

theorem sweep_pythagoras {n : Nat} (rows : List ((Fin n → ℚ) × ℚ)) (t zs : Fin n → ℚ)
    (h : ∀ p ∈ rows, p.1 ⬝ᵥ zs = p.2) (z' : Fin n → ℚ)
    (h' : ∀ p ∈ rows, p.1 ⬝ᵥ z' = p.2) :
    distSq z' t = distSq z' (sweep rows t).z + distSq (sweep rows t).z t := by
  have inv := sweep_inv rows t zs h
  have hs := sweep_solves rows t zs h
  have horth : ((sweep rows t).z - t) ⬝ᵥ (z' - (sweep rows t).z) = 0 := by
    apply inv.moved
    intro u hu
    apply inv.basisIn u hu
    intro p hp
    rw [dotProduct_sub, h' p hp, hs p hp, sub_self]
  have e : z' - t = (z' - (sweep rows t).z) + ((sweep rows t).z - t) := by abel
  unfold distSq
  rw [e, add_dotProduct, dotProduct_add, dotProduct_add, horth,
    dotProduct_comm (z' - (sweep rows t).z) ((sweep rows t).z - t), horth]
  ring

theorem nearest_eq_sweep {n : Nat} (M : Fin n → Fin n → ℚ) (c t : Fin n → ℚ) :
    nearest M c t = sweep ((List.finRange n).map (fun i => (M i, c i))) t := by
  simp [nearest, sweep, List.foldl_map]

theorem nearest_solves {n : Nat} (M : Fin n → Fin n → ℚ) (c t zs : Fin n → ℚ)
    (h : ∀ i, M i ⬝ᵥ zs = c i) : ∀ i, M i ⬝ᵥ (nearest M c t).z = c i := by
  intro i
  rw [nearest_eq_sweep]
  exact sweep_solves _ t zs (by
    intro p hp
    obtain ⟨j, _, rfl⟩ := List.mem_map.1 hp
    exact h j) (M i, c i) (List.mem_map.2 ⟨i, List.mem_finRange i, rfl⟩)

theorem nearest_pythagoras {n : Nat} (M : Fin n → Fin n → ℚ) (c t zs : Fin n → ℚ)
    (h : ∀ i, M i ⬝ᵥ zs = c i) (z' : Fin n → ℚ) (h' : ∀ i, M i ⬝ᵥ z' = c i) :
    distSq z' t = distSq z' (nearest M c t).z + distSq (nearest M c t).z t := by
  rw [nearest_eq_sweep]
  apply sweep_pythagoras _ t zs
  · intro p hp
    obtain ⟨j, _, rfl⟩ := List.mem_map.1 hp
    exact h j
  · intro p hp
    obtain ⟨j, _, rfl⟩ := List.mem_map.1 hp
    exact h' j

/-! ## The accumulators of a list of samples -/

theorem insert_AtA_dot {N : Nat} (q : QEF N) (p n : Fin N → ℚ) (v : ℚ)
    (i : Fin (N + 1)) (z : Fin (N + 1) → ℚ) :
    (q.insert p n v).AtA i ⬝ᵥ z = q.AtA i ⬝ᵥ z + row n i * (row n ⬝ᵥ z) := by
  simp only [QEF.insert, dotProduct, add_mul, Finset.sum_add_distrib, Finset.mul_sum,
    mul_assoc]

theorem insert_quad {N : Nat} (q : QEF N) (p n : Fin N → ℚ) (v : ℚ)
    (z : Fin (N + 1) → ℚ) :
    z ⬝ᵥ (fun i => (q.insert p n v).AtA i ⬝ᵥ z) =
      z ⬝ᵥ (fun i => q.AtA i ⬝ᵥ z) + (row n ⬝ᵥ z) ^ 2 := by
  simp only [insert_AtA_dot]
  have : (fun i => q.AtA i ⬝ᵥ z + row n i * (row n ⬝ᵥ z)) =
      (fun i => q.AtA i ⬝ᵥ z) + (row n ⬝ᵥ z) • row n := by
    funext i; simp [mul_comm]
  rw [this, dotProduct_add, dotProduct_smul, smul_eq_mul, dotProduct_comm z (row n)]
  ring

theorem errorAt_insert {N : Nat} (q : QEF N) (p n : Fin N → ℚ) (v : ℚ)
    (z : Fin (N + 1) → ℚ) :
    (q.insert p n v).errorAt z = q.errorAt z + (row n ⬝ᵥ z - rhs p n v) ^ 2 := by
  unfold QEF.errorAt
  rw [insert_quad]
  have : (q.insert p n v).AtB = q.AtB + rhs p n v • row n := by
    funext i; simp [QEF.insert, mul_comm]
  rw [this, dotProduct_add, dotProduct_smul, smul_eq_mul, dotProduct_comm z (row n)]
  simp only [QEF.insert]
  ring

theorem errorAt_empty {N : Nat} (z : Fin (N + 1) → ℚ) : (QEF.empty N).errorAt z = 0 := by
  simp [QEF.errorAt, QEF.empty, dotProduct]

theorem quad_empty {N : Nat} (z : Fin (N + 1) → ℚ) :
    z ⬝ᵥ (fun i => (QEF.empty N).AtA i ⬝ᵥ z) = 0 := by
  simp [QEF.empty, dotProduct]

theorem errorAt_foldl {N : Nat} (z : Fin (N + 1) → ℚ) (l : List (Sample N)) :
    ∀ q : QEF N, 0 ≤ q.errorAt z →
    0 ≤ (l.foldl (fun q s => q.insert s.position s.normal s.value) q).errorAt z ∧
    ((l.foldl (fun q s => q.insert s.position s.normal s.value) q).errorAt z = 0 ↔
      q.errorAt z = 0 ∧
      ∀ s ∈ l, row s.normal ⬝ᵥ z = rhs s.position s.normal s.value) := by
  induction l with
  | nil => intro q hq; simp [hq]
  | cons s l ih =>
    intro q hq
    have hsq := sq_nonneg (row s.normal ⬝ᵥ z - rhs s.position s.normal s.value)
    have h1 : 0 ≤ (q.insert s.position s.normal s.value).errorAt z := by
      rw [errorAt_insert]; linarith
    obtain ⟨h2, h3⟩ := ih _ h1
    refine ⟨h2, ?_⟩
    rw [List.foldl_cons, h3, errorAt_insert]
    constructor
    · rintro ⟨ha, hb⟩
      have hz : q.errorAt z = 0 := by linarith
      have hs : (row s.normal ⬝ᵥ z - rhs s.position s.normal s.value) ^ 2 = 0 := by linarith
      refine ⟨hz, ?_⟩
      intro s' hs'
      rcases List.mem_cons.1 hs' with rfl | hs'
      · exact sub_eq_zero.1 ((pow_eq_zero_iff two_ne_zero).1 hs)
      · exact hb s' hs'
    · rintro ⟨ha, hb⟩
      refine ⟨?_, fun s' hs' => hb s' (List.mem_cons_of_mem s hs')⟩
      rw [ha, hb s (List.mem_cons_self s l)]
      simp

theorem quad_foldl {N : Nat} (z : Fin (N + 1) → ℚ) (l : List (Sample N)) :
    ∀ q : QEF N, 0 ≤ z ⬝ᵥ (fun i => q.AtA i ⬝ᵥ z) →
    0 ≤ z ⬝ᵥ (fun i =>
      (l.foldl (fun q s => q.insert s.position s.normal s.value) q).AtA i ⬝ᵥ z) ∧
    (z ⬝ᵥ (fun i =>
      (l.foldl (fun q s => q.insert s.position s.normal s.value) q).AtA i ⬝ᵥ z) = 0 ↔
      z ⬝ᵥ (fun i => q.AtA i ⬝ᵥ z) = 0 ∧ ∀ s ∈ l, row s.normal ⬝ᵥ z = 0) := by
  induction l with
  | nil => intro q hq; simp [hq]
  | cons s l ih =>
    intro q hq
    have hsq := sq_nonneg (row s.normal ⬝ᵥ z)
    have h1 : 0 ≤ z ⬝ᵥ (fun i => (q.insert s.position s.normal s.value).AtA i ⬝ᵥ z) := by
      rw [insert_quad]; linarith
    obtain ⟨h2, h3⟩ := ih _ h1
    refine ⟨h2, ?_⟩
    rw [List.foldl_cons, h3, insert_quad]
    constructor
    · rintro ⟨ha, hb⟩
      have hz : z ⬝ᵥ (fun i => q.AtA i ⬝ᵥ z) = 0 := by linarith
      have hs : (row s.normal ⬝ᵥ z) ^ 2 = 0 := by linarith
      refine ⟨hz, ?_⟩
      intro s' hs'
      rcases List.mem_cons.1 hs' with rfl | hs'
      · exact (pow_eq_zero_iff two_ne_zero).1 hs
      · exact hb s' hs'
    · rintro ⟨ha, hb⟩
      refine ⟨?_, fun s' hs' => hb s' (List.mem_cons_of_mem s hs')⟩
      rw [ha, hb s (List.mem_cons_self s l)]
      simp

theorem normalEq_foldl {N : Nat} (z : Fin (N + 1) → ℚ) (l : List (Sample N)) :
    ∀ q : QEF N, (∀ i, q.AtA i ⬝ᵥ z = q.AtB i) →
    (∀ s ∈ l, row s.normal ⬝ᵥ z = rhs s.position s.normal s.value) →
    ∀ i, (l.foldl (fun q s => q.insert s.position s.normal s.value) q).AtA i ⬝ᵥ z =
      (l.foldl (fun q s => q.insert s.position s.normal s.value) q).AtB i := by
  induction l with
  | nil => intro q hq _; exact hq
  | cons s l ih =>
    intro q hq hs
    rw [List.foldl_cons]
    apply ih
    · intro i
      rw [insert_AtA_dot, hq i, hs s (List.mem_cons_self s l)]
      rfl
    · exact fun s' hs' => hs s' (List.mem_cons_of_mem s hs')

/-- A point has zero error exactly when it satisfies the equation of every sample. -/
theorem errorAt_ofSamples_eq_zero {N : Nat} (l : List (Sample N)) (z : Fin (N + 1) → ℚ) :
    (QEF.ofSamples l).errorAt z = 0 ↔
      ∀ s ∈ l, row s.normal ⬝ᵥ z = rhs s.position s.normal s.value := by
  have := (errorAt_foldl z l (QEF.empty N) (le_of_eq (errorAt_empty z).symm)).2
  rw [errorAt_empty] at this
  simpa [QEF.ofSamples] using this

theorem errorAt_ofSamples_nonneg {N : Nat} (l : List (Sample N)) (z : Fin (N + 1) → ℚ) :
    0 ≤ (QEF.ofSamples l).errorAt z :=
  (errorAt_foldl z l (QEF.empty N) (le_of_eq (errorAt_empty z).symm)).1

theorem normalEq_ofSamples {N : Nat} (l : List (Sample N)) (z : Fin (N + 1) → ℚ)
    (h : (QEF.ofSamples l).errorAt z = 0) :
    ∀ i, (QEF.ofSamples l).AtA i ⬝ᵥ z = (QEF.ofSamples l).AtB i :=
  normalEq_foldl z l (QEF.empty N) (by intro i; simp [QEF.empty, dotProduct])
    ((errorAt_ofSamples_eq_zero l z).1 h)

/-- With one point of zero error, every solution of the normal equations has zero
error. -/
theorem errorAt_of_normalEq {N : Nat} (l : List (Sample N)) (z zs : Fin (N + 1) → ℚ)
    (hs : (QEF.ofSamples l).errorAt zs = 0)
    (hz : ∀ i, (QEF.ofSamples l).AtA i ⬝ᵥ z = (QEF.ofSamples l).AtB i) :
    (QEF.ofSamples l).errorAt z = 0 := by
  have hzs := normalEq_ofSamples l zs hs
  have hq : (z - zs) ⬝ᵥ (fun i => (QEF.ofSamples l).AtA i ⬝ᵥ (z - zs)) = 0 := by
    have : (fun i => (QEF.ofSamples l).AtA i ⬝ᵥ (z - zs)) = 0 := by
      funext i
      rw [dotProduct_sub, hz i, hzs i, sub_self]
      rfl
    rw [this, dotProduct_zero]
  have h0 := (quad_foldl (z - zs) l (QEF.empty N) (le_of_eq (quad_empty _).symm)).2
  rw [quad_empty] at h0
  have h1 := (h0.1 hq).2
  rw [errorAt_ofSamples_eq_zero] at hs ⊢
  intro s hsl
  have := h1 s hsl
  rw [dotProduct_sub, sub_eq_zero] at this
  rw [this, hs s hsl]

theorem solve_point {N : Nat} (q : QEF N) (tp : Fin N → ℚ) (tv : ℚ) :
    (Fin.snoc (q.solve tp tv).position (q.solve tp tv).value : Fin (N + 1) → ℚ) =
      (nearest q.AtA q.AtB (Fin.snoc tp tv)).z := by
  funext i
  refine Fin.lastCases ?_ (fun j => ?_) i
  · simp [QEF.solve]
  · simp [QEF.solve]

theorem solve_error {N : Nat} (q : QEF N) (tp : Fin N → ℚ) (tv : ℚ) :
    (q.solve tp tv).error = q.errorAt (Fin.snoc (q.solve tp tv).position (q.solve tp tv).value) := by
  rw [solve_point]; rfl

/-- When the samples have a common point of zero error, `solve` returns a point of zero
error, and the squared distance from any point of zero error to the target is its squared
distance to the returned point plus that of the returned point to the target. -/
theorem solve_of_consistent {N : Nat} (l : List (Sample N)) (tp : Fin N → ℚ) (tv : ℚ)
    (zs : Fin (N + 1) → ℚ) (hs : (QEF.ofSamples l).errorAt zs = 0) :
    ((QEF.ofSamples l).solve tp tv).error = 0 ∧
    ∀ z', (QEF.ofSamples l).errorAt z' = 0 →
      distSq z' (Fin.snoc tp tv) =
        distSq z' (Fin.snoc ((QEF.ofSamples l).solve tp tv).position
          ((QEF.ofSamples l).solve tp tv).value) +
        distSq (Fin.snoc ((QEF.ofSamples l).solve tp tv).position
          ((QEF.ofSamples l).solve tp tv).value) (Fin.snoc tp tv) := by
  have hne := normalEq_ofSamples l zs hs
  constructor
  · rw [solve_error, solve_point]
    exact errorAt_of_normalEq l _ zs hs (nearest_solves _ _ _ zs hne)
  · intro z' hz'
    rw [solve_point]
    exact nearest_pythagoras _ _ _ zs hne z' (normalEq_ofSamples l z' hz')

theorem row_last {N : Nat} (n : Fin N → ℚ) : row n (Fin.last N) = -1 := by
  simp [row]

theorem row_castSucc {N : Nat} (n : Fin N → ℚ) (k : Fin N) : row n k.castSucc = n k := by
  simp [row]

theorem row_dot_self_ne {N : Nat} (n : Fin N → ℚ) : row n ⬝ᵥ row n ≠ 0 := by
  intro h
  have := congrFun (dotProduct_self_eq_zero.1 h) (Fin.last N)
  rw [row_last] at this
  norm_num at this

theorem row_dot {N : Nat} (n : Fin N → ℚ) (p : Fin N → ℚ) (v : ℚ) :
    row n ⬝ᵥ (Fin.snoc p v : Fin (N + 1) → ℚ) = n ⬝ᵥ p - v := by
  simp [row, dotProduct, Fin.sum_univ_castSucc]
  ring

theorem AtA_foldl_same {N : Nat} (n : Fin N → ℚ) (l : List (Sample N)) :
    ∀ q : QEF N, (∀ s ∈ l, s.normal = n) → ∀ i j,
    (l.foldl (fun q s => q.insert s.position s.normal s.value) q).AtA i j =
      q.AtA i j + l.length * (row n i * row n j) := by
  induction l with
  | nil => intro q _ i j; simp
  | cons s l ih =>
    intro q h i j
    rw [List.foldl_cons, ih _ (fun s' hs' => h s' (List.mem_cons_of_mem s hs'))]
    simp only [QEF.insert, h s (List.mem_cons_self s l), List.length_cons]
    push_cast
    ring

theorem AtA_ofSamples_same {N : Nat} (n : Fin N → ℚ) (l : List (Sample N))
    (h : ∀ s ∈ l, s.normal = n) (i : Fin (N + 1)) :
    (QEF.ofSamples l).AtA i = ((l.length : ℚ) * row n i) • row n := by
  funext j
  rw [QEF.ofSamples, AtA_foldl_same n l _ h]
  simp [QEF.empty]
  ring

/-- The directions of a sweep over multiples of one vector `r`: none while the rows are
zero, then one multiple of `r`. -/
theorem sweep_basis_rank_one {n : Nat} (r : Fin n → ℚ) (hr : r ⬝ᵥ r ≠ 0)
    (rows : List ((Fin n → ℚ) × ℚ)) (t : Fin n → ℚ)
    (hrows : ∀ p ∈ rows, ∃ b : ℚ, p.1 = b • r) :
    ((sweep rows t).basis = [] ∧ ∀ p ∈ rows, p.1 = 0) ∨
    ∃ a : ℚ, a ≠ 0 ∧ (sweep rows t).basis = [a • r] := by
  induction rows using List.reverseRecOn with
  | nil => left; exact ⟨rfl, by simp⟩
  | append_singleton l p ih =>
    rw [sweep_append]
    obtain ⟨b, hb⟩ := hrows p (List.mem_append_right _ (List.mem_singleton_self p))
    rcases ih (fun q hq => hrows q (List.mem_append_left _ hq)) with ⟨h1, h2⟩ | ⟨a, ha, h1⟩
    · unfold Sweep.step
      rw [h1, reduce_nil]
      by_cases h0 : p.1 = 0
      · rw [if_pos h0]
        left
        refine ⟨h1, ?_⟩
        intro q hq
        rcases List.mem_append.1 hq with hq | hq
        · exact h2 q hq
        · simp only [List.mem_singleton] at hq
          rw [hq]; exact h0
      · rw [if_neg h0]
        right
        refine ⟨b, ?_, ?_⟩
        · rintro rfl
          apply h0
          rw [hb, zero_smul]
        · simp [hb]
    · right
      refine ⟨a, ha, ?_⟩
      unfold Sweep.step
      have hred : reduce (sweep l t).basis p.1 = 0 := by
        rw [h1, reduce_cons, reduce_nil, hb]
        simp only [smul_dotProduct, dotProduct_smul, smul_eq_mul, smul_smul]
        have : a * (b * r ⬝ᵥ r) / (a * (a * r ⬝ᵥ r)) * a = b := by
          field_simp
          ring
        rw [this, sub_self]
      rw [if_pos hred, h1]

theorem solve_rank_same_normal {N : Nat} (n : Fin N → ℚ) (l : List (Sample N))
    (hl : l ≠ []) (h : ∀ s ∈ l, s.normal = n) (tp : Fin N → ℚ) (tv : ℚ) :
    ((QEF.ofSamples l).solve tp tv).rank = 0 := by
  have hk : (l.length : ℚ) ≠ 0 := by
    have : l.length ≠ 0 := fun h0 => hl (List.length_eq_zero.1 h0)
    exact_mod_cast this
  have hrows : ∀ p ∈ (List.finRange (N + 1)).map
      (fun i => ((QEF.ofSamples l).AtA i, (QEF.ofSamples l).AtB i)),
      ∃ b : ℚ, p.1 = b • row n := by
    intro p hp
    obtain ⟨i, _, rfl⟩ := List.mem_map.1 hp
    exact ⟨_, AtA_ofSamples_same n l h i⟩
  show (nearest _ _ _).basis.length - 1 = 0
  rw [nearest_eq_sweep]
  rcases sweep_basis_rank_one (row n) (row_dot_self_ne n) _ (Fin.snoc tp tv) hrows with
    ⟨h1, _⟩ | ⟨a, _, h1⟩
  · rw [h1]; rfl
  · rw [h1]; rfl

/-! ## The tests of the repository and the wording of the specification -/

/-- With the row `[n | 1]` and the right-hand side `n·p + v`, the two samples of the line
of the test, `(1, 1, 3)` and `(4, −1/2, 3)`, have their common solution at position 2 with
value 2, where the test requires the value 4. -/
theorem spec_row_line (x y : ℚ) (h1 : 1 * x + y = 1 * 1 + 3)
    (h2 : (-1/2) * x + y = (-1/2) * 4 + 3) : x = 2 ∧ y = 2 := by
  constructor <;> linarith

/-- The requirements of the test `QEF::solve`, section "Underconstrained (flat surface)". -/
theorem test_solve_flat :
    ((flatSheet.solve ![0, 0] 0).position = ![0, 0] ∧ (flatSheet.solve ![0, 0] 0).error = 0 ∧
      (flatSheet.solve ![0, 0] 0).rank = 0) ∧
    ((flatSheet.solve ![1, 0] 0).position = ![1, 0] ∧ (flatSheet.solve ![1, 0] 0).error = 0 ∧
      (flatSheet.solve ![1, 0] 0).rank = 0) ∧
    ((flatSheet.solve ![1, 0] 1).position = ![1, 1/2] ∧
      (flatSheet.solve ![1, 0] 1).error = 0 ∧ (flatSheet.solve ![1, 0] 1).value = 1/2 ∧
      (flatSheet.solve ![1, 0] 1).rank = 0) := by
  decide!

/-- The requirements of the test `QEF::solveConstrained`. -/
theorem test_solveConstrained :
    ((flatSheet.solveConstrained 0 ⟨![1, 0], ![2, 1]⟩ ![0, 0] 0).position = ![1, 0] ∧
      (flatSheet.solveConstrained 0 ⟨![1, 0], ![2, 1]⟩ ![0, 0] 0).error = 0 ∧
      (flatSheet.solveConstrained 0 ⟨![1, 0], ![2, 1]⟩ ![0, 0] 0).value = 0) ∧
    ((flatSheet.solveConstrained 1 ⟨![1, 0], ![2, 1]⟩ ![0, 0] 0).position = ![2, 0] ∧
      (flatSheet.solveConstrained 1 ⟨![1, 0], ![2, 1]⟩ ![0, 0] 0).error = 0 ∧
      (flatSheet.solveConstrained 1 ⟨![1, 0], ![2, 1]⟩ ![0, 0] 0).value = 0) ∧
    ((flatSheet.solveConstrained 2 ⟨![1, 0], ![2, 1]⟩ ![3/4, 0] 0).position = ![3/4, 0] ∧
      (flatSheet.solveConstrained 2 ⟨![1, 0], ![2, 1]⟩ ![3/4, 0] 0).error = 0 ∧
      (flatSheet.solveConstrained 2 ⟨![1, 0], ![2, 1]⟩ ![3/4, 0] 0).value = 0) ∧
    ((flatSheet.solveConstrained 6 ⟨![1, 0], ![2, 1]⟩ ![3/4, 3/4] (3/4)).position =
        ![1, 3/4] ∧
      (flatSheet.solveConstrained 6 ⟨![1, 0], ![2, 1]⟩ ![3/4, 3/4] (3/4)).error = 0 ∧
      (flatSheet.solveConstrained 6 ⟨![1, 0], ![2, 1]⟩ ![3/4, 3/4] (3/4)).value = 3/4) ∧
    ((flatSheet.solveConstrained 7 ⟨![1, 0], ![2, 1]⟩ ![3/4, 3/4] (1/4)).position =
        ![2, 1/2] ∧
      (flatSheet.solveConstrained 7 ⟨![1, 0], ![2, 1]⟩ ![3/4, 3/4] (1/4)).error = 0 ∧
      (flatSheet.solveConstrained 7 ⟨![1, 0], ![2, 1]⟩ ![3/4, 3/4] (1/4)).value = 1/2) := by
  decide!

theorem flatSheet_AtA (i j : Fin 3) :
    flatSheet.AtA i j = 2 * (row ![0, 1] i * row ![0, 1] j) := by
  simp [flatSheet, QEF.insert, QEF.empty]
  ring

/-- The closed form of the specification on the flat sheet of the test, for the target
`(1, 0)` with value target 1 and a weight `w > 0`: its solution is
`(1, 2/(4+w), 1 − 2/(4+w))`, whose error `2w²/(4+w)²` is not 0. -/
theorem closed_form_flat (w : ℚ) (hw : 0 < w) (z : Fin 3 → ℚ) :
    (flatSheet.closedForm w ![1, 0, 1] z ↔ z = ![1, 2 / (4 + w), 1 - 2 / (4 + w)]) ∧
    flatSheet.errorAt ![1, 2 / (4 + w), 1 - 2 / (4 + w)] = 2 * w ^ 2 / (4 + w) ^ 2 ∧
    flatSheet.errorAt ![1, 2 / (4 + w), 1 - 2 / (4 + w)] ≠ 0 := by
  have h4 : (4 + w) ≠ 0 := by linarith
  have hAtB : ∀ i, flatSheet.AtB i = 0 := by
    intro i; simp [flatSheet, QEF.insert, QEF.empty, rhs, dotProduct, Fin.sum_univ_succ]
  have hBtB : flatSheet.BtB = 0 := by
    simp [flatSheet, QEF.insert, QEF.empty, rhs, dotProduct, Fin.sum_univ_succ]
  have hrow : ∀ (u : Fin 3 → ℚ) (i : Fin 3),
      flatSheet.AtA i ⬝ᵥ u = 2 * row ![0, 1] i * (u 1 - u 2) := by
    intro u i
    simp only [dotProduct, flatSheet_AtA, Fin.sum_univ_succ, Finset.univ_unique,
      Finset.sum_singleton]
    have r0 : row ![0, 1] 0 = 0 := rfl
    have r1 : row ![0, 1] (Fin.succ 0) = 1 := rfl
    have r2 : row ![0, 1] (Fin.succ (Fin.succ default)) = -1 := rfl
    rw [r0, r1, r2]
    have e1 : (Fin.succ 0 : Fin 3) = 1 := rfl
    have e2 : (Fin.succ (Fin.succ default) : Fin 3) = 2 := rfl
    rw [e1, e2]
    ring
  have r0 : row ![0, 1] 0 = 0 := rfl
  have r1 : row ![0, 1] 1 = 1 := rfl
  have r2 : row ![0, 1] 2 = -1 := rfl
  have herr : flatSheet.errorAt ![1, 2 / (4 + w), 1 - 2 / (4 + w)] =
      2 * w ^ 2 / (4 + w) ^ 2 := by
    unfold QEF.errorAt
    rw [hBtB]
    have : (fun i => flatSheet.AtA i ⬝ᵥ ![1, 2 / (4 + w), 1 - 2 / (4 + w)]) =
        fun i => 2 * row ![0, 1] i * (2 / (4 + w) - (1 - 2 / (4 + w))) := by
      funext i; rw [hrow]; rfl
    rw [this]
    have hB : flatSheet.AtB = 0 := funext hAtB
    rw [hB, dotProduct_zero]
    simp only [dotProduct, Fin.sum_univ_succ, Finset.univ_unique, Finset.sum_singleton]
    have e1 : (Fin.succ 0 : Fin 3) = 1 := rfl
    have e2 : (Fin.succ (Fin.succ default) : Fin 3) = 2 := rfl
    rw [e1, e2, r0, r1, r2]
    simp only [Matrix.cons_val_zero, Matrix.cons_val_one, Matrix.head_cons,
      Matrix.cons_val_two, Matrix.tail_cons]
    field_simp
    ring
  refine ⟨?_, herr, ?_⟩
  · unfold QEF.closedForm
    constructor
    · intro h
      have h0 := h 0
      have h1 := h 1
      have h2 := h 2
      rw [hrow, hAtB, r0] at h0
      rw [hrow, hAtB, r1] at h1
      rw [hrow, hAtB, r2] at h2
      simp only [Matrix.cons_val_zero, Matrix.cons_val_one, Matrix.head_cons,
        Matrix.cons_val_two, Matrix.tail_cons] at h0 h1 h2
      have hw' : w ≠ 0 := ne_of_gt hw
      have z0 : z 0 = 1 := by
        have : w * (z 0 - 1) = 0 := by linarith
        rcases mul_eq_zero.1 this with h' | h'
        · exact absurd h' hw'
        · linarith
      have z1 : z 1 = 2 / (4 + w) := by
        rw [eq_div_iff h4]
        have : w * (z 1 * (4 + w) - 2) = 0 := by linear_combination (2 + w) * h1 + 2 * h2
        rcases mul_eq_zero.1 this with h' | h'
        · exact absurd h' hw'
        · linarith
      have z2 : z 2 = 1 - 2 / (4 + w) := by
        have : w * (z 2 - (1 - z 1)) = 0 := by linear_combination h1 + h2
        rcases mul_eq_zero.1 this with h' | h'
        · exact absurd h' hw'
        · rw [← z1]; linarith
      funext i
      fin_cases i
      · exact z0
      · exact z1
      · exact z2
    · rintro rfl i
      rw [hrow, hAtB]
      fin_cases i
      · show 2 * row ![0, 1] 0 * _ + _ = _
        rw [r0]
        simp
      · show 2 * row ![0, 1] 1 * _ + _ = _
        rw [r1]
        simp only [Matrix.cons_val_one, Matrix.head_cons, Matrix.cons_val_two,
          Matrix.tail_cons, Matrix.cons_val_zero]
        field_simp
        ring
      · show 2 * row ![0, 1] 2 * _ + _ = _
        rw [r2]
        simp only [Matrix.cons_val_one, Matrix.head_cons, Matrix.cons_val_two,
          Matrix.tail_cons, Matrix.cons_val_zero]
        field_simp
        ring
  · rw [herr]
    have : 0 < 2 * w ^ 2 / (4 + w) ^ 2 := by positivity
    exact ne_of_gt this

/-! ## Solve on underconstrained and fully constrained problems -/

theorem nearest_moved {n : Nat} (M : Fin n → Fin n → ℚ) (c t zs : Fin n → ℚ)
    (h : ∀ i, M i ⬝ᵥ zs = c i) (w : Fin n → ℚ)
    (hw : ∀ u ∈ (nearest M c t).basis, u ⬝ᵥ w = 0) :
    ((nearest M c t).z - t) ⬝ᵥ w = 0 := by
  rw [nearest_eq_sweep] at hw ⊢
  exact (sweep_inv _ t zs (by
    intro p hp
    obtain ⟨j, _, rfl⟩ := List.mem_map.1 hp
    exact h j)).moved w hw

theorem errorAt_same_rhs {N : Nat} (l : List (Sample N)) (n : Fin N → ℚ) (β : ℚ)
    (h : ∀ s ∈ l, s.normal = n ∧ n ⬝ᵥ s.position - s.value = β) (p : Fin N → ℚ) (v : ℚ)
    (hp : n ⬝ᵥ p - v = β) : (QEF.ofSamples l).errorAt (Fin.snoc p v) = 0 := by
  rw [errorAt_ofSamples_eq_zero]
  intro s hs
  obtain ⟨h1, h2⟩ := h s hs
  rw [h1, row_dot, hp, rhs, h2]

theorem exists_zero_error {N : Nat} (l : List (Sample N)) (n : Fin N → ℚ) (β : ℚ)
    (h : ∀ s ∈ l, s.normal = n ∧ n ⬝ᵥ s.position - s.value = β) :
    ∃ zs, (QEF.ofSamples l).errorAt zs = 0 := by
  cases l with
  | nil => exact ⟨0, errorAt_empty 0⟩
  | cons s l =>
    exact ⟨Fin.snoc s.position s.value, errorAt_same_rhs _ n β h _ _
      (h s (List.mem_cons_self s l)).2⟩

/-- C13 (amended). The flat sheet of the test solves, for the target `(1, 0)` with value
target 1, to the position `(1, 1/2)` with value `1/2` and error 0, and for the value
target 0 to the position `(1, 0)` with error 0. In general, for every `QEF<2>` whose
samples all share one normal `n` and one right-hand side `n·p − v` (samples of equal value
on one line perpendicular to `n`), `solve(p*, v*)` returns a (position, value) of zero
error, and every (position, value) of zero error is at least as far from `(p*, v*)`, and
as far only if it is the returned one. -/
theorem solve_underconstrained :
    ((flatSheet.solve ![1, 0] 1).position = ![1, 1/2] ∧
      (flatSheet.solve ![1, 0] 1).value = 1/2 ∧ (flatSheet.solve ![1, 0] 1).error = 0 ∧
      (flatSheet.solve ![1, 0] 0).position = ![1, 0] ∧
      (flatSheet.solve ![1, 0] 0).error = 0) ∧
    ∀ (l : List (Sample 2)) (n : Fin 2 → ℚ) (β : ℚ),
      (∀ s ∈ l, s.normal = n ∧ n ⬝ᵥ s.position - s.value = β) →
      ∀ (tp : Fin 2 → ℚ) (tv : ℚ),
        ((QEF.ofSamples l).solve tp tv).error = 0 ∧
        (QEF.ofSamples l).errorAt (Fin.snoc ((QEF.ofSamples l).solve tp tv).position
          ((QEF.ofSamples l).solve tp tv).value) = 0 ∧
        ∀ (p : Fin 2 → ℚ) (v : ℚ), (QEF.ofSamples l).errorAt (Fin.snoc p v) = 0 →
          distSq (Fin.snoc ((QEF.ofSamples l).solve tp tv).position
            ((QEF.ofSamples l).solve tp tv).value) (Fin.snoc tp tv) ≤
            distSq (Fin.snoc p v) (Fin.snoc tp tv) ∧
          (distSq (Fin.snoc p v) (Fin.snoc tp tv) =
            distSq (Fin.snoc ((QEF.ofSamples l).solve tp tv).position
              ((QEF.ofSamples l).solve tp tv).value) (Fin.snoc tp tv) →
            p = ((QEF.ofSamples l).solve tp tv).position ∧
            v = ((QEF.ofSamples l).solve tp tv).value) := by
  refine ⟨by decide!, ?_⟩
  intro l n β h tp tv
  obtain ⟨zs, hzs⟩ := exists_zero_error l n β h
  obtain ⟨h1, h2⟩ := solve_of_consistent l tp tv zs hzs
  refine ⟨h1, ?_, ?_⟩
  · rw [← solve_error]; exact h1
  · intro p v hpv
    have e := h2 _ hpv
    have hn := distSq_nonneg (Fin.snoc p v : Fin 3 → ℚ)
      (Fin.snoc ((QEF.ofSamples l).solve tp tv).position ((QEF.ofSamples l).solve tp tv).value)
    refine ⟨by linarith, ?_⟩
    intro heq
    have hz : distSq (Fin.snoc p v : Fin 3 → ℚ)
        (Fin.snoc ((QEF.ofSamples l).solve tp tv).position
          ((QEF.ofSamples l).solve tp tv).value) = 0 := by linarith
    rw [distSq_eq_zero] at hz
    constructor
    · funext k
      have := congrFun hz k.castSucc
      simpa using this
    · have := congrFun hz (Fin.last 2)
      simpa using this

/-- C13, instance of the general part: the flat sheet of the test and the target
`(1, 0)` with value target 1. -/
theorem solve_underconstrained_witness :
    (flatSheet.solve ![1, 0] 1).error = 0 ∧
    flatSheet.errorAt (Fin.snoc (flatSheet.solve ![1, 0] 1).position
      (flatSheet.solve ![1, 0] 1).value) = 0 :=
  ⟨(solve_underconstrained.2 (planeSamples ![0, 1] [![1, 0], ![2, 0]]) ![0, 1] 0
      (by decide!) ![1, 0] 1).1,
   (solve_underconstrained.2 (planeSamples ![0, 1] [![1, 0], ![2, 0]]) ![0, 1] 0
      (by decide!) ![1, 0] 1).2.1⟩

/-- C13, counterexample. Two samples of value 0 that share the normal `(0, 1)` and lie on
the line `x = 0`, at `(0, 0)` and `(0, 1)`: no (position, value) has zero error, and
`solve` returns with the error `1/2`. -/
theorem solve_underconstrained_counterexample :
    (∀ s ∈ skewSamples, s.normal = ![0, 1] ∧ s.value = 0 ∧ s.position 0 = 0) ∧
    (∀ z, (QEF.ofSamples skewSamples).errorAt z ≠ 0) ∧
    ((QEF.ofSamples skewSamples).solve ![1, 0] 1).error = 1/2 := by
  refine ⟨by decide!, ?_, by decide!⟩
  intro z hz
  rw [errorAt_ofSamples_eq_zero] at hz
  have h1 := hz ⟨![0, 0], ![0, 1], 0⟩ (by simp [skewSamples])
  have h2 := hz ⟨![0, 1], ![0, 1], 0⟩ (by simp [skewSamples])
  simp only [rhs] at h1 h2
  rw [h1] at h2
  norm_num [dotProduct, Fin.sum_univ_succ] at h2

theorem planeSamples_same {N : Nat} (n : Fin N → ℚ) (c : ℚ) (pts : List (Fin N → ℚ))
    (hp : ∀ p ∈ pts, n ⬝ᵥ p = c) :
    ∀ s ∈ planeSamples n pts, s.normal = n ∧ n ⬝ᵥ s.position - s.value = c := by
  intro s hs
  obtain ⟨p, hpm, rfl⟩ := List.mem_map.1 hs
  exact ⟨rfl, by simp [hp p hpm]⟩

/-- C15 (amended). For every dimension, every unit normal `n` and every non-empty list of
points on the plane `n·x = c`, the QEF of the samples `(p, n, 0)` solves, for every
target, with error 0 and rank 0, and the returned position equals the target position
exactly when the target itself has zero error (`n·p* − v* = c`); the returned value is
then the value target. -/
theorem linear_recovery {N : Nat} (n : Fin N → ℚ) (c : ℚ) (pts : List (Fin N → ℚ))
    (hn : n ⬝ᵥ n = 1) (hne : pts ≠ []) (hp : ∀ p ∈ pts, n ⬝ᵥ p = c)
    (tp : Fin N → ℚ) (tv : ℚ) :
    ((QEF.ofSamples (planeSamples n pts)).solve tp tv).error = 0 ∧
    ((QEF.ofSamples (planeSamples n pts)).solve tp tv).rank = 0 ∧
    (((QEF.ofSamples (planeSamples n pts)).solve tp tv).position = tp ↔ n ⬝ᵥ tp - tv = c) ∧
    (n ⬝ᵥ tp - tv = c → ((QEF.ofSamples (planeSamples n pts)).solve tp tv).value = tv) := by
  have hsame := planeSamples_same n c pts hp
  have hne' : planeSamples n pts ≠ [] := by
    simpa [planeSamples] using hne
  obtain ⟨zs, hzs⟩ := exists_zero_error _ n c hsame
  obtain ⟨h1, h2⟩ := solve_of_consistent (planeSamples n pts) tp tv zs hzs
  have hback : n ⬝ᵥ tp - tv = c →
      (Fin.snoc ((QEF.ofSamples (planeSamples n pts)).solve tp tv).position
        ((QEF.ofSamples (planeSamples n pts)).solve tp tv).value : Fin (N + 1) → ℚ) =
        Fin.snoc tp tv := by
    intro ht
    have e := h2 _ (errorAt_same_rhs _ n c hsame tp tv ht)
    have hn1 := distSq_nonneg (Fin.snoc tp tv : Fin (N + 1) → ℚ)
      (Fin.snoc ((QEF.ofSamples (planeSamples n pts)).solve tp tv).position
        ((QEF.ofSamples (planeSamples n pts)).solve tp tv).value)
    have hn2 := distSq_nonneg
      (Fin.snoc ((QEF.ofSamples (planeSamples n pts)).solve tp tv).position
        ((QEF.ofSamples (planeSamples n pts)).solve tp tv).value : Fin (N + 1) → ℚ)
      (Fin.snoc tp tv)
    have e0 : distSq (Fin.snoc tp tv : Fin (N + 1) → ℚ) (Fin.snoc tp tv) = 0 :=
      (distSq_eq_zero _ _).2 rfl
    have : distSq (Fin.snoc ((QEF.ofSamples (planeSamples n pts)).solve tp tv).position
        ((QEF.ofSamples (planeSamples n pts)).solve tp tv).value : Fin (N + 1) → ℚ)
        (Fin.snoc tp tv) = 0 := by linarith
    exact (distSq_eq_zero _ _).1 this
  refine ⟨h1, solve_rank_same_normal n _ hne' (fun s hs => (hsame s hs).1) tp tv, ?_, ?_⟩
  · constructor
    · intro hpos
      -- the move from the target is along the row of the samples
      have hmoved := nearest_moved (QEF.ofSamples (planeSamples n pts)).AtA
        (QEF.ofSamples (planeSamples n pts)).AtB (Fin.snoc tp tv) zs
        (normalEq_ofSamples _ zs hzs) (Fin.snoc n (n ⬝ᵥ n))
        (by
          intro u hu
          have hrows : ∀ p ∈ (List.finRange (N + 1)).map
              (fun i => ((QEF.ofSamples (planeSamples n pts)).AtA i,
                (QEF.ofSamples (planeSamples n pts)).AtB i)),
              ∃ b : ℚ, p.1 = b • row n := by
            intro p hp
            obtain ⟨i, _, rfl⟩ := List.mem_map.1 hp
            exact ⟨_, AtA_ofSamples_same n _ (fun s hs => (hsame s hs).1) i⟩
          rw [nearest_eq_sweep] at hu
          rcases sweep_basis_rank_one (row n) (row_dot_self_ne n) _ (Fin.snoc tp tv) hrows with
            ⟨hb, _⟩ | ⟨a, _, hb⟩
          · rw [hb] at hu; simp at hu
          · rw [hb] at hu
            simp only [List.mem_singleton] at hu
            rw [hu, smul_dotProduct, row_dot, sub_self, smul_zero])
      rw [← solve_point] at hmoved
      have hval : ((QEF.ofSamples (planeSamples n pts)).solve tp tv).value = tv := by
        rw [hpos] at hmoved
        have e : (Fin.snoc tp ((QEF.ofSamples (planeSamples n pts)).solve tp tv).value -
            Fin.snoc tp tv : Fin (N + 1) → ℚ) =
            Fin.snoc (0 : Fin N → ℚ)
              (((QEF.ofSamples (planeSamples n pts)).solve tp tv).value - tv) := by
          funext i
          refine Fin.lastCases ?_ (fun j => ?_) i <;> simp
        rw [e, hn] at hmoved
        simp only [dotProduct, Fin.sum_univ_castSucc, Fin.snoc_castSucc, Fin.snoc_last,
          Pi.zero_apply, zero_mul, Finset.sum_const_zero, zero_add, mul_one] at hmoved
        linarith
      have hz := h1
      rw [solve_error, hpos, hval, errorAt_ofSamples_eq_zero] at hz
      obtain ⟨s, hs⟩ := List.exists_mem_of_ne_nil _ hne'
      have := hz s hs
      rw [(hsame s hs).1, row_dot, rhs, (hsame s hs).2] at this
      exact this
    · intro ht
      have := hback ht
      funext k
      have := congrFun this k.castSucc
      simpa using this
  · intro ht
    have := congrFun (hback ht) (Fin.last N)
    simpa using this

/-- C15, instance: the flat sheet of the test with the target `(1, 0)` and value
target 0. -/
theorem linear_recovery_witness :
    (flatSheet.solve ![1, 0] 0).error = 0 ∧ (flatSheet.solve ![1, 0] 0).rank = 0 ∧
    (flatSheet.solve ![1, 0] 0).position = ![1, 0] :=
  have h := linear_recovery ![0, 1] 0 [![1, 0], ![2, 0]] (by decide!) (by decide!)
    (by decide!) ![1, 0] 0
  ⟨h.1, h.2.1, h.2.2.1.2 (by decide!)⟩

/-- C15, counterexample. The flat sheet of the test (unit normal `(0, 1)`, the points
`(1, 0)` and `(2, 0)` of the plane `y = 0`, value 0) solves with rank 0, not 1, and for
the target `(1, 0)` with value target 1 the returned position is `(1, 1/2)`, not the
target. -/
theorem linear_recovery_counterexample :
    ((![0, 1] : Fin 2 → ℚ) ⬝ᵥ ![0, 1] = 1 ∧
      ∀ p ∈ [(![1, 0] : Fin 2 → ℚ), ![2, 0]], (![0, 1] : Fin 2 → ℚ) ⬝ᵥ p = 0) ∧
    ((QEF.ofSamples (planeSamples ![0, 1] [![1, 0], ![2, 0]])).solve ![1, 0] 0).rank ≠ 1 ∧
    ((QEF.ofSamples (planeSamples ![0, 1] [![1, 0], ![2, 0]])).solve ![1, 0] 1).rank ≠ 1 ∧
    ((QEF.ofSamples (planeSamples ![0, 1] [![1, 0], ![2, 0]])).solve ![1, 0] 1).position ≠
      ![1, 0] := by
  decide!

theorem row_one_zero (n : Fin 1 → ℚ) : row n 0 = n 0 := rfl

theorem row_one_one (n : Fin 1 → ℚ) : row n 1 = -1 := rfl

theorem dot_one (u v : Fin 1 → ℚ) : u ⬝ᵥ v = u 0 * v 0 := by
  simp [dotProduct]

theorem dot_two (u v : Fin 2 → ℚ) : u ⬝ᵥ v = u 0 * v 0 + u 1 * v 1 := by
  simp [dotProduct, Fin.sum_univ_succ]

theorem AtA_two (s1 s2 : Sample 1) (i j : Fin 2) :
    (QEF.ofSamples [s1, s2]).AtA i j =
      row s1.normal i * row s1.normal j + row s2.normal i * row s2.normal j := by
  simp [QEF.ofSamples, QEF.insert, QEF.empty]

theorem finRange_two : List.finRange 2 = [0, 1] := rfl

theorem step_basis_of_ne {n : Nat} (s : Sweep n) (m : Fin n → ℚ) (c : ℚ)
    (h : reduce s.basis m ≠ 0) : (s.step m c).basis = s.basis ++ [reduce s.basis m] := by
  unfold Sweep.step
  rw [if_neg h]

theorem solve_rank_two (s1 s2 : Sample 1) (h : s1.normal 0 ≠ s2.normal 0)
    (tp : Fin 1 → ℚ) (tv : ℚ) : ((QEF.ofSamples [s1, s2]).solve tp tv).rank = 1 := by
  have hd : s1.normal 0 - s2.normal 0 ≠ 0 := sub_ne_zero.2 h
  have h00 : (QEF.ofSamples [s1, s2]).AtA 0 0 = s1.normal 0 ^ 2 + s2.normal 0 ^ 2 := by
    rw [AtA_two, row_one_zero, row_one_zero]; ring
  have h01 : (QEF.ofSamples [s1, s2]).AtA 0 1 = -(s1.normal 0 + s2.normal 0) := by
    rw [AtA_two, row_one_zero, row_one_zero, row_one_one, row_one_one]; ring
  have h10 : (QEF.ofSamples [s1, s2]).AtA 1 0 = -(s1.normal 0 + s2.normal 0) := by
    rw [AtA_two, row_one_zero, row_one_zero, row_one_one, row_one_one]; ring
  have h11 : (QEF.ofSamples [s1, s2]).AtA 1 1 = 2 := by
    rw [AtA_two, row_one_one, row_one_one]; ring
  have hM0 : (QEF.ofSamples [s1, s2]).AtA 0 ≠ 0 := by
    intro h0
    have e := congrFun h0 0
    rw [h00] at e
    simp only [Pi.zero_apply] at e
    have h1 : s1.normal 0 ^ 2 = 0 := by
      have := sq_nonneg (s1.normal 0); have := sq_nonneg (s2.normal 0); linarith
    have h2 : s2.normal 0 ^ 2 = 0 := by
      have := sq_nonneg (s1.normal 0); have := sq_nonneg (s2.normal 0); linarith
    exact h (by rw [(pow_eq_zero_iff two_ne_zero).1 h1, (pow_eq_zero_iff two_ne_zero).1 h2])
  have hM1 : reduce [(QEF.ofSamples [s1, s2]).AtA 0] ((QEF.ofSamples [s1, s2]).AtA 1) ≠ 0 := by
    intro h0
    rw [reduce_cons, reduce_nil] at h0
    generalize (QEF.ofSamples [s1, s2]).AtA 1 ⬝ᵥ (QEF.ofSamples [s1, s2]).AtA 0 /
      (QEF.ofSamples [s1, s2]).AtA 0 ⬝ᵥ (QEF.ofSamples [s1, s2]).AtA 0 = lam at h0
    have e0 := congrFun h0 0
    have e1 := congrFun h0 1
    simp only [Pi.sub_apply, Pi.smul_apply, smul_eq_mul, Pi.zero_apply, h00, h01, h10,
      h11] at e0 e1
    have : (s1.normal 0 - s2.normal 0) ^ 2 = 0 := by
      linear_combination (s1.normal 0 ^ 2 + s2.normal 0 ^ 2) * e1 +
        (s1.normal 0 + s2.normal 0) * e0
    exact hd ((pow_eq_zero_iff two_ne_zero).1 this)
  show (nearest _ _ _).basis.length - 1 = 1
  unfold nearest
  rw [finRange_two]
  simp only [List.foldl_cons, List.foldl_nil]
  have s0 : (Sweep.step ⟨Fin.snoc tp tv, []⟩ ((QEF.ofSamples [s1, s2]).AtA 0)
      ((QEF.ofSamples [s1, s2]).AtB 0)).basis = [(QEF.ofSamples [s1, s2]).AtA 0] := by
    rw [step_basis_of_ne _ _ _ (by rw [reduce_nil]; exact hM0)]
    rfl
  rw [step_basis_of_ne _ _ _ (by rw [s0]; exact hM1), s0]
  rfl

theorem exists_zero_error_two (s1 s2 : Sample 1) (h : s1.normal 0 ≠ s2.normal 0) :
    ∃ zs, (QEF.ofSamples [s1, s2]).errorAt zs = 0 := by
  have hd : s1.normal 0 - s2.normal 0 ≠ 0 := sub_ne_zero.2 h
  refine ⟨Fin.snoc ![(rhs s1.position s1.normal s1.value - rhs s2.position s2.normal s2.value) /
      (s1.normal 0 - s2.normal 0)]
    (s1.normal 0 * ((rhs s1.position s1.normal s1.value -
      rhs s2.position s2.normal s2.value) / (s1.normal 0 - s2.normal 0)) -
      rhs s1.position s1.normal s1.value), ?_⟩
  rw [errorAt_ofSamples_eq_zero]
  intro s hs
  simp only [List.mem_cons, List.mem_singleton, List.not_mem_nil, or_false] at hs
  rcases hs with rfl | rfl
  · rw [row_dot, dot_one]
    simp
  · rw [row_dot, dot_one]
    simp only [Matrix.cons_val_zero]
    field_simp
    ring

theorem sample_equation {N : Nat} (l : List (Sample N)) (p : Fin N → ℚ) (v : ℚ)
    (h : (QEF.ofSamples l).errorAt (Fin.snoc p v) = 0) :
    ∀ s ∈ l, v = s.value + s.normal ⬝ᵥ (p - s.position) := by
  intro s hs
  have := (errorAt_ofSamples_eq_zero l _).1 h s hs
  rw [row_dot, rhs] at this
  rw [dotProduct_sub]
  linarith

/-- C14. The line of the test solves, without a target (the target 0 with value target 0)
and with the target −97 and value target 103 alike, to the position 2 with value 4, error 0 and rank 1. In general, for
every `QEF<1>` with two inserted samples whose normals differ, `solve(p*, v*)` returns the
same position and value for every target, with error 0 and rank 1, and the result
satisfies the equation of both samples exactly: the returned value is the value of the
sample carried along its normal to the returned position. -/
theorem solve_fully_constrained :
    ((line.solve ![0] 0).position = ![2] ∧ (line.solve ![0] 0).value = 4 ∧
      (line.solve ![0] 0).error = 0 ∧ (line.solve ![0] 0).rank = 1 ∧
      (line.solve ![-97] 103).position = ![2] ∧ (line.solve ![-97] 103).value = 4 ∧
      (line.solve ![-97] 103).error = 0 ∧ (line.solve ![-97] 103).rank = 1) ∧
    ∀ (s1 s2 : Sample 1), s1.normal ≠ s2.normal →
      ∀ (tp : Fin 1 → ℚ) (tv : ℚ) (tp' : Fin 1 → ℚ) (tv' : ℚ),
        ((QEF.ofSamples [s1, s2]).solve tp tv).position =
          ((QEF.ofSamples [s1, s2]).solve tp' tv').position ∧
        ((QEF.ofSamples [s1, s2]).solve tp tv).value =
          ((QEF.ofSamples [s1, s2]).solve tp' tv').value ∧
        ((QEF.ofSamples [s1, s2]).solve tp tv).error = 0 ∧
        ((QEF.ofSamples [s1, s2]).solve tp tv).rank = 1 ∧
        ∀ s ∈ [s1, s2], ((QEF.ofSamples [s1, s2]).solve tp tv).value =
          s.value + s.normal ⬝ᵥ (((QEF.ofSamples [s1, s2]).solve tp tv).position - s.position) := by
  refine ⟨by decide!, ?_⟩
  intro s1 s2 hne tp tv tp' tv'
  have h : s1.normal 0 ≠ s2.normal 0 := by
    intro h0
    apply hne
    funext i
    rw [Subsingleton.elim i 0]
    exact h0
  have hd : s1.normal 0 - s2.normal 0 ≠ 0 := sub_ne_zero.2 h
  obtain ⟨zs, hzs⟩ := exists_zero_error_two s1 s2 h
  have key : ∀ (tp : Fin 1 → ℚ) (tv : ℚ),
      ((QEF.ofSamples [s1, s2]).solve tp tv).error = 0 ∧
      ∀ s ∈ [s1, s2], ((QEF.ofSamples [s1, s2]).solve tp tv).value =
        s.value + s.normal ⬝ᵥ (((QEF.ofSamples [s1, s2]).solve tp tv).position - s.position) := by
    intro tp tv
    have h1 := (solve_of_consistent [s1, s2] tp tv zs hzs).1
    refine ⟨h1, sample_equation _ _ _ ?_⟩
    rw [← solve_error]; exact h1
  obtain ⟨e1, q1⟩ := key tp tv
  obtain ⟨_, q2⟩ := key tp' tv'
  have a1 := q1 s1 (by simp)
  have a2 := q1 s2 (by simp)
  have b1 := q2 s1 (by simp)
  have b2 := q2 s2 (by simp)
  simp only [dot_one, Pi.sub_apply] at a1 a2 b1 b2
  have hx : ((QEF.ofSamples [s1, s2]).solve tp tv).position 0 =
      ((QEF.ofSamples [s1, s2]).solve tp' tv').position 0 := by
    have : (s1.normal 0 - s2.normal 0) *
        (((QEF.ofSamples [s1, s2]).solve tp tv).position 0 -
          ((QEF.ofSamples [s1, s2]).solve tp' tv').position 0) = 0 := by
      linear_combination a2 - a1 + b1 - b2
    rcases mul_eq_zero.1 this with h' | h'
    · exact absurd h' hd
    · exact sub_eq_zero.1 h'
  refine ⟨?_, ?_, e1, solve_rank_two s1 s2 h tp tv, q1⟩
  · funext i
    rw [Subsingleton.elim i 0]
    exact hx
  · rw [a1, b1, hx]

/-! ## Bounded solve -/

theorem reduce_coord_zero {n : Nat} (j : Fin n) (B : List (Fin n → ℚ)) :
    ∀ m : Fin n → ℚ, (∀ u ∈ B, u j = 0) → m j = 0 → reduce B m j = 0 := by
  induction B with
  | nil => intro m _ h; exact h
  | cons u B ih =>
    intro m hB hm
    rw [reduce_cons]
    apply ih _ (fun v hv => hB v (List.mem_cons_of_mem u hv))
    simp [hm, hB u (List.mem_cons_self u B)]

theorem sweep_coord_fixed {n : Nat} (j : Fin n) (rows : List ((Fin n → ℚ) × ℚ))
    (t : Fin n → ℚ) (h : ∀ p ∈ rows, p.1 j = 0) :
    (sweep rows t).z j = t j ∧ ∀ u ∈ (sweep rows t).basis, u j = 0 := by
  induction rows using List.reverseRecOn with
  | nil => exact ⟨rfl, by intro u hu; simp [sweep] at hu⟩
  | append_singleton l p ih =>
    obtain ⟨h1, h2⟩ := ih (fun q hq => h q (List.mem_append_left _ hq))
    have hp := h p (List.mem_append_right _ (List.mem_singleton_self p))
    have hr := reduce_coord_zero j (sweep l t).basis p.1 h2 hp
    rw [sweep_append]
    unfold Sweep.step
    by_cases h0 : reduce (sweep l t).basis p.1 = 0
    · rw [if_pos h0]; exact ⟨h1, h2⟩
    · rw [if_neg h0]
      refine ⟨by simp [h1, hr], ?_⟩
      intro u hu
      rcases List.mem_append.1 hu with hu | hu
      · exact h2 u hu
      · simp only [List.mem_singleton] at hu
        rw [hu]; exact hr

theorem solveConstrained_pinned {N : Nat} (q : QEF N) (code : Nat) (r : Region N)
    (tp : Fin N → ℚ) (tv : ℚ) (k : Fin N) (hk : digit code k ≠ 2) :
    (q.solveConstrained code r tp tv).position k =
      if digit code k = 1 then r.hi k else r.lo k := by
  simp only [QEF.solveConstrained]
  rw [nearest_eq_sweep, (sweep_coord_fixed k.castSucc _ _ ?_).1]
  · simp [hk]
  · intro p hp
    obtain ⟨i, _, rfl⟩ := List.mem_map.1 hp
    simp [hk]

theorem digit_zero (k : Nat) : digit 0 k = 0 := by
  simp [digit]

theorem solveConstrained_zero {N : Nat} (q : QEF N) (r : Region N)
    (tp : Fin N → ℚ) (tv : ℚ) : (q.solveConstrained 0 r tp tv).position = r.lo := by
  funext k
  rw [solveConstrained_pinned q 0 r tp tv k (by rw [digit_zero]; decide), digit_zero]
  simp

theorem pick_mem {N : Nat} (rest : List (Solution N)) :
    ∀ first : Solution N, pick first rest = first ∨ pick first rest ∈ rest := by
  induction rest with
  | nil => intro first; left; rfl
  | cons s rest ih =>
    intro first
    unfold pick
    rw [List.foldl_cons]
    by_cases hb : s.better first
    · rw [if_pos hb]
      rcases ih s with h | h
      · right; rw [show List.foldl _ s rest = pick s rest from rfl, h]
        exact List.mem_cons_self s rest
      · right; exact List.mem_cons_of_mem s h
    · rw [if_neg hb]
      rcases ih first with h | h
      · left; exact h
      · right; exact List.mem_cons_of_mem s h

/-- C16. Bounded solve containment: for every `QEF<N>`, every region with `lo ≤ hi` on
each axis and every array of corner values (and whatever candidates the corner values
reject), the position returned by `solveBounded` lies in the box of the region. -/
theorem solveBounded_contained {N : Nat}
    (reject : (Fin (2 ^ N) → ℚ) → Solution N → Bool) (q : QEF N) (r : Region N)
    (corners : Fin (2 ^ N) → ℚ) (hr : ∀ k, r.lo k ≤ r.hi k) :
    r.contains (q.solveBounded reject r corners).position := by
  unfold QEF.solveBounded
  by_cases h1 : r.contains (q.solve r.center (cornerMean corners)).position
  · simp only [h1, if_true]
  · simp only [h1, if_false]
    have hN : 0 < N := by
      rcases Nat.eq_zero_or_pos N with h0 | h0
      · subst h0
        exact absurd (fun k => Fin.elim0 k) h1
      · exact h0
    have hcode : 0 < 3 ^ N - 1 := by
      have : 3 ^ 1 ≤ 3 ^ N := Nat.pow_le_pow_right (by decide) hN
      omega
    have hin : ∀ s ∈ ((List.range (3 ^ N - 1)).map
        (fun code => q.solveConstrained code r r.center (cornerMean corners))).filter
        (fun s => decide (r.contains s.position)), r.contains s.position := by
      intro s hs
      simpa using (List.mem_filter.1 hs).2
    have hne : ((List.range (3 ^ N - 1)).map
        (fun code => q.solveConstrained code r r.center (cornerMean corners))).filter
        (fun s => decide (r.contains s.position)) ≠ [] := by
      apply List.ne_nil_of_mem (a := q.solveConstrained 0 r r.center (cornerMean corners))
      rw [List.mem_filter]
      refine ⟨List.mem_map.2 ⟨0, List.mem_range.2 hcode, rfl⟩, ?_⟩
      rw [decide_eq_true_iff, solveConstrained_zero]
      exact fun k => ⟨le_refl _, hr k⟩
    generalize ((List.range (3 ^ N - 1)).map
        (fun code => q.solveConstrained code r r.center (cornerMean corners))).filter
        (fun s => decide (r.contains s.position)) = inBox at hin hne
    have hsub : ∀ s ∈ inBox.filter (fun s => !reject corners s), r.contains s.position :=
      fun s hs => hin s (List.mem_filter.1 hs).1
    generalize inBox.filter (fun s => !reject corners s) = kept at hsub
    cases kept with
    | cons s rest =>
      simp only
      rcases pick_mem rest s with h | h
      · rw [h]; exact hsub s (List.mem_cons_self s rest)
      · exact hsub _ (List.mem_cons_of_mem s h)
    | nil =>
      cases inBox with
      | nil => exact absurd rfl hne
      | cons s rest =>
        simp only
        rcases pick_mem rest s with h | h
        · rw [h]; exact hin s (List.mem_cons_self s rest)
        · exact hin _ (List.mem_cons_of_mem s h)

/-- C16, instance: the flat sheet of the test with the region `lo = (1, 0)`,
`hi = (2, 1)` and the corner values `{0, 0, 1, 1}` yields the position `(3/2, 1/2)`, the
value `1/2` and the error 0. -/
theorem solveBounded_contained_witness :
    (⟨![1, 0], ![2, 1]⟩ : Region 2).contains
      (flatSheet.solveBounded (fun _ _ => false) ⟨![1, 0], ![2, 1]⟩ ![0, 0, 1, 1]).position ∧
    (flatSheet.solveBounded (fun _ _ => false) ⟨![1, 0], ![2, 1]⟩ ![0, 0, 1, 1]).position =
      ![3/2, 1/2] ∧
    (flatSheet.solveBounded (fun _ _ => false) ⟨![1, 0], ![2, 1]⟩ ![0, 0, 1, 1]).value = 1/2 ∧
    (flatSheet.solveBounded (fun _ _ => false) ⟨![1, 0], ![2, 1]⟩ ![0, 0, 1, 1]).error = 0 :=
  ⟨solveBounded_contained (fun _ _ => false) flatSheet ⟨![1, 0], ![2, 1]⟩ ![0, 0, 1, 1]
    (by decide!), by decide!, by decide!, by decide!⟩

end Kernel
